import Mathlib

set_option linter.unreachableTactic false
set_option linter.unusedTactic false

/-!
Verification development for the pycfa control-flow analysis package.

The first part embeds the mutable labelled directed graph of
`pycfa/cfgraph.py` (class `CFGraph`).  Nodes are represented by natural
numbers (Python `CFNode` objects are compared by identity; the analyser
allocates them one at a time, which we model with a counter).  The two
dictionaries `_edges` (source ↦ label ↦ target) and `_backedges`
(target ↦ set of (source, label)) are represented by association lists,
and the node set `_nodes` by a duplicate-free list.

Python methods that mutate `self` and may raise `ValueError` are embedded
as functions returning the (possibly partially mutated) graph together
with an optional error: a raised exception leaves the already-performed
mutations in place, exactly as in Python, so the returned graph is the
state of the object after the call in both the normal and the error case.
-/

namespace PyCFA

/-- Edge labels are strings, as in `cfgraph.py` (`NEXT = "next"`, etc.). -/
abbrev Label := String

/-- Association-list lookup: first entry with the given key, if any.
Mirrors Python `dict.__getitem__` / `dict.get`. -/
def lookupA {κ ν : Type} [DecidableEq κ] : List (κ × ν) → κ → Option ν
  | [], _ => none
  | (k, v) :: rest, key => if k = key then some v else lookupA rest key

/-- Association-list update: replace the value at the first entry with the
given key, or append a new entry at the end.  Mirrors Python
`dict.__setitem__` (insertion-ordered dictionaries). -/
def setA {κ ν : Type} [DecidableEq κ] : List (κ × ν) → κ → ν → List (κ × ν)
  | [], key, val => [(key, val)]
  | (k, v) :: rest, key, val =>
      if k = key then (key, val) :: rest else (k, v) :: setA rest key val

/-- Association-list deletion: remove the first entry with the given key.
Mirrors Python `dict.pop` / `del`. -/
def delA {κ ν : Type} [DecidableEq κ] : List (κ × ν) → κ → List (κ × ν)
  | [], _ => []
  | (k, v) :: rest, key => if k = key then rest else (k, v) :: delA rest key

/--
The directed graph underlying the control flow graph
(`pycfa/cfgraph.py`, class `CFGraph`).

* `nodes` models `self._nodes : Set[NodeType]`.
* `edges` models `self._edges : Dict[NodeType, Dict[str, NodeType]]`.
* `backedges` models `self._backedges : Dict[NodeType, Set[Tuple[NodeType, str]]]`.
-/
structure CFGraph where
  nodes : List Nat
  edges : List (Nat × List (Label × Nat))
  backedges : List (Nat × List (Nat × Label))
deriving Repr, DecidableEq

/-- `CFGraph.__init__`: empty node set, no edges, no backedges. -/
def CFGraph.empty : CFGraph := ⟨[], [], []⟩

/-- `node in graph` (`CFGraph.__contains__`). -/
def CFGraph.mem (g : CFGraph) (n : Nat) : Prop := n ∈ g.nodes

instance : Decidable (CFGraph.mem g n) := by unfold CFGraph.mem; infer_instance

/-- The forward-edge dictionary of a single node, `self._edges[source]`
(empty when the node has no entry). -/
def CFGraph.fwd (g : CFGraph) (s : Nat) : List (Label × Nat) :=
  (lookupA g.edges s).getD []

/-- `CFGraph.edge(source, label)`: the target of a given edge.  Python
raises `KeyError` when the edge is absent; we return `none` there. -/
def CFGraph.edge (g : CFGraph) (s : Nat) (l : Label) : Option Nat :=
  lookupA (g.fwd s) l

/-- `CFGraph.edge_labels(source)`: labels of all outgoing edges. -/
def CFGraph.edge_labels (g : CFGraph) (s : Nat) : List Label :=
  (g.fwd s).map (·.1)

/-- `CFGraph.edges_to(target)`: the set of `(source, label)` pairs
representing edges into the node, `self._backedges[target]` (empty list
when the node has no entry). -/
def CFGraph.edges_to (g : CFGraph) (t : Nat) : List (Nat × Label) :=
  (lookupA g.backedges t).getD []

/-- `CFGraph._add_node`: register the node and give it empty forward- and
back-edge collections. -/
def CFGraph.addNodeRaw (g : CFGraph) (n : Nat) : CFGraph :=
  { nodes := n :: g.nodes
    edges := setA g.edges n []
    backedges := setA g.backedges n [] }

/-- `CFGraph._add_edge(source, label, target)`: record the forward edge
and the matching back-edge.  (The Python `assert`s never fire on the
call paths used by the package; the back-edge insertion is a set `add`,
modelled as prepend-if-absent.) -/
def CFGraph.addEdgeRaw (g : CFGraph) (s : Nat) (l : Label) (t : Nat) : CFGraph :=
  { g with
    edges := setA g.edges s (setA (g.fwd s) l t)
    backedges :=
      setA g.backedges t
        (if (s, l) ∈ g.edges_to t then g.edges_to t else (s, l) :: g.edges_to t) }

/-- `CFGraph._remove_edge(source, label)`: drop the back-edge for the
edge's target, then pop the forward edge.  Python raises `KeyError` when
the edge is absent; both call sites guard the call, and we make the
function a no-op there. -/
def CFGraph.removeEdgeRaw (g : CFGraph) (s : Nat) (l : Label) : CFGraph :=
  match g.edge s l with
  | none => g
  | some t =>
      { g with
        edges := setA g.edges s (delA (g.fwd s) l)
        backedges := setA g.backedges t ((g.edges_to t).erase (s, l)) }

/-- The `ValueError`s raised by `CFGraph` methods, by raise site. -/
inductive GraphErr : Type
  /-- `add_node`: "node {node} is already present in the graph". -/
  | duplicateNode : GraphErr
  /-- `add_node`: "target {target} for edge {label} is not in the graph"
  (raised both for an absent target and for a target equal to the new
  node). -/
  | badTarget (label : Label) (target : Nat) : GraphErr
  /-- `remove_node` / `collapse_node`: node not present in the graph. -/
  | missingNode (node : Nat) : GraphErr
  /-- `remove_node`: "node {node} is not isolated: it has forward edges". -/
  | notIsolatedFwd : GraphErr
  /-- `remove_node`: "node {node} is not isolated: it has back edges". -/
  | notIsolatedBack : GraphErr
  /-- `collapse_node`: "node {dummy} has outward edges". -/
  | outwardEdges : GraphErr
  /-- `collapse_node`: "nodes {dummy} and {target} must be distinct". -/
  | sameNode : GraphErr
deriving Repr, DecidableEq

/-- The edge-adding loop of `CFGraph.add_node`: for each `(label, target)`
item, check `target not in self or target == node` (note that `self`
already contains `node` at this point) and raise, leaving earlier
mutations in place; otherwise `_add_edge(node, label, target)`. -/
def CFGraph.addEdgesLoop (g : CFGraph) (n : Nat) :
    List (Label × Nat) → CFGraph × Option GraphErr
  | [] => (g, none)
  | (label, target) :: rest =>
      if ¬ g.mem target ∨ target = n then (g, some (.badTarget label target))
      else (g.addEdgeRaw n label target).addEdgesLoop n rest

/-- `CFGraph.add_node(node, edges)`: refuse a duplicate node, otherwise
`_add_node` it and then add the requested edges one at a time.  `edges`
is a Python mapping, i.e. an association list with pairwise-distinct
labels at every call site. -/
def CFGraph.add_node (g : CFGraph) (n : Nat) (es : List (Label × Nat)) :
    CFGraph × Option GraphErr :=
  if g.mem n then (g, some .duplicateNode)
  else (g.addNodeRaw n).addEdgesLoop n es

/-- `CFGraph.remove_node(node)`: remove an isolated node.  Only the node
set is touched; the (empty) `_edges` / `_backedges` entries for the node
are left in the dictionaries, as in the source. -/
def CFGraph.remove_node (g : CFGraph) (n : Nat) : CFGraph × Option GraphErr :=
  if ¬ g.mem n then (g, some (.missingNode n))
  else if g.fwd n ≠ [] then (g, some .notIsolatedFwd)
  else if g.edges_to n ≠ [] then (g, some .notIsolatedBack)
  else ({ g with nodes := g.nodes.erase n }, none)

/-- The rewrite loop of `CFGraph.collapse_node`: for each `(source, label)`
in (a copy of) `edges_to(dummy)`, `_remove_edge(source, label)` then
`_add_edge(source, label, target)`. -/
def CFGraph.rerouteLoop (g : CFGraph) (target : Nat) :
    List (Nat × Label) → CFGraph
  | [] => g
  | (source, label) :: rest =>
      (((g.removeEdgeRaw source label).addEdgeRaw source label target).rerouteLoop
        target rest)

/-- `CFGraph.collapse_node(dummy, target)`: after the four checks, rewrite
every incoming edge of `dummy` to point at `target`, then
`remove_node(dummy)`. -/
def CFGraph.collapse_node (g : CFGraph) (dummy target : Nat) :
    CFGraph × Option GraphErr :=
  if ¬ g.mem dummy then (g, some (.missingNode dummy))
  else if ¬ g.mem target then (g, some (.missingNode target))
  else if g.fwd dummy ≠ [] then (g, some .outwardEdges)
  else if dummy = target then (g, some .sameNode)
  else (g.rerouteLoop target (g.edges_to dummy)).remove_node dummy

/-! ### Association-list lemmas -/

theorem lookupA_setA_self {κ ν : Type} [DecidableEq κ]
    (l : List (κ × ν)) (k : κ) (v : ν) : lookupA (setA l k v) k = some v := by
  induction l with
  | nil => simp [setA, lookupA]
  | cons p rest ih =>
      by_cases h : p.1 = k
      · simp [setA, h, lookupA]
      · simp [setA, h, lookupA, ih]

theorem lookupA_setA_ne {κ ν : Type} [DecidableEq κ]
    (l : List (κ × ν)) {k k' : κ} (v : ν) (h : k' ≠ k) :
    lookupA (setA l k v) k' = lookupA l k' := by
  induction l with
  | nil => simp [setA, lookupA, Ne.symm h]
  | cons p rest ih =>
      by_cases hp : p.1 = k
      · subst hp
        simp [setA, lookupA, h, Ne.symm h]
      · by_cases hp' : p.1 = k'
        · simp [setA, hp, lookupA, hp', h]
        · simp [setA, hp, lookupA, hp', ih]

theorem lookupA_delA_ne {κ ν : Type} [DecidableEq κ]
    (l : List (κ × ν)) {k k' : κ} (h : k' ≠ k) :
    lookupA (delA l k) k' = lookupA l k' := by
  induction l with
  | nil => simp [delA]
  | cons p rest ih =>
      by_cases hp : p.1 = k
      · subst hp
        simp [delA, lookupA, Ne.symm h]
      · by_cases hp' : p.1 = k'
        · simp [delA, hp, lookupA, hp', h]
        · simp [delA, hp, lookupA, hp', ih]

theorem lookupA_eq_none {κ ν : Type} [DecidableEq κ]
    {l : List (κ × ν)} {k : κ} (h : k ∉ l.map (·.1)) : lookupA l k = none := by
  induction l with
  | nil => rfl
  | cons p rest ih =>
      simp only [List.map_cons, List.mem_cons, not_or] at h
      have hp : p.1 ≠ k := fun hh => h.1 hh.symm
      simp only [lookupA, if_neg hp]
      exact ih h.2

theorem lookupA_delA_self {κ ν : Type} [DecidableEq κ]
    (l : List (κ × ν)) (k : κ) (hnd : (l.map (·.1)).Nodup) :
    lookupA (delA l k) k = none := by
  induction l with
  | nil => simp [delA, lookupA]
  | cons p rest ih =>
      simp only [List.map_cons, List.nodup_cons] at hnd
      by_cases hp : p.1 = k
      · subst hp
        simp only [delA, if_pos rfl]
        exact lookupA_eq_none hnd.1
      · simp only [delA, if_neg hp, lookupA, if_neg hp]
        exact ih hnd.2

theorem delA_sublist {κ ν : Type} [DecidableEq κ]
    (l : List (κ × ν)) (k : κ) : (delA l k).Sublist l := by
  induction l with
  | nil => simp [delA]
  | cons p rest ih =>
      by_cases hp : p.1 = k
      · simp only [delA, if_pos hp]
        exact List.sublist_cons_self p rest
      · simp only [delA, if_neg hp]
        exact ih.cons₂ p

theorem mem_setA {κ ν : Type} [DecidableEq κ]
    {l : List (κ × ν)} {k : κ} {v : ν} {q : κ × ν} (hq : q ∈ setA l k v) :
    q ∈ l ∨ q = (k, v) := by
  induction l with
  | nil => simpa [setA] using hq
  | cons p rest ih =>
      by_cases hp : p.1 = k
      · rcases (by simpa [setA, hp] using hq : q = (k, v) ∨ q ∈ rest) with h | h
        · right; exact h
        · left; exact List.mem_cons_of_mem p h
      · rcases (by simpa [setA, hp] using hq : q = p ∨ q ∈ setA rest k v) with h | h
        · left; simp [h]
        · rcases ih h with h' | h'
          · left; exact List.mem_cons_of_mem p h'
          · right; exact h'

theorem keysA_setA_nodup {κ ν : Type} [DecidableEq κ]
    (l : List (κ × ν)) (k : κ) (v : ν) (hnd : (l.map (·.1)).Nodup) :
    ((setA l k v).map (·.1)).Nodup := by
  induction l with
  | nil => simp [setA]
  | cons p rest ih =>
      simp only [List.map_cons, List.nodup_cons] at hnd
      by_cases hp : p.1 = k
      · subst hp
        simpa [setA] using hnd
      · simp only [setA, if_neg hp, List.map_cons, List.nodup_cons]
        refine ⟨?_, ih hnd.2⟩
        intro hm
        obtain ⟨q, hq, hqe⟩ := List.mem_map.1 hm
        rcases mem_setA hq with hq' | hq'
        · exact hnd.1 (List.mem_map.2 ⟨q, hq', hqe⟩)
        · rw [hq'] at hqe; exact hp hqe.symm

/-! ### Pointwise effect of the low-level graph mutations -/

theorem CFGraph.mem_iff (g : CFGraph) (n : Nat) : g.mem n ↔ n ∈ g.nodes := Iff.rfl

theorem CFGraph.fwd_addNodeRaw (g : CFGraph) (n x : Nat) :
    (g.addNodeRaw n).fwd x = if x = n then [] else g.fwd x := by
  unfold addNodeRaw fwd
  by_cases h : x = n
  · subst h; simp [lookupA_setA_self]
  · simp [lookupA_setA_ne _ _ h, h]

theorem CFGraph.edges_to_addNodeRaw (g : CFGraph) (n x : Nat) :
    (g.addNodeRaw n).edges_to x = if x = n then [] else g.edges_to x := by
  unfold addNodeRaw edges_to
  by_cases h : x = n
  · subst h; simp [lookupA_setA_self]
  · simp [lookupA_setA_ne _ _ h, h]

theorem CFGraph.nodes_addNodeRaw (g : CFGraph) (n : Nat) :
    (g.addNodeRaw n).nodes = n :: g.nodes := rfl

theorem CFGraph.edge_addNodeRaw (g : CFGraph) (n s : Nat) (l : Label) :
    (g.addNodeRaw n).edge s l = if s = n then none else g.edge s l := by
  unfold edge
  rw [fwd_addNodeRaw]
  by_cases h : s = n <;> simp [h, lookupA]

theorem CFGraph.fwd_addEdgeRaw (g : CFGraph) (s : Nat) (l : Label) (t x : Nat) :
    (g.addEdgeRaw s l t).fwd x = if x = s then setA (g.fwd s) l t else g.fwd x := by
  unfold addEdgeRaw fwd
  by_cases h : x = s
  · subst h; simp [lookupA_setA_self]
  · simp only [if_neg h]
    rw [show (g.edges : List (Nat × List (Label × Nat))) =
      ({ g with edges := g.edges } : CFGraph).edges from rfl]
    simp [lookupA_setA_ne _ _ h]

theorem CFGraph.edges_to_addEdgeRaw (g : CFGraph) (s : Nat) (l : Label) (t x : Nat) :
    (g.addEdgeRaw s l t).edges_to x =
      if x = t then
        (if (s, l) ∈ g.edges_to t then g.edges_to t else (s, l) :: g.edges_to t)
      else g.edges_to x := by
  unfold addEdgeRaw edges_to
  by_cases h : x = t
  · subst h; simp [lookupA_setA_self, edges_to]
  · simp [lookupA_setA_ne _ _ h, h, edges_to]

theorem CFGraph.nodes_addEdgeRaw (g : CFGraph) (s : Nat) (l : Label) (t : Nat) :
    (g.addEdgeRaw s l t).nodes = g.nodes := rfl

theorem CFGraph.edge_addEdgeRaw (g : CFGraph) (s : Nat) (l : Label) (t s' : Nat)
    (l' : Label) :
    (g.addEdgeRaw s l t).edge s' l' =
      if s' = s ∧ l' = l then some t else g.edge s' l' := by
  unfold edge
  rw [fwd_addEdgeRaw]
  by_cases hs : s' = s
  · subst hs
    by_cases hl : l' = l
    · subst hl; simp [lookupA_setA_self]
    · simp [hl, lookupA_setA_ne _ _ hl]
  · simp [hs]

theorem CFGraph.nodes_removeEdgeRaw (g : CFGraph) (s : Nat) (l : Label) :
    (g.removeEdgeRaw s l).nodes = g.nodes := by
  unfold removeEdgeRaw
  cases g.edge s l <;> rfl

theorem CFGraph.fwd_removeEdgeRaw (g : CFGraph) {s : Nat} {l : Label} {t : Nat}
    (h : g.edge s l = some t) (x : Nat) :
    (g.removeEdgeRaw s l).fwd x = if x = s then delA (g.fwd s) l else g.fwd x := by
  unfold removeEdgeRaw
  rw [h]
  unfold fwd
  by_cases hx : x = s
  · subst hx; simp [lookupA_setA_self]
  · simp only [if_neg hx]
    simp [lookupA_setA_ne _ _ hx]

theorem CFGraph.edges_to_removeEdgeRaw (g : CFGraph) {s : Nat} {l : Label} {t : Nat}
    (h : g.edge s l = some t) (x : Nat) :
    (g.removeEdgeRaw s l).edges_to x =
      if x = t then (g.edges_to t).erase (s, l) else g.edges_to x := by
  unfold removeEdgeRaw
  rw [h]
  unfold edges_to
  by_cases hx : x = t
  · subst hx; simp [lookupA_setA_self, edges_to]
  · simp [lookupA_setA_ne _ _ hx, hx, edges_to]

theorem CFGraph.edge_removeEdgeRaw (g : CFGraph) {s : Nat} {l : Label} {t : Nat}
    (h : g.edge s l = some t) (hnd : ((g.fwd s).map (·.1)).Nodup)
    (s' : Nat) (l' : Label) :
    (g.removeEdgeRaw s l).edge s' l' =
      if s' = s ∧ l' = l then none else g.edge s' l' := by
  unfold edge
  rw [fwd_removeEdgeRaw g h]
  by_cases hs : s' = s
  · subst hs
    by_cases hl : l' = l
    · subst hl; simp [lookupA_delA_self _ _ hnd]
    · simp [hl, lookupA_delA_ne _ hl]
  · simp [hs]

/-! ### Well-formedness invariant for graphs built by `CFGraph` methods -/

/--
The structural invariants maintained by `CFGraph` (`spec.md` §3):
the back-edge index is the exact inverse of the forward-edge index, the
back-edge collections are genuine sets, the per-node forward dictionaries
have distinct labels, every edge endpoint is in the node set, and the node
set is a genuine set.
-/
structure CFGraph.Wf (g : CFGraph) : Prop where
  inv : ∀ s l t, (s, l) ∈ g.edges_to t ↔ g.edge s l = some t
  backNodup : ∀ t, (g.edges_to t).Nodup
  fwdKeysNodup : ∀ s, ((g.fwd s).map (·.1)).Nodup
  srcMem : ∀ s l t, g.edge s l = some t → s ∈ g.nodes
  tgtMem : ∀ s l t, g.edge s l = some t → t ∈ g.nodes
  nodesNodup : g.nodes.Nodup

theorem CFGraph.wf_empty : CFGraph.empty.Wf := by
  constructor <;> simp [CFGraph.empty, edges_to, edge, fwd, lookupA]

theorem pair_ne_of_not_and {s' s : Nat} {l' l : Label}
    (hp : ¬(s' = s ∧ l' = l)) : ((s', l') : Nat × Label) ≠ (s, l) := by
  intro h
  rw [Prod.mk.injEq] at h
  exact hp h

theorem CFGraph.Wf.addNodeRaw {g : CFGraph} (hg : g.Wf) {n : Nat}
    (hn : n ∉ g.nodes) : (g.addNodeRaw n).Wf := by
  constructor
  · intro s l t
    rw [edges_to_addNodeRaw, edge_addNodeRaw]
    by_cases ht : t = n
    · by_cases hs : s = n
      · simp [ht, hs]
      · simp only [if_pos ht, if_neg hs, List.not_mem_nil, false_iff]
        intro h
        exact hn (ht ▸ hg.tgtMem s l t h)
    · by_cases hs : s = n
      · rw [if_neg ht, if_pos hs]
        constructor
        · intro h
          exact absurd (hs ▸ hg.srcMem s l t ((hg.inv s l t).1 h)) hn
        · intro h
          simp at h
      · simp [ht, hs, hg.inv s l t]
  · intro t
    rw [edges_to_addNodeRaw]
    by_cases ht : t = n <;> simp [ht, hg.backNodup t]
  · intro s
    rw [fwd_addNodeRaw]
    by_cases hs : s = n <;> simp [hs, hg.fwdKeysNodup s]
  · intro s l t h
    rw [edge_addNodeRaw] at h
    rw [nodes_addNodeRaw]
    by_cases hs : s = n
    · simp [hs] at h
    · rw [if_neg hs] at h
      exact List.mem_cons_of_mem n (hg.srcMem s l t h)
  · intro s l t h
    rw [edge_addNodeRaw] at h
    rw [nodes_addNodeRaw]
    by_cases hs : s = n
    · simp [hs] at h
    · rw [if_neg hs] at h
      exact List.mem_cons_of_mem n (hg.tgtMem s l t h)
  · rw [nodes_addNodeRaw]
    exact List.nodup_cons.2 ⟨hn, hg.nodesNodup⟩

theorem CFGraph.Wf.addEdgeRaw {g : CFGraph} (hg : g.Wf) {s : Nat} {l : Label}
    {t : Nat} (hnew : g.edge s l = none) (hs : s ∈ g.nodes) (ht : t ∈ g.nodes) :
    (g.addEdgeRaw s l t).Wf := by
  have hnotin : (s, l) ∉ g.edges_to t := by
    intro h
    rw [(hg.inv s l t).1 h] at hnew
    cases hnew
  constructor
  · intro s' l' t'
    rw [edges_to_addEdgeRaw, edge_addEdgeRaw]
    by_cases hp : s' = s ∧ l' = l
    · by_cases ht' : t' = t
      · simp [hp.1, hp.2, ht', hnotin]
      · rw [if_neg ht', if_pos hp, hp.1, hp.2]
        constructor
        · intro h
          have h2 := (hg.inv s l t').1 h
          rw [hnew] at h2
          cases h2
        · intro h
          exact absurd (Option.some.inj h).symm ht'
    · by_cases ht' : t' = t
      · rw [if_pos ht', if_neg hnotin, if_neg hp, ht']
        rw [List.mem_cons]
        simp only [pair_ne_of_not_and hp, false_or]
        exact hg.inv s' l' t
      · rw [if_neg ht', if_neg hp]
        exact hg.inv s' l' t'
  · intro t'
    rw [edges_to_addEdgeRaw]
    by_cases ht' : t' = t
    · rw [if_pos ht', if_neg hnotin]
      exact List.nodup_cons.2 ⟨hnotin, hg.backNodup t⟩
    · rw [if_neg ht']
      exact hg.backNodup t'
  · intro s'
    rw [fwd_addEdgeRaw]
    by_cases hs' : s' = s
    · subst hs'
      simp only [if_pos rfl]
      exact keysA_setA_nodup _ _ _ (hg.fwdKeysNodup s')
    · simp [hs', hg.fwdKeysNodup s']
  · intro s' l' t' h
    rw [edge_addEdgeRaw] at h
    rw [nodes_addEdgeRaw]
    by_cases hp : s' = s ∧ l' = l
    · exact hp.1 ▸ hs
    · rw [if_neg hp] at h
      exact hg.srcMem s' l' t' h
  · intro s' l' t' h
    rw [edge_addEdgeRaw] at h
    rw [nodes_addEdgeRaw]
    by_cases hp : s' = s ∧ l' = l
    · rw [if_pos hp] at h
      cases h
      exact ht
    · rw [if_neg hp] at h
      exact hg.tgtMem s' l' t' h
  · rw [nodes_addEdgeRaw]
    exact hg.nodesNodup

theorem CFGraph.Wf.removeEdgeRaw {g : CFGraph} (hg : g.Wf) (s : Nat) (l : Label) :
    (g.removeEdgeRaw s l).Wf := by
  cases h : g.edge s l with
  | none => unfold CFGraph.removeEdgeRaw; rw [h]; exact hg
  | some t =>
      have hedge := CFGraph.edge_removeEdgeRaw g h (hg.fwdKeysNodup s)
      have hback := CFGraph.edges_to_removeEdgeRaw g h
      constructor
      · intro s' l' t'
        rw [hback t', hedge s' l']
        by_cases hp : s' = s ∧ l' = l
        · by_cases ht' : t' = t
          · rw [if_pos ht', if_pos hp, hp.1, hp.2, ht']
            rw [(hg.backNodup t).mem_erase_iff]
            simp
          · rw [if_neg ht', if_pos hp, hp.1, hp.2]
            constructor
            · intro hm
              have h2 := (hg.inv s l t').1 hm
              rw [h] at h2
              exact absurd (Option.some.inj h2).symm ht'
            · intro hm
              simp at hm
        · by_cases ht' : t' = t
          · rw [if_pos ht', if_neg hp, ht']
            rw [(hg.backNodup t).mem_erase_iff]
            constructor
            · intro hm
              exact (hg.inv s' l' t).1 hm.2
            · intro hm
              exact ⟨pair_ne_of_not_and hp, (hg.inv s' l' t).2 hm⟩
          · rw [if_neg ht', if_neg hp]
            exact hg.inv s' l' t'
      · intro t'
        rw [hback t']
        by_cases ht' : t' = t
        · rw [if_pos ht']
          exact (hg.backNodup t).erase _
        · rw [if_neg ht']
          exact hg.backNodup t'
      · intro s'
        rw [CFGraph.fwd_removeEdgeRaw g h]
        by_cases hs' : s' = s
        · subst hs'
          simp only [if_pos rfl]
          exact ((delA_sublist _ _).map (·.1)).nodup (hg.fwdKeysNodup s')
        · simp [hs', hg.fwdKeysNodup s']
      · intro s' l' t' hh
        rw [hedge] at hh
        rw [CFGraph.nodes_removeEdgeRaw]
        by_cases hp : s' = s ∧ l' = l
        · rw [if_pos hp] at hh; cases hh
        · rw [if_neg hp] at hh
          exact hg.srcMem s' l' t' hh
      · intro s' l' t' hh
        rw [hedge] at hh
        rw [CFGraph.nodes_removeEdgeRaw]
        by_cases hp : s' = s ∧ l' = l
        · rw [if_pos hp] at hh; cases hh
        · rw [if_neg hp] at hh
          exact hg.tgtMem s' l' t' hh
      · rw [CFGraph.nodes_removeEdgeRaw]
        exact hg.nodesNodup

/-! ### Behaviour of `add_node` -/

theorem CFGraph.addEdgesLoop_nodes (es : List (Label × Nat)) :
    ∀ (g : CFGraph) (n : Nat), (g.addEdgesLoop n es).1.nodes = g.nodes := by
  induction es with
  | nil => intro g n; rfl
  | cons p rest ih =>
      intro g n
      show ((if ¬ g.mem p.2 ∨ p.2 = n then (g, some (.badTarget p.1 p.2))
        else (g.addEdgeRaw n p.1 p.2).addEdgesLoop n rest) :
          CFGraph × Option GraphErr).1.nodes = g.nodes
      by_cases h : ¬ g.mem p.2 ∨ p.2 = n
      · rw [if_pos h]
      · rw [if_neg h, ih]
        rfl

theorem CFGraph.addEdgesLoop_edge_untouched (es : List (Label × Nat)) :
    ∀ (g : CFGraph) (n s' : Nat) (l' : Label), (s' = n → l' ∉ es.map (·.1)) →
      (g.addEdgesLoop n es).1.edge s' l' = g.edge s' l' := by
  induction es with
  | nil => intro g n s' l' _; rfl
  | cons p rest ih =>
      intro g n s' l' hl
      show ((if ¬ g.mem p.2 ∨ p.2 = n then (g, some (.badTarget p.1 p.2))
        else (g.addEdgeRaw n p.1 p.2).addEdgesLoop n rest) :
          CFGraph × Option GraphErr).1.edge s' l' = g.edge s' l'
      by_cases h : ¬ g.mem p.2 ∨ p.2 = n
      · rw [if_pos h]
      · rw [if_neg h]
        rw [ih _ n s' l' (fun hs => fun hm =>
          hl hs (List.mem_cons_of_mem _ hm))]
        rw [edge_addEdgeRaw]
        have : ¬ (s' = n ∧ l' = p.1) := by
          intro ⟨h1, h2⟩
          exact hl h1 (by simp [h2])
        rw [if_neg this]

theorem CFGraph.addEdgesLoop_from_node (es : List (Label × Nat)) :
    ∀ (g : CFGraph) (n : Nat),
      (∀ l x, g.edge n l = some x → x ∈ g.nodes ∧ x ≠ n) →
      ∀ l x, (g.addEdgesLoop n es).1.edge n l = some x →
        x ∈ g.nodes ∧ x ≠ n := by
  induction es with
  | nil => intro g n h l x hx; exact h l x hx
  | cons p rest ih =>
      intro g n h l x hx
      rw [show g.addEdgesLoop n (p :: rest) =
        (if ¬ g.mem p.2 ∨ p.2 = n then (g, some (.badTarget p.1 p.2))
          else (g.addEdgeRaw n p.1 p.2).addEdgesLoop n rest) from rfl] at hx
      by_cases hc : ¬ g.mem p.2 ∨ p.2 = n
      · rw [if_pos hc] at hx
        exact h l x hx
      · rw [if_neg hc] at hx
        push_neg at hc
        have h2 : ∀ l' x', (g.addEdgeRaw n p.1 p.2).edge n l' = some x' →
            x' ∈ (g.addEdgeRaw n p.1 p.2).nodes ∧ x' ≠ n := by
          intro l' x' hx'
          rw [edge_addEdgeRaw] at hx'
          rw [nodes_addEdgeRaw]
          by_cases hp : n = n ∧ l' = p.1
          · rw [if_pos hp] at hx'
            cases hx'
            exact ⟨hc.1, hc.2⟩
          · rw [if_neg hp] at hx'
            exact h l' x' hx'
        have := ih (g.addEdgeRaw n p.1 p.2) n h2 l x hx
        rw [nodes_addEdgeRaw] at this
        exact this

theorem CFGraph.addEdgesLoop_ok_iff (es : List (Label × Nat)) :
    ∀ (g : CFGraph) (n : Nat),
      ((g.addEdgesLoop n es).2 = none ↔ ∀ p ∈ es, p.2 ∈ g.nodes ∧ p.2 ≠ n) := by
  induction es with
  | nil => intro g n; simp [addEdgesLoop]
  | cons p rest ih =>
      intro g n
      rw [show g.addEdgesLoop n (p :: rest) =
        (if ¬ g.mem p.2 ∨ p.2 = n then (g, some (.badTarget p.1 p.2))
          else (g.addEdgeRaw n p.1 p.2).addEdgesLoop n rest) from rfl]
      by_cases hc : ¬ g.mem p.2 ∨ p.2 = n
      · rw [if_pos hc]
        simp only [if_pos hc]
        constructor
        · intro h; cases h
        · intro h
          rcases hc with hc | hc
          · exact absurd (h p (List.mem_cons_self p rest)).1 hc
          · exact absurd hc (h p (List.mem_cons_self p rest)).2
      · rw [if_neg hc]
        push_neg at hc
        rw [ih]
        constructor
        · intro h q hq
          rcases List.mem_cons.1 hq with hq | hq
          · rw [hq]; exact ⟨hc.1, hc.2⟩
          · have := h q hq
            rw [nodes_addEdgeRaw] at this
            exact this
        · intro h q hq
          rw [nodes_addEdgeRaw]
          exact h q (List.mem_cons_of_mem p hq)

theorem CFGraph.addEdgesLoop_ok_edges (es : List (Label × Nat)) :
    ∀ (g : CFGraph) (n : Nat), (es.map (·.1)).Nodup →
      (g.addEdgesLoop n es).2 = none →
      ∀ p ∈ es, (g.addEdgesLoop n es).1.edge n p.1 = some p.2 := by
  induction es with
  | nil => intro g n _ _ p hp; cases hp
  | cons q rest ih =>
      intro g n hnd hok p hp
      have hql : q.1 ∉ rest.map (·.1) := by
        simp only [List.map_cons, List.nodup_cons] at hnd
        exact hnd.1
      rw [show g.addEdgesLoop n (q :: rest) =
        (if ¬ g.mem q.2 ∨ q.2 = n then (g, some (.badTarget q.1 q.2))
          else (g.addEdgeRaw n q.1 q.2).addEdgesLoop n rest) from rfl] at hok ⊢
      by_cases hc : ¬ g.mem q.2 ∨ q.2 = n
      · rw [if_pos hc] at hok
        cases hok
      · rw [if_neg hc] at hok ⊢
        rcases List.mem_cons.1 hp with hp | hp
        · rw [hp]
          rw [addEdgesLoop_edge_untouched rest _ n n q.1 (fun _ => hql)]
          rw [edge_addEdgeRaw, if_pos ⟨rfl, rfl⟩]
        · have hnd2 : (rest.map (·.1)).Nodup := by
            simp only [List.map_cons, List.nodup_cons] at hnd
            exact hnd.2
          exact ih _ n hnd2 hok p hp

theorem CFGraph.wf_addEdgesLoop (es : List (Label × Nat)) :
    ∀ (g : CFGraph) (n : Nat), g.Wf → n ∈ g.nodes →
      (∀ p ∈ es, g.edge n p.1 = none) → (es.map (·.1)).Nodup →
      (g.addEdgesLoop n es).1.Wf := by
  induction es with
  | nil => intro g n hg _ _ _; exact hg
  | cons q rest ih =>
      intro g n hg hn hnew hnd
      rw [show g.addEdgesLoop n (q :: rest) =
        (if ¬ g.mem q.2 ∨ q.2 = n then (g, some (.badTarget q.1 q.2))
          else (g.addEdgeRaw n q.1 q.2).addEdgesLoop n rest) from rfl]
      by_cases hc : ¬ g.mem q.2 ∨ q.2 = n
      · rw [if_pos hc]; exact hg
      · rw [if_neg hc]
        push_neg at hc
        simp only [List.map_cons, List.nodup_cons] at hnd
        refine ih _ n (hg.addEdgeRaw ?_ hn hc.1) ?_ ?_ hnd.2
        · exact hnew q (List.mem_cons_self q rest)
        · rw [nodes_addEdgeRaw]; exact hn
        · intro p hp
          rw [edge_addEdgeRaw]
          have hne : ¬ (n = n ∧ p.1 = q.1) := by
            intro ⟨_, h2⟩
            exact hnd.1 (h2 ▸ List.mem_map.2 ⟨p, hp, rfl⟩)
          rw [if_neg hne]
          exact hnew p (List.mem_cons_of_mem q hp)

theorem CFGraph.Wf.add_node {g : CFGraph} (hg : g.Wf) (n : Nat)
    (es : List (Label × Nat)) (hnd : (es.map (·.1)).Nodup) :
    (g.add_node n es).1.Wf := by
  unfold CFGraph.add_node
  by_cases hmem : g.mem n
  · rw [if_pos hmem]; exact hg
  · rw [if_neg hmem]
    refine wf_addEdgesLoop es _ n (hg.addNodeRaw hmem) (by simp [nodes_addNodeRaw]) ?_ hnd
    intro p hp
    rw [edge_addNodeRaw, if_pos rfl]

/-! ### Behaviour of `remove_node` and `collapse_node` -/

theorem CFGraph.remove_node_edge (g : CFGraph) (n : Nat) (s : Nat) (l : Label) :
    (g.remove_node n).1.edge s l = g.edge s l := by
  unfold CFGraph.remove_node
  by_cases h1 : ¬ g.mem n
  · rw [if_pos h1]
  · rw [if_neg h1]
    by_cases h2 : g.fwd n ≠ []
    · rw [if_pos h2]
    · rw [if_neg h2]
      by_cases h3 : g.edges_to n ≠ []
      · rw [if_pos h3]
      · rw [if_neg h3]
        rfl

theorem CFGraph.remove_node_edges_to (g : CFGraph) (n : Nat) (x : Nat) :
    (g.remove_node n).1.edges_to x = g.edges_to x := by
  unfold CFGraph.remove_node
  by_cases h1 : ¬ g.mem n
  · rw [if_pos h1]
  · rw [if_neg h1]
    by_cases h2 : g.fwd n ≠ []
    · rw [if_pos h2]
    · rw [if_neg h2]
      by_cases h3 : g.edges_to n ≠ []
      · rw [if_pos h3]
      · rw [if_neg h3]
        rfl

theorem CFGraph.remove_node_of_isolated (g : CFGraph) (n : Nat)
    (hmem : g.mem n) (hf : g.fwd n = []) (hb : g.edges_to n = []) :
    g.remove_node n = ({ g with nodes := g.nodes.erase n }, none) := by
  unfold CFGraph.remove_node
  rw [if_neg (by simpa using hmem), if_neg (by simp [hf]), if_neg (by simp [hb])]

theorem CFGraph.remove_node_fail_eq (g : CFGraph) (n : Nat)
    (h : (g.remove_node n).2 ≠ none) : (g.remove_node n).1 = g := by
  unfold CFGraph.remove_node at h ⊢
  by_cases h1 : ¬ g.mem n
  · rw [if_pos h1]
  · rw [if_neg h1] at h ⊢
    by_cases h2 : g.fwd n ≠ []
    · rw [if_pos h2]
    · rw [if_neg h2] at h ⊢
      by_cases h3 : g.edges_to n ≠ []
      · rw [if_pos h3]
      · rw [if_neg h3] at h
        exact absurd rfl h

theorem CFGraph.Wf.remove_node {g : CFGraph} (hg : g.Wf) (n : Nat) :
    (g.remove_node n).1.Wf := by
  unfold CFGraph.remove_node
  by_cases h1 : ¬ g.mem n
  · rw [if_pos h1]; exact hg
  · rw [if_neg h1]
    by_cases h2 : g.fwd n ≠ []
    · rw [if_pos h2]; exact hg
    · rw [if_neg h2]
      by_cases h3 : g.edges_to n ≠ []
      · rw [if_pos h3]; exact hg
      · rw [if_neg h3]
        push_neg at h2 h3
        constructor
        · exact hg.inv
        · exact hg.backNodup
        · exact hg.fwdKeysNodup
        · intro s l t h
          have h' : g.edge s l = some t := h
          have hs := hg.srcMem s l t h'
          have hsn : s ≠ n := by
            intro hh
            rw [hh] at h'
            unfold CFGraph.edge at h'
            rw [h2] at h'
            cases h'
          exact (hg.nodesNodup.mem_erase_iff).2 ⟨hsn, hs⟩
        · intro s l t h
          have h' : g.edge s l = some t := h
          have ht := hg.tgtMem s l t h'
          have htn : t ≠ n := by
            intro hh
            rw [hh] at h'
            have := (hg.inv s l n).2 h'
            rw [h3] at this
            cases this
          exact (hg.nodesNodup.mem_erase_iff).2 ⟨htn, ht⟩
        · exact hg.nodesNodup.erase n

theorem CFGraph.rerouteLoop_spec (remaining : List (Nat × Label)) :
    ∀ (g : CFGraph) (dummy target : Nat), g.Wf →
      target ∈ g.nodes → dummy ≠ target →
      g.fwd dummy = [] → g.edges_to dummy = remaining →
      (g.rerouteLoop target remaining).Wf ∧
      (g.rerouteLoop target remaining).nodes = g.nodes ∧
      (g.rerouteLoop target remaining).fwd dummy = [] ∧
      (g.rerouteLoop target remaining).edges_to dummy = [] ∧
      (∀ s' l', (g.rerouteLoop target remaining).edge s' l' =
        if g.edge s' l' = some dummy then some target else g.edge s' l') := by
  induction remaining with
  | nil =>
      intro g dummy target hg _ _ hf hb
      refine ⟨hg, rfl, hf, hb, ?_⟩
      intro s' l'
      by_cases h : g.edge s' l' = some dummy
      · have := (hg.inv s' l' dummy).2 h
        rw [hb] at this
        cases this
      · rw [if_neg h]
        rfl
  | cons q rest ih =>
      intro g dummy target hg htm hne hf hb
      obtain ⟨s, l⟩ := q
      have hmem : (s, l) ∈ g.edges_to dummy := by rw [hb]; exact List.mem_cons_self _ _
      have hEdge : g.edge s l = some dummy := (hg.inv s l dummy).1 hmem
      have hsd : s ≠ dummy := by
        intro hh
        rw [hh] at hEdge
        unfold CFGraph.edge at hEdge
        rw [hf] at hEdge
        cases hEdge
      have hsrc : s ∈ g.nodes := hg.srcMem s l dummy hEdge
      -- facts about g1 = removeEdgeRaw g s l
      have hg1wf : (g.removeEdgeRaw s l).Wf := hg.removeEdgeRaw s l
      have hg1edge := CFGraph.edge_removeEdgeRaw g hEdge (hg.fwdKeysNodup s)
      have hg1back := CFGraph.edges_to_removeEdgeRaw g hEdge
      have hg1nodes := CFGraph.nodes_removeEdgeRaw g s l
      have hg1fwdd : (g.removeEdgeRaw s l).fwd dummy = [] := by
        rw [CFGraph.fwd_removeEdgeRaw g hEdge dummy, if_neg (Ne.symm hsd)]
        exact hf
      have hg1backd : (g.removeEdgeRaw s l).edges_to dummy = rest := by
        rw [hg1back dummy, if_pos rfl, hb, List.erase_cons_head]
      -- facts about g2 = addEdgeRaw g1 s l target
      have hg2wf : ((g.removeEdgeRaw s l).addEdgeRaw s l target).Wf := by
        refine hg1wf.addEdgeRaw ?_ ?_ ?_
        · rw [hg1edge s l, if_pos ⟨rfl, rfl⟩]
        · rw [hg1nodes]; exact hsrc
        · rw [hg1nodes]; exact htm
      have hg2edge := CFGraph.edge_addEdgeRaw (g.removeEdgeRaw s l) s l target
      have hg2nodes : ((g.removeEdgeRaw s l).addEdgeRaw s l target).nodes = g.nodes := by
        rw [CFGraph.nodes_addEdgeRaw, hg1nodes]
      have hg2fwdd : ((g.removeEdgeRaw s l).addEdgeRaw s l target).fwd dummy = [] := by
        rw [CFGraph.fwd_addEdgeRaw _ s l target dummy, if_neg (Ne.symm hsd)]
        exact hg1fwdd
      have hg2backd :
          ((g.removeEdgeRaw s l).addEdgeRaw s l target).edges_to dummy = rest := by
        rw [CFGraph.edges_to_addEdgeRaw _ s l target dummy, if_neg hne]
        exact hg1backd
      have hg2edge' : ∀ s' l',
          ((g.removeEdgeRaw s l).addEdgeRaw s l target).edge s' l' =
            if s' = s ∧ l' = l then some target else g.edge s' l' := by
        intro s' l'
        rw [hg2edge s' l']
        by_cases hp : s' = s ∧ l' = l
        · rw [if_pos hp, if_pos hp]
        · rw [if_neg hp, if_neg hp, hg1edge s' l', if_neg hp]
      obtain ⟨rwf, rnodes, rfwd, rback, redge⟩ :=
        ih ((g.removeEdgeRaw s l).addEdgeRaw s l target) dummy target hg2wf
          (by rw [hg2nodes]; exact htm) hne hg2fwdd hg2backd
      refine ⟨rwf, by rw [show (g.rerouteLoop target ((s, l) :: rest)) =
          (((g.removeEdgeRaw s l).addEdgeRaw s l target).rerouteLoop target rest)
          from rfl] at *; rw [rnodes, hg2nodes], ?_, ?_, ?_⟩
      · exact rfwd
      · exact rback
      · intro s' l'
        rw [show (g.rerouteLoop target ((s, l) :: rest)) =
          (((g.removeEdgeRaw s l).addEdgeRaw s l target).rerouteLoop target rest)
          from rfl]
        rw [redge s' l', hg2edge' s' l']
        by_cases hp : s' = s ∧ l' = l
        · rw [if_pos hp]
          have hnotd : ¬ (some target = some dummy) := by
            intro hh
            exact hne (Option.some.inj hh).symm
          rw [if_neg hnotd, hp.1, hp.2, if_pos hEdge]
        · rw [if_neg hp]

theorem CFGraph.collapse_props {g : CFGraph} (hg : g.Wf) (d t : Nat) :
    ((g.collapse_node d t).2 = none ↔
      (d ∈ g.nodes ∧ t ∈ g.nodes ∧ g.fwd d = [] ∧ d ≠ t)) ∧
    ((g.collapse_node d t).2 ≠ none → (g.collapse_node d t).1 = g) ∧
    ((g.collapse_node d t).2 = none →
      (g.collapse_node d t).1.Wf ∧
      (∀ m, m ∈ (g.collapse_node d t).1.nodes ↔ (m ∈ g.nodes ∧ m ≠ d)) ∧
      (∀ s' l', (g.collapse_node d t).1.edge s' l' =
        if g.edge s' l' = some d then some t else g.edge s' l')) := by
  unfold CFGraph.collapse_node
  by_cases h1 : ¬ g.mem d
  · rw [if_pos h1]
    refine ⟨by simp [CFGraph.mem_iff] at h1 ⊢; intro h; exact absurd h h1, fun _ => rfl,
      by intro h; cases h⟩
  · rw [if_neg h1]
    by_cases h2 : ¬ g.mem t
    · rw [if_pos h2]
      refine ⟨by simp [CFGraph.mem_iff] at h2 ⊢; intro _ h; exact absurd h h2,
        fun _ => rfl, by intro h; cases h⟩
    · rw [if_neg h2]
      by_cases h3 : g.fwd d ≠ []
      · rw [if_pos h3]
        refine ⟨by simp; intro _ _ h; exact absurd h h3, fun _ => rfl,
          by intro h; cases h⟩
      · rw [if_neg h3]
        by_cases h4 : d = t
        · rw [if_pos h4]
          refine ⟨by simp [h4], fun _ => rfl, by intro h; cases h⟩
        · rw [if_neg h4]
          push_neg at h1 h2 h3
          rw [CFGraph.mem_iff] at h1 h2
          obtain ⟨rwf, rnodes, rfwd, rback, redge⟩ :=
            CFGraph.rerouteLoop_spec (g.edges_to d) g d t hg h2 h4 h3 rfl
          rw [CFGraph.remove_node_of_isolated _ d (by rw [CFGraph.mem_iff, rnodes]; exact h1)
            rfwd rback]
          refine ⟨by simp [h1, h2, h3, h4], by intro h; exact absurd rfl h, ?_⟩
          intro _
          refine ⟨?_, ?_, ?_⟩
          · have := rwf.remove_node d
            rw [CFGraph.remove_node_of_isolated _ d
              (by rw [CFGraph.mem_iff, rnodes]; exact h1) rfwd rback] at this
            exact this
          · intro m
            show m ∈ (g.rerouteLoop t (g.edges_to d)).nodes.erase d ↔ _
            rw [rwf.nodesNodup.mem_erase_iff, rnodes]
            exact ⟨fun h => ⟨h.2, h.1⟩, fun h => ⟨h.2, h.1⟩⟩
          · intro s' l'
            show (g.rerouteLoop t (g.edges_to d)).edge s' l' = _
            exact redge s' l'

/-! ### Reachable graphs and acyclicity -/

/--
Graphs reachable from a fresh `CFGraph()` by arbitrary sequences of
`add_node`, `remove_node` and `collapse_node` calls.  A call that raises
`ValueError` leaves its mutations in place (the Python object survives
the exception), so the resulting graph is reachable whether or not the
call succeeded.  The `edges` argument of `add_node` is a Python mapping,
hence has pairwise-distinct labels.
-/
inductive CFGraph.Reachable : CFGraph → Prop
  | empty : CFGraph.Reachable CFGraph.empty
  | add {g : CFGraph} (n : Nat) (es : List (Label × Nat))
      (hnd : (es.map (·.1)).Nodup) :
      CFGraph.Reachable g → CFGraph.Reachable (g.add_node n es).1
  | remove {g : CFGraph} (n : Nat) :
      CFGraph.Reachable g → CFGraph.Reachable (g.remove_node n).1
  | collapse {g : CFGraph} (d t : Nat) :
      CFGraph.Reachable g → CFGraph.Reachable (g.collapse_node d t).1

theorem CFGraph.Wf.collapse_node {g : CFGraph} (hg : g.Wf) (d t : Nat) :
    (g.collapse_node d t).1.Wf := by
  obtain ⟨hok, hfail, hsucc⟩ := CFGraph.collapse_props hg d t
  by_cases h : (g.collapse_node d t).2 = none
  · exact (hsucc h).1
  · rw [hfail h]
    exact hg

theorem CFGraph.Reachable.wf {g : CFGraph} (h : g.Reachable) : g.Wf := by
  induction h with
  | empty => exact CFGraph.wf_empty
  | add n es hnd _ ih => exact ih.add_node n es hnd
  | remove n _ ih => exact ih.remove_node n
  | collapse d t _ ih => exact ih.collapse_node d t

/-- One-step relation of the graph: there is an edge (of any label) from
`a` to `b`. -/
def CFGraph.hasStep (g : CFGraph) (a b : Nat) : Prop := ∃ l, g.edge a l = some b

/-- No directed cycle: no node reaches itself through one or more edges. -/
def CFGraph.Acyclic (g : CFGraph) : Prop :=
  ∀ n, ¬ Relation.TransGen g.hasStep n n

/--
Graphs reachable from a fresh `CFGraph()` using only `add_node` and
`remove_node` (never `collapse_node`), failed calls included.
-/
inductive CFGraph.ARReach : CFGraph → Prop
  | empty : CFGraph.ARReach CFGraph.empty
  | add {g : CFGraph} (n : Nat) (es : List (Label × Nat))
      (hnd : (es.map (·.1)).Nodup) :
      CFGraph.ARReach g → CFGraph.ARReach (g.add_node n es).1
  | remove {g : CFGraph} (n : Nat) :
      CFGraph.ARReach g → CFGraph.ARReach (g.remove_node n).1

theorem CFGraph.ARReach.reachable {g : CFGraph} (h : g.ARReach) : g.Reachable := by
  induction h with
  | empty => exact .empty
  | add n es hnd _ ih => exact .add n es hnd ih
  | remove n _ ih => exact .remove n ih

/-- An abstract step-preservation argument: if no edge of `r` points at
`n`, and every edge of `r` from a node other than `n` is an edge of `g`,
then acyclicity of `g` gives acyclicity of `r`. -/
theorem CFGraph.acyclic_of_no_step_into (g r : CFGraph) (n : Nat)
    (hg : g.Acyclic) (hno : ∀ a, ¬ r.hasStep a n)
    (hsub : ∀ a b, a ≠ n → r.hasStep a b → g.hasStep a b) : r.Acyclic := by
  have main : ∀ a b, Relation.TransGen r.hasStep a b → a ≠ n →
      Relation.TransGen g.hasStep a b ∧ b ≠ n := by
    intro a b htg
    induction htg with
    | single hstep =>
        intro ha
        exact ⟨Relation.TransGen.single (hsub _ _ ha hstep),
          fun hb => hno _ (hb ▸ hstep)⟩
    | tail _ hstep ih =>
        intro ha
        obtain ⟨htrans, hb⟩ := ih ha
        exact ⟨htrans.tail (hsub _ _ hb hstep),
          fun hc => hno _ (hc ▸ hstep)⟩
  intro a hcyc
  have ha : a ≠ n := by
    cases hcyc with
    | single hstep => exact fun hh => hno _ (hh ▸ hstep)
    | tail _ hstep => exact fun hh => hno _ (hh ▸ hstep)
  exact hg a (main a a hcyc ha).1

theorem CFGraph.acyclic_add_node {g : CFGraph} (hg : g.Wf) (hac : g.Acyclic)
    (n : Nat) (es : List (Label × Nat)) : (g.add_node n es).1.Acyclic := by
  unfold CFGraph.add_node
  by_cases hmem : g.mem n
  · rw [if_pos hmem]; exact hac
  · rw [if_neg hmem]
    set r := ((g.addNodeRaw n).addEdgesLoop n es).1 with hr
    have hfrom : ∀ l x, r.edge n l = some x → x ∈ (g.addNodeRaw n).nodes ∧ x ≠ n := by
      intro l x hx
      refine CFGraph.addEdgesLoop_from_node es (g.addNodeRaw n) n ?_ l x hx
      intro l' x' hx'
      rw [CFGraph.edge_addNodeRaw, if_pos rfl] at hx'
      cases hx'
    have huntouched : ∀ a l, a ≠ n → r.edge a l = g.edge a l := by
      intro a l ha
      rw [hr, CFGraph.addEdgesLoop_edge_untouched es _ n a l (fun hh => absurd hh ha)]
      rw [CFGraph.edge_addNodeRaw, if_neg ha]
    refine CFGraph.acyclic_of_no_step_into g r n hac ?_ ?_
    · intro a hstep
      obtain ⟨l, hl⟩ := hstep
      by_cases ha : a = n
      · rw [ha] at hl
        exact (hfrom l n hl).2 rfl
      · rw [huntouched a l ha] at hl
        exact hmem (hg.tgtMem a l n hl)
    · intro a b ha hstep
      obtain ⟨l, hl⟩ := hstep
      rw [huntouched a l ha] at hl
      exact ⟨l, hl⟩

theorem CFGraph.acyclic_remove_node {g : CFGraph} (hac : g.Acyclic) (n : Nat) :
    (g.remove_node n).1.Acyclic := by
  have hstep : ∀ a b, (g.remove_node n).1.hasStep a b ↔ g.hasStep a b := by
    intro a b
    unfold CFGraph.hasStep
    constructor
    · intro ⟨l, hl⟩
      rw [CFGraph.remove_node_edge] at hl
      exact ⟨l, hl⟩
    · intro ⟨l, hl⟩
      rw [← CFGraph.remove_node_edge g n a l] at hl
      exact ⟨l, hl⟩
  intro a hcyc
  refine hac a ?_
  have hmono : ∀ x y, (g.remove_node n).1.hasStep x y → g.hasStep x y :=
    fun x y h => (hstep x y).1 h
  exact Relation.TransGen.mono hmono hcyc

theorem CFGraph.ARReach.acyclic {g : CFGraph} (h : g.ARReach) : g.Acyclic := by
  induction h with
  | empty =>
      intro n hcyc
      have : ∀ a b, ¬ CFGraph.empty.hasStep a b := by
        intro a b ⟨l, hl⟩
        simp [CFGraph.empty, CFGraph.edge, CFGraph.fwd, lookupA] at hl
      cases hcyc with
      | single hstep => exact this _ _ hstep
      | tail _ hstep => exact this _ _ hstep
  | add n es hnd hr ih => exact CFGraph.acyclic_add_node hr.reachable.wf ih n es
  | remove n _ ih => exact CFGraph.acyclic_remove_node ih n

theorem CFGraph.addEdgesLoop_partial (pre : List (Label × Nat)) :
    ∀ (g : CFGraph) (n : Nat) (bad : Label × Nat) (post : List (Label × Nat)),
      (((pre ++ bad :: post).map (·.1)).Nodup) →
      (∀ p ∈ pre, p.2 ∈ g.nodes ∧ p.2 ≠ n) →
      (bad.2 ∉ g.nodes ∨ bad.2 = n) →
      (g.addEdgesLoop n (pre ++ bad :: post)).2 = some (.badTarget bad.1 bad.2) ∧
      ∀ p ∈ pre, (g.addEdgesLoop n (pre ++ bad :: post)).1.edge n p.1 = some p.2 := by
  induction pre with
  | nil =>
      intro g n bad post _ _ hbad
      have hc : ¬ g.mem bad.2 ∨ bad.2 = n := by
        rcases hbad with h | h
        · left; rw [CFGraph.mem_iff]; exact h
        · right; exact h
      constructor
      · show (if ¬ g.mem bad.2 ∨ bad.2 = n then (g, some (.badTarget bad.1 bad.2))
          else (g.addEdgeRaw n bad.1 bad.2).addEdgesLoop n post).2 =
            some (.badTarget bad.1 bad.2)
        rw [if_pos hc]
      · intro p hp; cases hp
  | cons q pre' ih =>
      intro g n bad post hnd hpre hbad
      have hq := hpre q (List.mem_cons_self q pre')
      have hc : ¬ (¬ g.mem q.2 ∨ q.2 = n) := by
        push_neg
        exact ⟨hq.1, hq.2⟩
      have hstep : g.addEdgesLoop n ((q :: pre') ++ bad :: post) =
          (g.addEdgeRaw n q.1 q.2).addEdgesLoop n (pre' ++ bad :: post) := by
        show (if ¬ g.mem q.2 ∨ q.2 = n then (g, some (.badTarget q.1 q.2))
          else (g.addEdgeRaw n q.1 q.2).addEdgesLoop n (pre' ++ bad :: post)) = _
        rw [if_neg hc]
      have hnd' : (((pre' ++ bad :: post).map (·.1)).Nodup) := by
        simp only [List.cons_append, List.map_cons, List.nodup_cons] at hnd
        exact hnd.2
      have hql : q.1 ∉ (pre' ++ bad :: post).map (·.1) := by
        simp only [List.cons_append, List.map_cons, List.nodup_cons] at hnd
        exact hnd.1
      obtain ⟨herr, hedges⟩ := ih (g.addEdgeRaw n q.1 q.2) n bad post hnd'
        (by
          intro p hp
          rw [CFGraph.nodes_addEdgeRaw]
          exact hpre p (List.mem_cons_of_mem q hp))
        (by
          rw [CFGraph.nodes_addEdgeRaw]
          exact hbad)
      rw [hstep]
      refine ⟨herr, ?_⟩
      intro p hp
      rcases List.mem_cons.1 hp with hp | hp
      · rw [hp]
        rw [CFGraph.addEdgesLoop_edge_untouched _ _ n n q.1 (fun _ => hql)]
        rw [CFGraph.edge_addEdgeRaw, if_pos ⟨rfl, rfl⟩]
      · exact hedges p hp

/-! ### Demonstration graphs used by witnesses -/

/-- A graph with one node `0`: `g = CFGraph(); g.add_node(0)`. -/
def demoG1 : CFGraph := (CFGraph.empty.add_node 0 []).1

/-- `demoG1` plus a node `1` with an edge `1 --"next"--> 0`. -/
def demoG2 : CFGraph := (demoG1.add_node 1 [("next", 0)]).1

theorem demoG1_reachable : demoG1.Reachable :=
  CFGraph.Reachable.add 0 [] (by simp) CFGraph.Reachable.empty

theorem demoG2_reachable : demoG2.Reachable :=
  CFGraph.Reachable.add 1 [("next", 0)] (by simp) demoG1_reachable

theorem demoG2_ar : demoG2.ARReach :=
  CFGraph.ARReach.add 1 [("next", 0)] (by simp)
    (CFGraph.ARReach.add 0 [] (by simp) CFGraph.ARReach.empty)

/-! ### Claims C1, C2, C3, C10 -/

/--
C1: for every graph reachable from an empty `CFGraph` by any sequence of
`add_node`, `remove_node` and `collapse_node` calls, the back-edge index
is the exact inverse of the forward-edge index: for all nodes `s`, `t`
and every label `ℓ`, `(s, ℓ) ∈ edges_to(t)` if and only if the forward
edge from `s` labelled `ℓ` exists and its target is `t`.
-/
theorem claim_C1_backedge_inverse {g : CFGraph} (hg : g.Reachable)
    (s t : Nat) (l : Label) :
    (s, l) ∈ g.edges_to t ↔ g.edge s l = some t :=
  hg.wf.inv s l t

/-- Witness for C1 at a concrete reachable graph, edge and label. -/
theorem claim_C1_backedge_inverse_witness :
    (((1, "next") ∈ demoG2.edges_to 0 ↔ demoG2.edge 1 "next" = some 0) ∧
      (1, "next") ∈ demoG2.edges_to 0) :=
  ⟨claim_C1_backedge_inverse demoG2_reachable 1 0 "next", by decide⟩

/--
C2: on a well-formed graph, `collapse_node(dummy, target)` succeeds
exactly when both nodes are present, `dummy` has no outgoing edges and
`dummy ≠ target`; on failure the graph is unchanged; on success every
edge that pointed at `dummy` now points at `target` (possibly producing
a self-loop when the source is `target`), `dummy` is removed and all
other nodes and edges are unchanged.  Moreover collapse is the only
operation able to introduce a cycle: every graph built with `add_node`
and `remove_node` alone is acyclic, while a single collapse on such a
graph can close a cycle.
-/
theorem claim_C2_collapse_node :
    (∀ (g : CFGraph) (d t : Nat), g.Wf →
      (((g.collapse_node d t).2 = none) ↔
        (d ∈ g.nodes ∧ t ∈ g.nodes ∧ g.fwd d = [] ∧ d ≠ t)) ∧
      ((g.collapse_node d t).2 ≠ none → (g.collapse_node d t).1 = g) ∧
      ((g.collapse_node d t).2 = none →
        (∀ m, m ∈ (g.collapse_node d t).1.nodes ↔ (m ∈ g.nodes ∧ m ≠ d)) ∧
        (∀ s l, (g.collapse_node d t).1.edge s l =
          if g.edge s l = some d then some t else g.edge s l))) ∧
    (∀ g : CFGraph, g.ARReach → g.Acyclic) ∧
    ((demoG2.collapse_node 0 1).2 = none ∧
      (demoG2.collapse_node 0 1).1.edge 1 "next" = some 1 ∧
      Relation.TransGen ((demoG2.collapse_node 0 1).1.hasStep) 1 1) := by
  refine ⟨?_, ?_, ?_, ?_, ?_⟩
  · intro g d t hg
    obtain ⟨hok, hfail, hsucc⟩ := CFGraph.collapse_props hg d t
    exact ⟨hok, hfail, fun h => ⟨(hsucc h).2.1, (hsucc h).2.2⟩⟩
  · intro g hg
    exact hg.acyclic
  · decide
  · decide
  · exact Relation.TransGen.single ⟨"next", by decide⟩

/-- Witness for C2 at a concrete well-formed graph and a concrete
add/remove-reachable graph. -/
theorem claim_C2_collapse_node_witness :
    (((demoG2.collapse_node 0 1).2 = none) ↔
      (0 ∈ demoG2.nodes ∧ 1 ∈ demoG2.nodes ∧ demoG2.fwd 0 = [] ∧ (0 : Nat) ≠ 1)) ∧
    demoG2.Acyclic :=
  ⟨(claim_C2_collapse_node.1 demoG2 0 1 demoG2_reachable.wf).1,
    claim_C2_collapse_node.2.1 demoG2 demoG2_ar⟩

/--
C3: `add_node(n, edges)` fails when `n` is already present (duplicate
node), when some edge target is not already in the graph, or when some
edge target equals `n` (self-loop on construction); when none of these
holds it succeeds, inserting `n` and adding, for each `(label, target)`
pair, the forward edge and the matching back-edge.
-/
theorem claim_C3_add_node (g : CFGraph) (n : Nat) (es : List (Label × Nat))
    (hg : g.Wf) (hnd : (es.map (·.1)).Nodup) :
    (n ∈ g.nodes → (g.add_node n es).2 = some .duplicateNode) ∧
    (((g.add_node n es).2 = none) ↔
      (n ∉ g.nodes ∧ ∀ p ∈ es, p.2 ∈ g.nodes ∧ p.2 ≠ n)) ∧
    ((g.add_node n es).2 = none →
      (∀ m, m ∈ (g.add_node n es).1.nodes ↔ (m = n ∨ m ∈ g.nodes)) ∧
      ∀ p ∈ es, (g.add_node n es).1.edge n p.1 = some p.2 ∧
        (n, p.1) ∈ (g.add_node n es).1.edges_to p.2) := by
  refine ⟨?_, ?_, ?_⟩
  · intro hmem
    unfold CFGraph.add_node
    rw [if_pos (show g.mem n from hmem)]
  · unfold CFGraph.add_node
    by_cases hmem : g.mem n
    · rw [if_pos hmem]
      rw [CFGraph.mem_iff] at hmem
      simp [hmem]
    · rw [if_neg hmem]
      rw [CFGraph.mem_iff] at hmem
      rw [CFGraph.addEdgesLoop_ok_iff]
      simp only [hmem, not_false_iff, true_and]
      constructor
      · intro h p hp
        have := h p hp
        rw [CFGraph.nodes_addNodeRaw, List.mem_cons] at this
        rcases this.1 with h' | h'
        · exact absurd h' this.2
        · exact ⟨h', this.2⟩
      · intro h p hp
        have := h p hp
        rw [CFGraph.nodes_addNodeRaw, List.mem_cons]
        exact ⟨Or.inr this.1, this.2⟩
  · intro hok
    have hmem : ¬ g.mem n := by
      intro hmem
      unfold CFGraph.add_node at hok
      rw [if_pos hmem] at hok
      cases hok
    have hshape : g.add_node n es = ((g.addNodeRaw n).addEdgesLoop n es) := by
      unfold CFGraph.add_node
      rw [if_neg hmem]
    constructor
    · intro m
      rw [hshape, CFGraph.addEdgesLoop_nodes, CFGraph.nodes_addNodeRaw,
        List.mem_cons]
    · intro p hp
      have hedge : (g.add_node n es).1.edge n p.1 = some p.2 := by
        rw [hshape]
        exact CFGraph.addEdgesLoop_ok_edges es _ n hnd (hshape ▸ hok) p hp
      refine ⟨hedge, ?_⟩
      exact ((hg.add_node n es hnd).inv n p.1 p.2).2 hedge

/-- Witness for C3: adding node `1` with an edge to the existing node `0`
succeeds and installs the forward edge and its back-edge. -/
theorem claim_C3_add_node_witness :
    ((demoG1.add_node 1 [("next", 0)]).2 = none) ∧
    (demoG1.add_node 1 [("next", 0)]).1.edge 1 "next" = some 0 ∧
    (1, "next") ∈ (demoG1.add_node 1 [("next", 0)]).1.edges_to 0 := by
  have hc := claim_C3_add_node demoG1 1 [("next", 0)]
    demoG1_reachable.wf (by simp)
  have hok : (demoG1.add_node 1 [("next", 0)]).2 = none := by decide
  have hres := (hc.2.2 hok).2 ("next", 0) (List.mem_cons_self _ _)
  exact ⟨hok, hres.1, hres.2⟩

/--
C10: `add_node` is not atomic on failure.  If `add_node(node, edges)`
fails because some edge target is absent from the graph or equal to
`node`, the node is nevertheless present afterwards and every edge
preceding the offending one (in iteration order) has been added; only
the duplicate-node failure leaves the graph unchanged.
-/
theorem claim_C10_add_node_not_atomic :
    (∀ (g : CFGraph) (n : Nat) (pre : List (Label × Nat)) (bad : Label × Nat)
      (post : List (Label × Nat)),
      (((pre ++ bad :: post).map (·.1)).Nodup) →
      n ∉ g.nodes →
      (∀ p ∈ pre, p.2 ∈ g.nodes ∧ p.2 ≠ n) →
      (bad.2 ∉ g.nodes ∨ bad.2 = n) →
      (g.add_node n (pre ++ bad :: post)).2 = some (.badTarget bad.1 bad.2) ∧
      n ∈ (g.add_node n (pre ++ bad :: post)).1.nodes ∧
      (∀ p ∈ pre, (g.add_node n (pre ++ bad :: post)).1.edge n p.1 = some p.2)) ∧
    (∀ (g : CFGraph) (n : Nat) (es : List (Label × Nat)),
      n ∈ g.nodes → g.add_node n es = (g, some .duplicateNode)) := by
  constructor
  · intro g n pre bad post hnd hn hpre hbad
    have hshape : g.add_node n (pre ++ bad :: post) =
        ((g.addNodeRaw n).addEdgesLoop n (pre ++ bad :: post)) := by
      unfold CFGraph.add_node
      rw [if_neg (by rw [CFGraph.mem_iff]; exact hn)]
    have hbad' : bad.2 ∉ (g.addNodeRaw n).nodes ∨ bad.2 = n := by
      by_cases hb : bad.2 = n
      · right; exact hb
      · rcases hbad with h | h
        · left
          rw [CFGraph.nodes_addNodeRaw, List.mem_cons]
          intro hc
          rcases hc with hc | hc
          · exact hb hc
          · exact h hc
        · right; exact h
    obtain ⟨herr, hedges⟩ := CFGraph.addEdgesLoop_partial pre (g.addNodeRaw n) n
      bad post hnd
      (by
        intro p hp
        rw [CFGraph.nodes_addNodeRaw]
        exact ⟨List.mem_cons_of_mem n (hpre p hp).1, (hpre p hp).2⟩)
      hbad'
    rw [hshape]
    refine ⟨herr, ?_, hedges⟩
    rw [CFGraph.addEdgesLoop_nodes, CFGraph.nodes_addNodeRaw]
    exact List.mem_cons_self n _
  · intro g n es hmem
    unfold CFGraph.add_node
    rw [if_pos (by rw [CFGraph.mem_iff]; exact hmem)]

/-- Witness for C10: adding node `1` with edges `a → 0`, `b → 5`, `c → 0`
to a graph whose only node is `0` fails at `b` (node `5` is absent) but
leaves node `1` and the edge `a → 0` in the graph. -/
theorem claim_C10_add_node_not_atomic_witness :
    ((demoG1.add_node 1 [("a", 0), ("b", 5), ("c", 0)]).2 =
      some (.badTarget "b" 5)) ∧
    1 ∈ (demoG1.add_node 1 [("a", 0), ("b", 5), ("c", 0)]).1.nodes ∧
    (demoG1.add_node 1 [("a", 0), ("b", 5), ("c", 0)]).1.edge 1 "a" = some 0 := by
  have hc := claim_C10_add_node_not_atomic.1 demoG1 1 [("a", 0)] ("b", 5)
    [("c", 0)] (by simp) (by decide) (by decide) (by decide)
  exact ⟨hc.1, hc.2.1, hc.2.2 ("a", 0) (List.mem_cons_self _ _)⟩

/-!
### The control-flow analyser (`pycfa/cfanalyser.py`)

`CFNode` objects are identity tokens; we model them as natural numbers
allocated by a counter, with the node payload (AST back-reference or
annotation) kept in a side table.  The analyser state bundles the graph
under construction, the context dictionary (`self._context`, an
insertion-ordered mapping from role labels to nodes), the allocation
counter and the payload table.

Python exceptions (`AttributeError` from the `getattr` dispatch,
`KeyError` from context lookups, `ValueError` from graph methods)
abort the analysis; we model them with `Except`.  The recursion is
fuel-indexed: every function burns one unit of fuel per call, and a run
with enough fuel behaves exactly like the Python recursion.
-/

/-- The values recognised by the tiny constant evaluator
(`_getvalue_expr_*`): ints/bools/strings/None/Ellipsis.  Python floats,
complex numbers and bytes are recognised too; they add no behaviour
beyond their truthiness, which these constructors already cover. -/
inductive PyVal : Type
  | int (n : Int)
  | bool (b : Bool)
  | str (s : String)
  | pynone
  | ellipsis
deriving Repr, DecidableEq

/-- Python `bool()` on the recognised constant values. -/
def PyVal.truthy : PyVal → Bool
  | .int n => n ≠ 0
  | .bool b => b
  | .str s => s ≠ ""
  | .pynone => false
  | .ellipsis => true

/-- Expressions, as far as the analyser inspects them: an expression
either has one of the AST types with a `_getvalue_expr_` handler
(`Constant`, `NameConstant`, `Num`, `Str`, `Bytes`, `Ellipsis`), carrying
its value, or it is any other expression, which the analyser treats as
opaque. -/
inductive Expr : Type
  | const (v : PyVal)
  | other
deriving Repr, DecidableEq

/-- `_expression_as_constant`: `some v` when the expression's AST type
has a value getter, else `none`. -/
def expression_as_constant : Expr → Option PyVal
  | .const v => some v
  | .other => none

/-- The supported statement kinds (the `_analyse_stmt_*` methods of
`CFAnalyser`), plus `unsupported kind tag` for any other AST statement
kind: `kind` is the AST class name and `tag` stands for the node's
remaining content (two distinct statements of the same kind differ in
`tag`). -/
inductive Stmt : Type
  | pass
  | globalS
  | nonlocalS
  | assign
  | augAssign
  | annAssign
  | delete
  | exprStmt
  | importS
  | importFrom
  | functionDef
  | asyncFunctionDef
  | classDef
  | ret (value : Option Expr)
  | raiseS
  | assertS (test : Expr)
  | ifS (test : Expr) (body orelse : List Stmt)
  | whileS (test : Expr) (body orelse : List Stmt)
  | forS (body orelse : List Stmt)
  | asyncFor (body orelse : List Stmt)
  | tryS (body : List Stmt) (handlers : List (Option Expr × List Stmt))
      (orelse finalbody : List Stmt)
  | withS (body : List Stmt)
  | asyncWith (body : List Stmt)
  | breakS
  | continueS
  | unsupported (kind : String) (tag : Nat)
deriving Repr

/-- Payload of a `CFNode`: an AST statement reference, an AST expression
reference (used for `except` clause types), a text annotation, or
nothing (dummy nodes). -/
inductive Payload : Type
  | stmt (s : Stmt)
  | exprP (e : Expr)
  | annot (a : String)
  | blank
deriving Repr

/-- The context dictionary type (`_Context = Dict[str, CFNode]`),
insertion-ordered. -/
abbrev Ctx := List (String × Nat)

/-- Analyser state: graph under construction, context, node-allocation
counter, payload table. -/
structure AState where
  graph : CFGraph
  ctx : Ctx
  counter : Nat
  payload : List (Nat × Payload)
deriving Repr

/-- Exceptions escaping the analyser. -/
inductive AErr : Type
  /-- Fuel exhausted (model artefact; never raised with enough fuel). -/
  | outOfFuel
  /-- `AttributeError` from the `getattr(self, "_analyse_stmt_" + ...)`
  dispatch: carries the missing attribute name, nothing else. -/
  | attrErr (method : String)
  /-- `KeyError` from `self._context[label]`. -/
  | keyErr (key : String)
  /-- `ValueError` propagated from a `CFGraph` method. -/
  | graphErr (e : GraphErr)
deriving Repr, DecidableEq

/-- Result of a stateful analyser step. -/
abbrev Res (α : Type) := Except AErr (α × AState)

/-- Edge labels (`cfanalyser.py` constants). -/
def NEXT : Label := "next"

/-- `ERROR = "error"`. -/
def ERROR : Label := "error"

/-- `ENTER = "enter"`. -/
def ENTER : Label := "enter"

/-- `ELSE = "else_"`. -/
def ELSE : Label := "else_"

/-- Allocate a fresh `CFNode` with the given payload and add it to the
graph with the given edges (`_ast_node` / `_annotated_node` /
`_dummy_node`). -/
def newNode (p : Payload) (es : List (Label × Nat)) (st : AState) : Res Nat :=
  match st.graph.add_node st.counter es with
  | (g, none) =>
      .ok (st.counter,
        { st with
          graph := g
          counter := st.counter + 1
          payload := setA st.payload st.counter p })
  | (_, some e) => .error (.graphErr e)

/-- `self._context[key]`, raising `KeyError` when absent. -/
def ctxLookup (key : String) (st : AState) : Res Nat :=
  match lookupA st.ctx key with
  | some v => .ok (v, st)
  | none => .error (.keyErr key)

/-- The values saved by `_updated_context` on entry
(`original_items`, with `none` marking a label absent from the
context). -/
def ctxSaved (updates : Ctx) (c : Ctx) : List (String × Option Nat) :=
  updates.map (fun p => (p.1, lookupA c p.1))

/-- `self._context.update(updates)`. -/
def ctxApply (updates : Ctx) (c : Ctx) : Ctx :=
  updates.foldl (fun acc p => setA acc p.1 p.2) c

/-- The `finally` clause of `_updated_context`: restore each updated
label to its saved value, deleting the labels that were absent. -/
def ctxRestore (saved : List (String × Option Nat)) (c : Ctx) : Ctx :=
  saved.foldl
    (fun acc p =>
      match p.2 with
      | some v => setA acc p.1 v
      | none => delA acc p.1) c

/-- `_has_parents`: truthiness of `self._graph._backedges[node]`. -/
def hasParents (g : CFGraph) (n : Nat) : Bool := g.edges_to n ≠ []

/-- Error-propagating sequencing of analyser steps: a raised exception
propagates, a normal result feeds the continuation (the semicolon of the
Python method bodies). -/
def bindR {α β : Type} (x : Res α) (k : α → AState → Res β) : Res β :=
  match x with
  | .error e => .error e
  | .ok (a, st) => k a st

/-- A generic side-effecting statement: `next` to the supplied next,
`error` to the current raise target. -/
def genericStmt (stm : Stmt) (nxt : Nat) (st : AState) : Res Nat :=
  bindR (ctxLookup "raise_" st) fun r st₁ =>
    newNode (.stmt stm) [(NEXT, nxt), (ERROR, r)] st₁

/-- Create the loop node with the given branches and collapse the
iteration dummy onto it (last two lines of `_analyse_stmt_While` /
`_analyse_loop`). -/
def finishLoop (stm : Stmt) (branches : List (Label × Nat)) (dummy : Nat)
    (st : AState) : Res Nat :=
  bindR (newNode (.stmt stm) branches st) fun loopN st₁ =>
    match st₁.graph.collapse_node dummy loopN with
    | (g, none) => .ok (loopN, { st₁ with graph := g })
    | (_, some e) => .error (.graphErr e)

/-- The dummy-construction loop of `_analyse_stmt_Try`: for each context
item, allocate one dummy per distinct target node different from `next`;
`target_nodes` maps each label to the finally entry (when its target is
`next`) or to its target's dummy. -/
def buildDummies :
    Ctx → Nat → Nat → List (Nat × Nat) → Ctx → AState →
      Res (List (Nat × Nat) × Ctx)
  | [], _, _, pairs, tns, st => .ok ((pairs, tns), st)
  | (label, node) :: rest, nxt, finN, pairs, tns, st =>
      if node = nxt then
        buildDummies rest nxt finN pairs (tns ++ [(label, finN)]) st
      else
        match lookupA pairs node with
        | some d => buildDummies rest nxt finN pairs (tns ++ [(label, d)]) st
        | none =>
            bindR (newNode .blank [] st) fun d st₁ =>
              buildDummies rest nxt finN (pairs ++ [(node, d)])
                (tns ++ [(label, d)]) st₁

mutual

/-- One `_analyse_stmt_*` dispatch (`_analyse_statements` body): builds
the sub-graph for a single statement and returns its entry node. -/
def analyseStmt : Nat → Stmt → Nat → AState → Res Nat
  | 0, _, _, _ => .error .outOfFuel
  | f + 1, stm, nxt, st =>
      match stm with
      | .pass => newNode (.stmt .pass) [(NEXT, nxt)] st
      | .globalS => newNode (.stmt .globalS) [(NEXT, nxt)] st
      | .nonlocalS => newNode (.stmt .nonlocalS) [(NEXT, nxt)] st
      | .assign => genericStmt .assign nxt st
      | .augAssign => genericStmt .augAssign nxt st
      | .annAssign => genericStmt .annAssign nxt st
      | .delete => genericStmt .delete nxt st
      | .exprStmt => genericStmt .exprStmt nxt st
      | .importS => genericStmt .importS nxt st
      | .importFrom => genericStmt .importFrom nxt st
      | .functionDef => genericStmt .functionDef nxt st
      | .asyncFunctionDef => genericStmt .asyncFunctionDef nxt st
      | .classDef => genericStmt .classDef nxt st
      | .breakS =>
          bindR (ctxLookup "break_" st) fun b st₁ =>
            newNode (.stmt .breakS) [(NEXT, b)] st₁
      | .continueS =>
          bindR (ctxLookup "continue_" st) fun c st₁ =>
            newNode (.stmt .continueS) [(NEXT, c)] st₁
      | .ret none =>
          bindR (ctxLookup "leave" st) fun lv st₁ =>
            newNode (.stmt (.ret none)) [(NEXT, lv)] st₁
      | .ret (some e) =>
          bindR (ctxLookup "return_" st) fun rv st₁ =>
            match expression_as_constant e with
            | some _ => newNode (.stmt (.ret (some e))) [(NEXT, rv)] st₁
            | none =>
                bindR (ctxLookup "raise_" st₁) fun r st₂ =>
                  newNode (.stmt (.ret (some e))) [(NEXT, rv), (ERROR, r)] st₂
      | .raiseS =>
          bindR (ctxLookup "raise_" st) fun r st₁ =>
            newNode (.stmt .raiseS) [(ERROR, r)] st₁
      | .assertS test =>
          match expression_as_constant test with
          | some v =>
              if v.truthy then newNode (.stmt (.assertS test)) [(NEXT, nxt)] st
              else
                bindR (ctxLookup "raise_" st) fun r st₁ =>
                  newNode (.stmt (.assertS test)) [(ERROR, r)] st₁
          | none =>
              bindR (ctxLookup "raise_" st) fun r st₁ =>
                newNode (.stmt (.assertS test)) [(NEXT, nxt), (ERROR, r)] st₁
      | .ifS test body orelse =>
          bindR (analyseStmts f body nxt st) fun ifB st₁ =>
            bindR (analyseStmts f orelse nxt st₁) fun elseB st₂ =>
              match expression_as_constant test with
              | some v =>
                  if v.truthy then
                    newNode (.stmt (.ifS test body orelse)) [(ENTER, ifB)] st₂
                  else
                    newNode (.stmt (.ifS test body orelse)) [(ELSE, elseB)] st₂
              | none =>
                  bindR (ctxLookup "raise_" st₂) fun r st₃ =>
                    newNode (.stmt (.ifS test body orelse))
                      [(ENTER, ifB), (ELSE, elseB), (ERROR, r)] st₃
      | .whileS test body orelse =>
          bindR (analyseStmts f orelse nxt st) fun elseN st₁ =>
            bindR (newNode .blank [] st₁) fun dummy st₂ =>
              let ups : Ctx := [("break_", nxt), ("continue_", dummy)]
              let saved := ctxSaved ups st₂.ctx
              bindR (analyseStmts f body dummy
                  { st₂ with ctx := ctxApply ups st₂.ctx }) fun bodyN st₄ =>
                let st₅ := { st₄ with ctx := ctxRestore saved st₄.ctx }
                match expression_as_constant test with
                | some v =>
                    if v.truthy then
                      finishLoop (.whileS test body orelse)
                        [(ENTER, bodyN)] dummy st₅
                    else
                      finishLoop (.whileS test body orelse)
                        [(ELSE, elseN)] dummy st₅
                | none =>
                    bindR (ctxLookup "raise_" st₅) fun r st₆ =>
                      finishLoop (.whileS test body orelse)
                        [(ENTER, bodyN), (ELSE, elseN), (ERROR, r)] dummy st₆
      | .forS body orelse => analyseLoop f (.forS body orelse) body orelse nxt st
      | .asyncFor body orelse =>
          analyseLoop f (.asyncFor body orelse) body orelse nxt st
      | .withS body => analyseWith f (.withS body) body nxt st
      | .asyncWith body => analyseWith f (.asyncWith body) body nxt st
      | .tryS body handlers orelse finalbody =>
          bindR (analyseStmts f finalbody nxt st) fun finN st₁ =>
            bindR (buildDummies st₁.ctx nxt finN [] [] st₁) fun pt st₂ =>
              let saved := ctxSaved pt.2 st₂.ctx
              bindR (analyseTryExcept f (.tryS body handlers orelse finalbody)
                  body handlers orelse finN
                  { st₂ with ctx := ctxApply pt.2 st₂.ctx }) fun entry st₄ =>
                bindR (processDummies f finalbody nxt pt.1
                    { st₄ with ctx := ctxRestore saved st₄.ctx }) fun _ st₆ =>
                  .ok (entry, st₆)
      | .unsupported kind _ => .error (.attrErr ("_analyse_stmt_" ++ kind))
termination_by structural f _ _ _ => f

/-- `_analyse_statements`: reverse-order traversal of a statement
sequence; each statement's entry node becomes the `next` of the one
before it. -/
def analyseStmts : Nat → List Stmt → Nat → AState → Res Nat
  | 0, _, _, _ => .error .outOfFuel
  | _ + 1, [], nxt, st => .ok (nxt, st)
  | f + 1, s :: rest, nxt, st =>
      bindR (analyseStmts f rest nxt st) fun mid st₁ =>
        analyseStmt f s mid st₁
termination_by structural f _ _ _ => f

/-- `_analyse_loop` (for / async for): dummy node, body under pushed
break/continue targets, else clause, loop node, collapse. -/
def analyseLoop : Nat → Stmt → List Stmt → List Stmt → Nat → AState → Res Nat
  | 0, _, _, _, _, _ => .error .outOfFuel
  | f + 1, stm, body, orelse, nxt, st =>
      bindR (newNode .blank [] st) fun dummy st₁ =>
        let ups : Ctx := [("break_", nxt), ("continue_", dummy)]
        let saved := ctxSaved ups st₁.ctx
        bindR (analyseStmts f body dummy
            { st₁ with ctx := ctxApply ups st₁.ctx }) fun bodyN st₃ =>
          let st₄ := { st₃ with ctx := ctxRestore saved st₃.ctx }
          bindR (analyseStmts f orelse nxt st₄) fun elseN st₅ =>
            bindR (ctxLookup "raise_" st₅) fun r st₆ =>
              finishLoop stm [(ENTER, bodyN), (ELSE, elseN), (ERROR, r)]
                dummy st₆
termination_by structural f _ _ _ _ _ => f

/-- `_analyse_with`: body, then the with node with `enter` and `error`
edges. -/
def analyseWith : Nat → Stmt → List Stmt → Nat → AState → Res Nat
  | 0, _, _, _, _ => .error .outOfFuel
  | f + 1, stm, body, nxt, st =>
      bindR (analyseStmts f body nxt st) fun bodyN st₁ =>
        bindR (ctxLookup "raise_" st₁) fun r st₂ =>
          newNode (.stmt stm) [(ENTER, bodyN), (ERROR, r)] st₂
termination_by structural f _ _ _ _ => f

/-- The handler loop of `_analyse_try_except`, processed in reverse:
`rn` is the current "no match" sink. -/
def analyseHandlers :
    Nat → List (Option Expr × List Stmt) → Nat → Nat → AState → Res Nat
  | 0, _, _, _, _ => .error .outOfFuel
  | _ + 1, [], _, rn, st => .ok (rn, st)
  | f + 1, h :: rest, nxt, rn, st =>
      bindR (analyseHandlers f rest nxt rn st) fun rn₁ st₁ =>
        bindR (analyseStmts f h.2 nxt st₁) fun matchN st₂ =>
          match h.1 with
          | none => .ok (matchN, st₂)
          | some te =>
              bindR (ctxLookup "raise_" st₂) fun r st₃ =>
                newNode (.exprP te)
                  [(ENTER, matchN), (ELSE, rn₁), (ERROR, r)] st₃
termination_by structural f _ _ _ _ => f

/-- `_analyse_try_except`: handlers in reverse, else clause, body under a
pushed raise target, and the try entry node. -/
def analyseTryExcept :
    Nat → Stmt → List Stmt → List (Option Expr × List Stmt) → List Stmt →
      Nat → AState → Res Nat
  | 0, _, _, _, _, _, _ => .error .outOfFuel
  | f + 1, stm, body, handlers, orelse, nxt, st =>
      bindR (ctxLookup "raise_" st) fun rn0 st₀ =>
        bindR (analyseHandlers f handlers nxt rn0 st₀) fun rn st₁ =>
          bindR (analyseStmts f orelse nxt st₁) fun elseN st₂ =>
            let ups : Ctx := [("raise_", rn)]
            let saved := ctxSaved ups st₂.ctx
            bindR (analyseStmts f body elseN
                { st₂ with ctx := ctxApply ups st₂.ctx }) fun bodyN st₄ =>
              newNode (.stmt stm) [(NEXT, bodyN)]
                { st₄ with ctx := ctxRestore saved st₄.ctx }
termination_by structural f _ _ _ _ _ _ => f

/-- The final loop of `_analyse_stmt_Try`: each reached dummy is
collapsed onto a fresh copy of the finally block wired to its original
end target; unreached dummies are removed. -/
def processDummies :
    Nat → List Stmt → Nat → List (Nat × Nat) → AState → Res Unit
  | 0, _, _, _, _ => .error .outOfFuel
  | _ + 1, _, _, [], st => .ok ((), st)
  | f + 1, finalbody, nxt, (endN, d) :: rest, st =>
      if endN = nxt ∨ hasParents st.graph d then
        bindR (analyseStmts f finalbody endN st) fun finEntry st₁ =>
          match st₁.graph.collapse_node d finEntry with
          | (g, none) => processDummies f finalbody nxt rest { st₁ with graph := g }
          | (_, some e) => .error (.graphErr e)
      else
        match st.graph.remove_node d with
        | (g, none) => processDummies f finalbody nxt rest { st with graph := g }
        | (_, some e) => .error (.graphErr e)
termination_by structural f _ _ _ _ => f

end

/-- The `key_nodes` result of an entry point (`analyse_function` /
`analyse_module` / `analyse_class`): the final graph and payload table,
the entry node, and the surviving distinguished nodes (`none` when the
node had no predecessors and was pruned, in which case the resulting
`CFAnalysis` attribute is absent). -/
structure CFResult where
  graph : CFGraph
  payload : List (Nat × Payload)
  entry : Nat
  leaveNode : Option Nat
  raiseNode : Option Nat
  returnNode : Option Nat
deriving Repr

/-- The terminal-node pruning at the end of each entry point: keep the
node when `_has_parents`, else `remove_node` it. -/
def pruneTerminal (n : Nat) (st : AState) : Res (Option Nat) :=
  if hasParents st.graph n then .ok (some n, st)
  else
    match st.graph.remove_node n with
    | (g, none) => .ok (none, { st with graph := g })
    | (_, some e) => .error (.graphErr e)

/-- The fresh analyser state built by `CFAnalyser.__init__`. -/
def initState : AState := ⟨CFGraph.empty, [], 0, []⟩

/-- `CFAnalyser.analyse_function`: synthetic `<leave>`, `<raise>`,
`<return>` nodes, the body analysed under the corresponding roles with
`next := leave_node`, a `<start>` node referencing the entry, and
pruning of unreached terminal nodes. -/
def analyse_function (fuel : Nat) (body : List Stmt) : Except AErr CFResult :=
  match newNode (.annot "<leave>") [] initState with
  | .error e => .error e
  | .ok (leaveN, st₁) =>
  match newNode (.annot "<raise>") [] st₁ with
  | .error e => .error e
  | .ok (raiseN, st₂) =>
  match newNode (.annot "<return>") [] st₂ with
  | .error e => .error e
  | .ok (returnN, st₃) =>
  let ups : Ctx := [("leave", leaveN), ("raise_", raiseN), ("return_", returnN)]
  let saved := ctxSaved ups st₃.ctx
  let st₄ := { st₃ with ctx := ctxApply ups st₃.ctx }
  match analyseStmts fuel body leaveN st₄ with
  | .error e => .error e
  | .ok (entry, st₅) =>
  let st₆ := { st₅ with ctx := ctxRestore saved st₅.ctx }
  match newNode (.annot "<start>") [(ENTER, entry)] st₆ with
  | .error e => .error e
  | .ok (_, st₇) =>
  match pruneTerminal leaveN st₇ with
  | .error e => .error e
  | .ok (lv, st₈) =>
  match pruneTerminal raiseN st₈ with
  | .error e => .error e
  | .ok (rv, st₉) =>
  match pruneTerminal returnN st₉ with
  | .error e => .error e
  | .ok (retv, st₁₀) =>
  .ok ⟨st₁₀.graph, st₁₀.payload, entry, lv, rv, retv⟩

/-- `CFAnalyser.analyse_module` (also `analyse_class`): like
`analyse_function` but with only the `raise_` role; no return node. -/
def analyse_module (fuel : Nat) (body : List Stmt) : Except AErr CFResult :=
  match newNode (.annot "<leave>") [] initState with
  | .error e => .error e
  | .ok (leaveN, st₁) =>
  match newNode (.annot "<raise>") [] st₁ with
  | .error e => .error e
  | .ok (raiseN, st₂) =>
  let ups : Ctx := [("raise_", raiseN)]
  let saved := ctxSaved ups st₂.ctx
  let st₃ := { st₂ with ctx := ctxApply ups st₂.ctx }
  match analyseStmts fuel body leaveN st₃ with
  | .error e => .error e
  | .ok (entry, st₄) =>
  let st₅ := { st₄ with ctx := ctxRestore saved st₄.ctx }
  match newNode (.annot "<start>") [(ENTER, entry)] st₅ with
  | .error e => .error e
  | .ok (_, st₆) =>
  match pruneTerminal leaveN st₆ with
  | .error e => .error e
  | .ok (lv, st₇) =>
  match pruneTerminal raiseN st₇ with
  | .error e => .error e
  | .ok (rv, st₈) =>
  .ok ⟨st₈.graph, st₈.payload, entry, lv, rv, none⟩

mutual

/-- A statement whose AST kind is in the supported set, all nested
statements included (the analyser recurses into compound statements, so
the dispatch happens for every nested statement as well). -/
def supportedStmt : Stmt → Bool
  | .ifS _ b o => supportedList b && supportedList o
  | .whileS _ b o => supportedList b && supportedList o
  | .forS b o => supportedList b && supportedList o
  | .asyncFor b o => supportedList b && supportedList o
  | .tryS b hs o fb =>
      supportedList b && supportedHandlers hs && supportedList o &&
        supportedList fb
  | .withS b => supportedList b
  | .asyncWith b => supportedList b
  | .unsupported _ _ => false
  | _ => true

/-- All statements of a list are supported. -/
def supportedList : List Stmt → Bool
  | [] => true
  | s :: rest => supportedStmt s && supportedList rest

/-- All handler bodies of a handler list are supported. -/
def supportedHandlers : List (Option Expr × List Stmt) → Bool
  | [] => true
  | (_, body) :: rest => supportedList body && supportedHandlers rest

end

/-- The non-synthetic nodes of an analysis result: graph nodes whose
`CFNode` has an AST back-reference (statement or expression) rather than
an annotation or nothing. -/
def CFResult.astNodes (res : CFResult) : List Nat :=
  res.graph.nodes.filter (fun n =>
    match lookupA res.payload n with
    | some (.stmt _) => true
    | some (.exprP _) => true
    | _ => false)

/-! ### Elimination lemmas for `bindR` and the error discipline -/

theorem bindR_error_elim {α β : Type} {x : Res α} {k : α → AState → Res β}
    {er : AErr} (h : bindR x k = .error er) :
    x = .error er ∨ ∃ a st₁, x = .ok (a, st₁) ∧ k a st₁ = .error er := by
  cases hx : x with
  | error e =>
      rw [hx] at h
      left
      simpa [bindR] using h
  | ok p =>
      obtain ⟨a, st₁⟩ := p
      rw [hx] at h
      right
      exact ⟨a, st₁, rfl, by simpa [bindR] using h⟩

theorem bindR_ok_elim {α β : Type} {x : Res α} {k : α → AState → Res β}
    {r : β × AState} (h : bindR x k = .ok r) :
    ∃ a st₁, x = .ok (a, st₁) ∧ k a st₁ = .ok r := by
  cases hx : x with
  | error e =>
      rw [hx] at h
      simp [bindR] at h
  | ok p =>
      obtain ⟨a, st₁⟩ := p
      rw [hx] at h
      exact ⟨a, st₁, rfl, by simpa [bindR] using h⟩

/-- `r` is not an `AttributeError` result. -/
def noAttr {α : Type} (r : Res α) : Prop :=
  ∀ m : String, r ≠ .error (.attrErr m)

theorem bindR_noAttr {α β : Type} {x : Res α} {k : α → AState → Res β}
    (hx : noAttr x) (hk : ∀ a st₁, noAttr (k a st₁)) : noAttr (bindR x k) := by
  intro m h
  rcases bindR_error_elim h with h | ⟨a, st₁, _, hke⟩
  · exact hx m h
  · exact hk a st₁ m hke

theorem ok_noAttr {α : Type} (r : α × AState) : noAttr (.ok r) := by
  intro m h
  cases h

theorem newNode_noAttr (p : Payload) (es : List (Label × Nat)) (st : AState) :
    noAttr (newNode p es st) := by
  intro m h
  unfold newNode at h
  cases hx : st.graph.add_node st.counter es with
  | mk g oe =>
      rw [hx] at h
      cases oe with
      | none => cases h
      | some e => cases h

theorem ctxLookup_noAttr (key : String) (st : AState) :
    noAttr (ctxLookup key st) := by
  intro m h
  unfold ctxLookup at h
  cases hx : lookupA st.ctx key with
  | none => rw [hx] at h; cases h
  | some v => rw [hx] at h; cases h

theorem genericStmt_noAttr (stm : Stmt) (nxt : Nat) (st : AState) :
    noAttr (genericStmt stm nxt st) :=
  bindR_noAttr (ctxLookup_noAttr _ _) (fun _ _ => newNode_noAttr _ _ _)

theorem finishLoop_noAttr (stm : Stmt) (branches : List (Label × Nat))
    (dummy : Nat) (st : AState) : noAttr (finishLoop stm branches dummy st) := by
  refine bindR_noAttr (newNode_noAttr _ _ _) ?_
  intro loopN st₁ m h
  cases hx : st₁.graph.collapse_node dummy loopN with
  | mk g oe =>
      rw [hx] at h
      cases oe with
      | none => cases h
      | some e => cases h

theorem buildDummies_noAttr (items : Ctx) :
    ∀ (nxt finN : Nat) (pairs : List (Nat × Nat)) (tns : Ctx) (st : AState),
      noAttr (buildDummies items nxt finN pairs tns st) := by
  induction items with
  | nil =>
      intro nxt finN pairs tns st m h
      cases h
  | cons p rest ih =>
      intro nxt finN pairs tns st
      obtain ⟨label, node⟩ := p
      show noAttr (buildDummies ((label, node) :: rest) nxt finN pairs tns st)
      unfold buildDummies
      by_cases hn : node = nxt
      · rw [if_pos hn]
        exact ih _ _ _ _ _
      · rw [if_neg hn]
        cases lookupA pairs node with
        | some d => exact ih _ _ _ _ _
        | none =>
            exact bindR_noAttr (newNode_noAttr _ _ _) (fun d st₁ => ih _ _ _ _ _)

/-- The dispatch `getattr(self, "_analyse_stmt_" + ...)` is the only
source of `AttributeError` in the analyser: with every (nested)
statement of a supported kind, no analyser function can produce one. -/
theorem analyser_noAttr : ∀ f : Nat,
    (∀ s nxt st, supportedStmt s = true → noAttr (analyseStmt f s nxt st)) ∧
    (∀ ss nxt st, supportedList ss = true → noAttr (analyseStmts f ss nxt st)) ∧
    (∀ hs nxt rn st, supportedHandlers hs = true →
      noAttr (analyseHandlers f hs nxt rn st)) ∧
    (∀ stm b o nxt st, supportedList b = true → supportedList o = true →
      noAttr (analyseLoop f stm b o nxt st)) ∧
    (∀ stm b nxt st, supportedList b = true →
      noAttr (analyseWith f stm b nxt st)) ∧
    (∀ stm b hs o nxt st, supportedList b = true →
      supportedHandlers hs = true → supportedList o = true →
      noAttr (analyseTryExcept f stm b hs o nxt st)) ∧
    (∀ fb nxt ps st, supportedList fb = true →
      noAttr (processDummies f fb nxt ps st)) := by
  intro f
  induction f with
  | zero =>
      refine ⟨fun s nxt st _ m h => ?_, fun ss nxt st _ m h => ?_,
        fun hs nxt rn st _ m h => ?_, fun stm b o nxt st _ _ m h => ?_,
        fun stm b nxt st _ m h => ?_, fun stm b hs o nxt st _ _ _ m h => ?_,
        fun fb nxt ps st _ m h => ?_⟩ <;>
        simp [analyseStmt, analyseStmts, analyseHandlers, analyseLoop,
          analyseWith, analyseTryExcept, processDummies] at h
  | succ f ih =>
      obtain ⟨ihS, ihSS, ihH, ihL, ihW, ihT, ihP⟩ := ih
      refine ⟨?_, ?_, ?_, ?_, ?_, ?_, ?_⟩
      · intro s nxt st hsup
        cases s with
        | pass => exact newNode_noAttr _ _ _
        | globalS => exact newNode_noAttr _ _ _
        | nonlocalS => exact newNode_noAttr _ _ _
        | assign => exact genericStmt_noAttr _ _ _
        | augAssign => exact genericStmt_noAttr _ _ _
        | annAssign => exact genericStmt_noAttr _ _ _
        | delete => exact genericStmt_noAttr _ _ _
        | exprStmt => exact genericStmt_noAttr _ _ _
        | importS => exact genericStmt_noAttr _ _ _
        | importFrom => exact genericStmt_noAttr _ _ _
        | functionDef => exact genericStmt_noAttr _ _ _
        | asyncFunctionDef => exact genericStmt_noAttr _ _ _
        | classDef => exact genericStmt_noAttr _ _ _
        | breakS =>
            exact bindR_noAttr (ctxLookup_noAttr _ _)
              (fun _ _ => newNode_noAttr _ _ _)
        | continueS =>
            exact bindR_noAttr (ctxLookup_noAttr _ _)
              (fun _ _ => newNode_noAttr _ _ _)
        | ret v =>
            cases v with
            | none =>
                exact bindR_noAttr (ctxLookup_noAttr _ _)
                  (fun _ _ => newNode_noAttr _ _ _)
            | some e =>
                refine bindR_noAttr (ctxLookup_noAttr _ _) ?_
                intro rv st₁
                cases e with
                | const v => exact newNode_noAttr _ _ _
                | other =>
                    exact bindR_noAttr (ctxLookup_noAttr _ _)
                      (fun _ _ => newNode_noAttr _ _ _)
        | raiseS =>
            exact bindR_noAttr (ctxLookup_noAttr _ _)
              (fun _ _ => newNode_noAttr _ _ _)
        | assertS test =>
            cases test with
            | const v =>
                show noAttr
                  (if v.truthy then
                    newNode (.stmt (.assertS (.const v))) [(NEXT, nxt)] st
                  else
                    bindR (ctxLookup "raise_" st) fun r st₁ =>
                      newNode (.stmt (.assertS (.const v))) [(ERROR, r)] st₁)
                cases hv : v.truthy
                · simp only [hv, Bool.false_eq_true, if_false]
                  exact bindR_noAttr (ctxLookup_noAttr _ _)
                    (fun _ _ => newNode_noAttr _ _ _)
                · simp only [hv, if_true]
                  exact newNode_noAttr _ _ _
            | other =>
                exact bindR_noAttr (ctxLookup_noAttr _ _)
                  (fun _ _ => newNode_noAttr _ _ _)
        | ifS test body orelse =>
            simp only [supportedStmt, Bool.and_eq_true] at hsup
            refine bindR_noAttr (ihSS body nxt st hsup.1) ?_
            intro ifB st₁
            refine bindR_noAttr (ihSS orelse nxt st₁ hsup.2) ?_
            intro elseB st₂
            cases test with
            | const v =>
                show noAttr
                  (if v.truthy then
                    newNode (.stmt (.ifS (.const v) body orelse))
                      [(ENTER, ifB)] st₂
                  else
                    newNode (.stmt (.ifS (.const v) body orelse))
                      [(ELSE, elseB)] st₂)
                cases hv : v.truthy
                · simp only [hv, Bool.false_eq_true, if_false]
                  exact newNode_noAttr _ _ _
                · simp only [hv, if_true]
                  exact newNode_noAttr _ _ _
            | other =>
                exact bindR_noAttr (ctxLookup_noAttr _ _)
                  (fun _ _ => newNode_noAttr _ _ _)
        | whileS test body orelse =>
            simp only [supportedStmt, Bool.and_eq_true] at hsup
            refine bindR_noAttr (ihSS orelse nxt st hsup.2) ?_
            intro elseN st₁
            refine bindR_noAttr (newNode_noAttr _ _ _) ?_
            intro dummy st₂
            refine bindR_noAttr (ihSS body dummy _ hsup.1) ?_
            intro bodyN st₄
            cases test with
            | const v =>
                show noAttr
                  (if v.truthy then
                    finishLoop (.whileS (.const v) body orelse)
                      [(ENTER, bodyN)] dummy _
                  else
                    finishLoop (.whileS (.const v) body orelse)
                      [(ELSE, elseN)] dummy _)
                cases hv : v.truthy
                · simp only [hv, Bool.false_eq_true, if_false]
                  exact finishLoop_noAttr _ _ _ _
                · simp only [hv, if_true]
                  exact finishLoop_noAttr _ _ _ _
            | other =>
                exact bindR_noAttr (ctxLookup_noAttr _ _)
                  (fun _ _ => finishLoop_noAttr _ _ _ _)
        | forS body orelse =>
            simp only [supportedStmt, Bool.and_eq_true] at hsup
            exact ihL _ body orelse nxt st hsup.1 hsup.2
        | asyncFor body orelse =>
            simp only [supportedStmt, Bool.and_eq_true] at hsup
            exact ihL _ body orelse nxt st hsup.1 hsup.2
        | withS body =>
            simp only [supportedStmt] at hsup
            exact ihW _ body nxt st hsup
        | asyncWith body =>
            simp only [supportedStmt] at hsup
            exact ihW _ body nxt st hsup
        | tryS body handlers orelse finalbody =>
            simp only [supportedStmt, Bool.and_eq_true] at hsup
            obtain ⟨⟨⟨hb, hhs⟩, ho⟩, hfb⟩ := hsup
            refine bindR_noAttr (ihSS finalbody nxt st hfb) ?_
            intro finN st₁
            refine bindR_noAttr (buildDummies_noAttr _ _ _ _ _ _) ?_
            intro pt st₂
            refine bindR_noAttr (ihT _ body handlers orelse finN _ hb hhs ho) ?_
            intro entry st₄
            refine bindR_noAttr (ihP finalbody nxt pt.1 _ hfb) ?_
            intro u st₆
            exact ok_noAttr _
        | unsupported kind tag => simp [supportedStmt] at hsup
      · intro ss nxt st hsup
        cases ss with
        | nil => exact ok_noAttr _
        | cons s rest =>
            simp only [supportedList, Bool.and_eq_true] at hsup
            exact bindR_noAttr (ihSS rest nxt st hsup.2)
              (fun mid st₁ => ihS s mid st₁ hsup.1)
      · intro hs nxt rn st hsup
        cases hs with
        | nil => exact ok_noAttr _
        | cons h rest =>
            obtain ⟨te, hbody⟩ := h
            simp only [supportedHandlers, Bool.and_eq_true] at hsup
            refine bindR_noAttr (ihH rest nxt rn st hsup.2) ?_
            intro rn₁ st₁
            refine bindR_noAttr (ihSS hbody nxt st₁ hsup.1) ?_
            intro matchN st₂
            cases te with
            | none => exact ok_noAttr _
            | some t =>
                exact bindR_noAttr (ctxLookup_noAttr _ _)
                  (fun _ _ => newNode_noAttr _ _ _)
      · intro stm b o nxt st hb ho
        refine bindR_noAttr (newNode_noAttr _ _ _) ?_
        intro dummy st₁
        refine bindR_noAttr (ihSS b dummy _ hb) ?_
        intro bodyN st₃
        refine bindR_noAttr (ihSS o nxt _ ho) ?_
        intro elseN st₅
        exact bindR_noAttr (ctxLookup_noAttr _ _)
          (fun _ _ => finishLoop_noAttr _ _ _ _)
      · intro stm b nxt st hb
        refine bindR_noAttr (ihSS b nxt st hb) ?_
        intro bodyN st₁
        exact bindR_noAttr (ctxLookup_noAttr _ _)
          (fun _ _ => newNode_noAttr _ _ _)
      · intro stm b hs o nxt st hb hhs ho
        refine bindR_noAttr (ctxLookup_noAttr _ _) ?_
        intro rn0 st₀
        refine bindR_noAttr (ihH hs nxt rn0 st₀ hhs) ?_
        intro rn st₁
        refine bindR_noAttr (ihSS o nxt st₁ ho) ?_
        intro elseN st₂
        refine bindR_noAttr (ihSS b elseN _ hb) ?_
        intro bodyN st₄
        exact newNode_noAttr _ _ _
      · intro fb nxt ps st hfb
        cases ps with
        | nil => exact ok_noAttr _
        | cons p rest =>
            obtain ⟨endN, d⟩ := p
            show noAttr
              (if endN = nxt ∨ hasParents st.graph d then
                bindR (analyseStmts f fb endN st) fun finEntry st₁ =>
                  match st₁.graph.collapse_node d finEntry with
                  | (g, none) =>
                      processDummies f fb nxt rest { st₁ with graph := g }
                  | (_, some e) => .error (.graphErr e)
              else
                match st.graph.remove_node d with
                | (g, none) =>
                    processDummies f fb nxt rest { st with graph := g }
                | (_, some e) => .error (.graphErr e))
            by_cases hc : endN = nxt ∨ hasParents st.graph d
            · rw [if_pos hc]
              refine bindR_noAttr (ihSS fb endN st hfb) ?_
              intro finEntry st₁ m h
              cases hx : st₁.graph.collapse_node d finEntry with
              | mk g oe =>
                  rw [hx] at h
                  cases oe with
                  | none => exact ihP fb nxt rest _ hfb m h
                  | some e => cases h
            · rw [if_neg hc]
              intro m h
              cases hx : st.graph.remove_node d with
              | mk g oe =>
                  rw [hx] at h
                  cases oe with
                  | none => exact ihP fb nxt rest _ hfb m h
                  | some e => cases h

/-! ### Success shape of `newNode` -/

theorem setA_of_not_mem {κ ν : Type} [DecidableEq κ]
    {l : List (κ × ν)} {k : κ} (v : ν) (h : k ∉ l.map (·.1)) :
    setA l k v = l ++ [(k, v)] := by
  induction l with
  | nil => rfl
  | cons p rest ih =>
      simp only [List.map_cons, List.mem_cons, not_or] at h
      have hp : p.1 ≠ k := fun hh => h.1 hh.symm
      simp only [setA, if_neg hp, List.cons_append]
      rw [ih h.2]

theorem CFGraph.addEdgesLoop_fwd_other (es : List (Label × Nat)) :
    ∀ (g : CFGraph) (n s : Nat), s ≠ n →
      (g.addEdgesLoop n es).1.fwd s = g.fwd s := by
  induction es with
  | nil => intro g n s _; rfl
  | cons q rest ih =>
      intro g n s hs
      show ((if ¬ g.mem q.2 ∨ q.2 = n then (g, some (.badTarget q.1 q.2))
        else (g.addEdgeRaw n q.1 q.2).addEdgesLoop n rest) :
          CFGraph × Option GraphErr).1.fwd s = g.fwd s
      by_cases hc : ¬ g.mem q.2 ∨ q.2 = n
      · rw [if_pos hc]
      · rw [if_neg hc, ih _ n s hs, CFGraph.fwd_addEdgeRaw, if_neg hs]

theorem CFGraph.addEdgesLoop_fwd_self (es : List (Label × Nat)) :
    ∀ (g : CFGraph) (n : Nat),
      (∀ q ∈ es, q.1 ∉ (g.fwd n).map (·.1)) →
      (es.map (·.1)).Nodup →
      (g.addEdgesLoop n es).2 = none →
      (g.addEdgesLoop n es).1.fwd n = g.fwd n ++ es := by
  induction es with
  | nil => intro g n _ _ _; simp [CFGraph.addEdgesLoop]
  | cons q rest ih =>
      intro g n hfresh hnd hok
      have hstep : g.addEdgesLoop n (q :: rest) =
          (if ¬ g.mem q.2 ∨ q.2 = n then (g, some (.badTarget q.1 q.2))
            else (g.addEdgeRaw n q.1 q.2).addEdgesLoop n rest) := rfl
      by_cases hc : ¬ g.mem q.2 ∨ q.2 = n
      · rw [hstep, if_pos hc] at hok
        cases hok
      · rw [hstep, if_neg hc] at hok ⊢
        simp only [List.map_cons, List.nodup_cons] at hnd
        have hq1 : q.1 ∉ (g.fwd n).map (·.1) :=
          hfresh q (List.mem_cons_self q rest)
        have hfwd2 : (g.addEdgeRaw n q.1 q.2).fwd n =
            g.fwd n ++ [(q.1, q.2)] := by
          rw [CFGraph.fwd_addEdgeRaw, if_pos rfl, setA_of_not_mem q.2 hq1]
        rw [ih _ n ?_ hnd.2 hok, hfwd2]
        · obtain ⟨l1, t1⟩ := q
          simp
        · intro p hp
          rw [hfwd2]
          simp only [List.map_append, List.mem_append]
          intro hmem
          rcases hmem with hmem | hmem
          · exact hfresh p (List.mem_cons_of_mem q hp) hmem
          · simp only [List.map_cons, List.map_nil, List.mem_cons,
              List.not_mem_nil] at hmem
            rcases hmem with hmem | hmem
            · exact hnd.1 (hmem ▸ List.mem_map.2 ⟨p, hp, rfl⟩)
            · exact hmem

/--
Success shape of `newNode`: with a fresh counter, edge targets in the
graph and pairwise-distinct labels, the new node is allocated with
exactly the requested forward edges, other nodes' edges are untouched
and the node set grows by the new node.
-/
theorem newNode_spec (p : Payload) (es : List (Label × Nat)) (st : AState)
    (hfresh : st.counter ∉ st.graph.nodes)
    (hts : ∀ q ∈ es, q.2 ∈ st.graph.nodes)
    (hnd : (es.map (·.1)).Nodup) :
    ∃ g', newNode p es st = .ok (st.counter,
        { graph := g'
          ctx := st.ctx
          counter := st.counter + 1
          payload := setA st.payload st.counter p }) ∧
      g'.fwd st.counter = es ∧
      (∀ s, s ≠ st.counter → g'.fwd s = st.graph.fwd s) ∧
      (∀ m, m ∈ g'.nodes ↔ m = st.counter ∨ m ∈ st.graph.nodes) := by
  have hmem : ¬ st.graph.mem st.counter := hfresh
  have hshape : st.graph.add_node st.counter es =
      ((st.graph.addNodeRaw st.counter).addEdgesLoop st.counter es) := by
    unfold CFGraph.add_node
    rw [if_neg hmem]
  have hok : (st.graph.add_node st.counter es).2 = none := by
    rw [hshape, CFGraph.addEdgesLoop_ok_iff]
    intro q hq
    rw [CFGraph.nodes_addNodeRaw]
    have hqm := hts q hq
    refine ⟨List.mem_cons_of_mem _ hqm, ?_⟩
    intro hqe
    exact hfresh (hqe ▸ hqm)
  refine ⟨(st.graph.add_node st.counter es).1, ?_, ?_, ?_, ?_⟩
  · unfold newNode
    cases hx : st.graph.add_node st.counter es with
    | mk g oe =>
        cases oe with
        | none => rfl
        | some e => rw [hx] at hok; cases hok
  · rw [hshape]
    rw [CFGraph.addEdgesLoop_fwd_self es _ st.counter ?_ hnd (hshape ▸ hok)]
    · rw [CFGraph.fwd_addNodeRaw, if_pos rfl]
      rfl
    · intro q _
      rw [CFGraph.fwd_addNodeRaw, if_pos rfl]
      simp
  · intro s hs
    rw [hshape, CFGraph.addEdgesLoop_fwd_other es _ st.counter s hs,
      CFGraph.fwd_addNodeRaw, if_neg hs]
  · intro m
    rw [hshape, CFGraph.addEdgesLoop_nodes, CFGraph.nodes_addNodeRaw,
      List.mem_cons]

/-! ### Claim C6 (return statement contract) -/

/--
C6: for every `return` statement analysed in a function context (the
`leave`, `return_` and `raise_` roles present and bound to graph nodes,
fresh node counter): with no value, the emitted node has a single `next`
edge to the leave target; with a non-constant value, a `next` edge to
the return target plus an `error` edge to the raise target; with a
recognised compile-time constant value, only the `next` edge to the
return target (the error edge is omitted).
-/
theorem claim_C6_return_contract (f nxt : Nat) (st : AState) (v : Option Expr)
    (lt rt rr : Nat)
    (hleave : lookupA st.ctx "leave" = some lt)
    (hret : lookupA st.ctx "return_" = some rt)
    (hraise : lookupA st.ctx "raise_" = some rr)
    (hfresh : st.counter ∉ st.graph.nodes)
    (hlt : lt ∈ st.graph.nodes) (hrt : rt ∈ st.graph.nodes)
    (hrr : rr ∈ st.graph.nodes) :
    (v = none → ∃ n st',
      analyseStmt (f + 1) (.ret v) nxt st = .ok (n, st') ∧
      st'.graph.edge_labels n = [NEXT] ∧
      st'.graph.edge n NEXT = some lt) ∧
    (∀ e, v = some e → expression_as_constant e = none → ∃ n st',
      analyseStmt (f + 1) (.ret v) nxt st = .ok (n, st') ∧
      st'.graph.edge_labels n = [NEXT, ERROR] ∧
      st'.graph.edge n NEXT = some rt ∧
      st'.graph.edge n ERROR = some rr) ∧
    (∀ e pv, v = some e → expression_as_constant e = some pv → ∃ n st',
      analyseStmt (f + 1) (.ret v) nxt st = .ok (n, st') ∧
      st'.graph.edge_labels n = [NEXT] ∧
      st'.graph.edge n NEXT = some rt) := by
  refine ⟨?_, ?_, ?_⟩
  · intro hv
    subst hv
    obtain ⟨g', hrun, hfwd, _, _⟩ := newNode_spec (.stmt (.ret none))
      [(NEXT, lt)] st hfresh
      (by intro q hq; simp only [List.mem_singleton] at hq; rw [hq]; exact hlt)
      (by simp)
    refine ⟨st.counter,
      ({ graph := g'
         ctx := st.ctx
         counter := st.counter + 1
         payload := setA st.payload st.counter (Payload.stmt (.ret none)) } :
        AState), ?_, ?_, ?_⟩
    · show bindR (ctxLookup "leave" st) _ = _
      unfold ctxLookup
      rw [hleave]
      exact hrun
    · show (g'.fwd st.counter).map (·.1) = [NEXT]
      rw [hfwd]
      rfl
    · show lookupA (g'.fwd st.counter) NEXT = some lt
      rw [hfwd]
      rfl
  · intro e hv hconst
    subst hv
    obtain ⟨g', hrun, hfwd, _, _⟩ := newNode_spec (.stmt (.ret (some e)))
      [(NEXT, rt), (ERROR, rr)] st hfresh
      (by
        intro q hq
        simp only [List.mem_cons, List.not_mem_nil, or_false] at hq
        rcases hq with hq | hq <;> rw [hq] <;> [exact hrt; exact hrr])
      (by simp [NEXT, ERROR])
    refine ⟨st.counter,
      ({ graph := g'
         ctx := st.ctx
         counter := st.counter + 1
         payload := setA st.payload st.counter
           (Payload.stmt (.ret (some e))) } : AState), ?_, ?_, ?_, ?_⟩
    · show bindR (ctxLookup "return_" st) _ = _
      unfold ctxLookup
      rw [hret]
      show (match expression_as_constant e with
        | some _ => newNode (.stmt (.ret (some e))) [(NEXT, rt)] st
        | none => bindR (ctxLookup "raise_" st) fun r st₂ =>
            newNode (.stmt (.ret (some e))) [(NEXT, rt), (ERROR, r)] st₂) = _
      rw [hconst]
      show bindR (ctxLookup "raise_" st) _ = _
      unfold ctxLookup
      rw [hraise]
      exact hrun
    · show (g'.fwd st.counter).map (·.1) = [NEXT, ERROR]
      rw [hfwd]
      rfl
    · show lookupA (g'.fwd st.counter) NEXT = some rt
      rw [hfwd]
      rfl
    · show lookupA (g'.fwd st.counter) ERROR = some rr
      rw [hfwd]
      rfl
  · intro e pv hv hconst
    subst hv
    obtain ⟨g', hrun, hfwd, _, _⟩ := newNode_spec (.stmt (.ret (some e)))
      [(NEXT, rt)] st hfresh
      (by intro q hq; simp only [List.mem_singleton] at hq; rw [hq]; exact hrt)
      (by simp)
    refine ⟨st.counter,
      ({ graph := g'
         ctx := st.ctx
         counter := st.counter + 1
         payload := setA st.payload st.counter
           (Payload.stmt (.ret (some e))) } : AState), ?_, ?_, ?_⟩
    · show bindR (ctxLookup "return_" st) _ = _
      unfold ctxLookup
      rw [hret]
      show (match expression_as_constant e with
        | some _ => newNode (.stmt (.ret (some e))) [(NEXT, rt)] st
        | none => bindR (ctxLookup "raise_" st) fun r st₂ =>
            newNode (.stmt (.ret (some e))) [(NEXT, rt), (ERROR, r)] st₂) = _
      rw [hconst]
      exact hrun
    · show (g'.fwd st.counter).map (·.1) = [NEXT]
      rw [hfwd]
      rfl
    · show lookupA (g'.fwd st.counter) NEXT = some rt
      rw [hfwd]
      rfl

/-- A concrete function-context analyser state: three nodes `0`, `1`,
`2` playing the leave/raise/return roles, counter at `3`. -/
def demoFnState : AState :=
  { graph := (((CFGraph.empty.add_node 0 []).1.add_node 1 []).1.add_node 2 []).1
    ctx := [("leave", 0), ("raise_", 1), ("return_", 2)]
    counter := 3
    payload := [] }

/-- Witness for C6 at a concrete function-context state and a bare
`return`. -/
theorem claim_C6_return_contract_witness :
    (analyseStmt 4 (.ret none) 0 demoFnState).toOption.map
      (fun p => (p.2.graph.edge_labels p.1, p.2.graph.edge p.1 NEXT)) =
      some ([NEXT], some 0) := by
  obtain ⟨n, st', hok, h1, h2⟩ :=
    (claim_C6_return_contract 3 0 demoFnState none 0 2 1 rfl rfl rfl
      (by decide) (by decide) (by decide) (by decide)).1 rfl
  rw [hok]
  simp [Except.toOption, h1, h2]

/-! ### The `_updated_context` save/restore algebra -/

theorem mem_keys_setA_self {κ ν : Type} [DecidableEq κ]
    (l : List (κ × ν)) (k : κ) (v : ν) : k ∈ (setA l k v).map (·.1) := by
  induction l with
  | nil => simp [setA]
  | cons p rest ih =>
      by_cases hp : p.1 = k
      · simp [setA, hp]
      · simp only [setA, if_neg hp, List.map_cons, List.mem_cons]
        exact Or.inr ih

theorem mem_keys_setA_of_mem {κ ν : Type} [DecidableEq κ]
    {l : List (κ × ν)} {k' : κ} (k : κ) (v : ν) (h : k' ∈ l.map (·.1)) :
    k' ∈ (setA l k v).map (·.1) := by
  induction l with
  | nil => cases h
  | cons p rest ih =>
      simp only [List.map_cons, List.mem_cons] at h
      by_cases hp : p.1 = k
      · rw [show setA (p :: rest) k v = (k, v) :: rest from by simp [setA, hp]]
        simp only [List.map_cons, List.mem_cons]
        rcases h with h | h
        · exact Or.inl (h.trans hp)
        · exact Or.inr h
      · rw [show setA (p :: rest) k v = p :: setA rest k v from by
          simp [setA, hp]]
        simp only [List.map_cons, List.mem_cons]
        rcases h with h | h
        · exact Or.inl h
        · exact Or.inr (ih h)

theorem setA_comm {κ ν : Type} [DecidableEq κ]
    {x : List (κ × ν)} {k k' : κ} {v w : ν} (hne : k ≠ k')
    (hk : k ∈ x.map (·.1)) :
    setA (setA x k' v) k w = setA (setA x k w) k' v := by
  induction x with
  | nil => cases hk
  | cons p rest ih =>
      by_cases hp' : p.1 = k'
      · have hpk : p.1 ≠ k := fun hh => hne (hh.symm.trans hp')
        simp only [setA, if_pos hp', if_neg hpk]
        have : (k', v).1 ≠ k := fun hh => hne hh.symm
        simp only [setA, if_neg this, if_pos rfl]
      · by_cases hp : p.1 = k
        · simp only [setA, if_neg hp', if_pos hp]
          have h1 : (k, w).1 ≠ k' := hne
          simp only [setA, if_pos hp, if_neg h1]
        · simp only [setA, if_neg hp', if_neg hp]
          have hk' : k ∈ rest.map (·.1) := by
            simp only [List.map_cons, List.mem_cons] at hk
            rcases hk with hk | hk
            · exact absurd hk.symm hp
            · exact hk
          rw [ih hk']

theorem delA_setA_comm {κ ν : Type} [DecidableEq κ]
    {x : List (κ × ν)} {k k' : κ} {v : ν} (hne : k ≠ k') :
    delA (setA x k' v) k = setA (delA x k) k' v := by
  induction x with
  | nil =>
      have : (k', v).1 ≠ k := fun hh => hne hh.symm
      simp [setA, delA, this]
  | cons p rest ih =>
      by_cases hp' : p.1 = k'
      · have hpk : (k', v).1 ≠ k := fun hh => hne hh.symm
        have hpk2 : p.1 ≠ k := fun hh => hne (hh.symm.trans hp')
        simp only [setA, if_pos hp', delA, if_neg hpk, if_neg hpk2, if_pos rfl]
      · by_cases hp : p.1 = k
        · simp only [setA, if_neg hp', delA, if_pos hp]
        · simp only [setA, if_neg hp', delA, if_neg hp]
          rw [ih]

theorem setA_setA_same {κ ν : Type} [DecidableEq κ]
    (x : List (κ × ν)) (k : κ) (v w : ν) :
    setA (setA x k v) k w = setA x k w := by
  induction x with
  | nil => simp [setA]
  | cons p rest ih =>
      by_cases hp : p.1 = k
      · simp [setA, hp]
      · simp only [setA, if_neg hp]
        rw [ih]

theorem setA_lookup_self {κ ν : Type} [DecidableEq κ]
    {x : List (κ × ν)} {k : κ} {w : ν} (h : lookupA x k = some w) :
    setA x k w = x := by
  induction x with
  | nil => cases h
  | cons p rest ih =>
      by_cases hp : p.1 = k
      · obtain ⟨p1, p2⟩ := p
        simp only at hp
        subst hp
        simp only [lookupA, if_pos rfl] at h
        injection h with h2
        subst h2
        simp [setA]
      · simp only [lookupA, if_neg hp] at h
        simp only [setA, if_neg hp]
        rw [ih h]

theorem not_mem_keys_of_lookupA_none {κ ν : Type} [DecidableEq κ]
    {x : List (κ × ν)} {k : κ} (h : lookupA x k = none) :
    k ∉ x.map (·.1) := by
  induction x with
  | nil => simp
  | cons p rest ih =>
      by_cases hp : p.1 = k
      · rw [show lookupA (p :: rest) k = some p.2 from by
          simp [lookupA, hp]] at h
        cases h
      · simp only [lookupA, if_neg hp] at h
        simp only [List.map_cons, List.mem_cons]
        intro hc
        rcases hc with hc | hc
        · exact hp hc.symm
        · exact ih h hc

theorem delA_append_single {κ ν : Type} [DecidableEq κ]
    {x : List (κ × ν)} {k : κ} (v : ν) (h : k ∉ x.map (·.1)) :
    delA (x ++ [(k, v)]) k = x := by
  induction x with
  | nil => simp [delA]
  | cons p rest ih =>
      obtain ⟨p1, p2⟩ := p
      simp only [List.map_cons, List.mem_cons, not_or] at h
      have hp : p1 ≠ k := fun hh => h.1 hh.symm
      show delA ((p1, p2) :: (rest ++ [(k, v)])) k = (p1, p2) :: rest
      simp only [delA, if_neg hp]
      rw [ih h.2]

theorem delA_setA_of_not_mem {κ ν : Type} [DecidableEq κ]
    {x : List (κ × ν)} {k : κ} (v : ν) (h : k ∉ x.map (·.1)) :
    delA (setA x k v) k = x := by
  rw [setA_of_not_mem v h]
  exact delA_append_single v h

theorem ctxApply_setA_comm {k : String} {w : Nat} :
    ∀ (us : Ctx) (x : Ctx), k ∉ us.map (·.1) → k ∈ x.map (·.1) →
      setA (ctxApply us x) k w = ctxApply us (setA x k w) := by
  intro us
  induction us with
  | nil => intro x _ _; rfl
  | cons q rest ih =>
      intro x hus hx
      simp only [List.map_cons, List.mem_cons, not_or] at hus
      show setA (ctxApply rest (setA x q.1 q.2)) k w =
        ctxApply rest (setA (setA x k w) q.1 q.2)
      rw [ih (setA x q.1 q.2) hus.2 (mem_keys_setA_of_mem q.1 q.2 hx)]
      rw [setA_comm hus.1 hx]

theorem ctxApply_delA_comm {k : String} :
    ∀ (us : Ctx) (x : Ctx), k ∉ us.map (·.1) →
      delA (ctxApply us x) k = ctxApply us (delA x k) := by
  intro us
  induction us with
  | nil => intro x _; rfl
  | cons q rest ih =>
      intro x hus
      simp only [List.map_cons, List.mem_cons, not_or] at hus
      show delA (ctxApply rest (setA x q.1 q.2)) k =
        ctxApply rest (setA (delA x k) q.1 q.2)
      rw [ih (setA x q.1 q.2) hus.2]
      rw [delA_setA_comm hus.1]

/--
The `_updated_context` round trip: updating the context with `updates`
and then restoring the saved items gives back exactly the original
context (for any update set with pairwise-distinct labels, which every
call site provides since `updates` is a Python dict). -/
theorem ctx_restore_apply :
    ∀ (us : Ctx) (c : Ctx), (us.map (·.1)).Nodup →
      ctxRestore (ctxSaved us c) (ctxApply us c) = c := by
  intro us
  induction us with
  | nil => intro c _; rfl
  | cons q rest ih =>
      intro c hnd
      obtain ⟨k, v⟩ := q
      simp only [List.map_cons, List.nodup_cons] at hnd
      show ctxRestore (ctxSaved rest c)
        ((fun acc (p : String × Option Nat) =>
          match p.2 with
          | some w => setA acc p.1 w
          | none => delA acc p.1) (ctxApply rest (setA c k v)) (k, lookupA c k))
        = c
      cases hl : lookupA c k with
      | some w =>
          show ctxRestore (ctxSaved rest c)
            (setA (ctxApply rest (setA c k v)) k w) = c
          rw [ctxApply_setA_comm rest (setA c k v) hnd.1
            (mem_keys_setA_self c k v)]
          rw [setA_setA_same, setA_lookup_self hl]
          exact ih c hnd.2
      | none =>
          show ctxRestore (ctxSaved rest c)
            (delA (ctxApply rest (setA c k v)) k) = c
          rw [ctxApply_delA_comm rest (setA c k v) hnd.1]
          rw [delA_setA_of_not_mem v (not_mem_keys_of_lookupA_none hl)]
          exact ih c hnd.2

theorem ctxApply_keys_nodup :
    ∀ (us : Ctx) (c : Ctx), (c.map (·.1)).Nodup →
      ((ctxApply us c).map (·.1)).Nodup := by
  intro us
  induction us with
  | nil => intro c h; exact h
  | cons q rest ih =>
      intro c h
      exact ih (setA c q.1 q.2) (keysA_setA_nodup c q.1 q.2 h)

/-! ### Context preservation (claim C9) -/

/-- The context dictionary has pairwise-distinct labels (true of every
Python dict, maintained by all context operations). -/
def NodupKeys (c : Ctx) : Prop := (c.map (·.1)).Nodup

theorem newNode_ok_ctx {p : Payload} {es : List (Label × Nat)} {st : AState}
    {a : Nat} {st' : AState} (h : newNode p es st = .ok (a, st')) :
    st'.ctx = st.ctx := by
  unfold newNode at h
  cases hx : st.graph.add_node st.counter es with
  | mk g oe =>
      rw [hx] at h
      cases oe with
      | none =>
          cases h
          rfl
      | some e => cases h

theorem ctxLookup_ok {k : String} {st : AState} {a : Nat} {st' : AState}
    (h : ctxLookup k st = .ok (a, st')) :
    st' = st ∧ lookupA st.ctx k = some a := by
  unfold ctxLookup at h
  cases hx : lookupA st.ctx k with
  | none => rw [hx] at h; cases h
  | some v =>
      rw [hx] at h
      cases h
      exact ⟨rfl, rfl⟩

theorem genericStmt_ok_ctx {stm : Stmt} {nxt : Nat} {st : AState} {a : Nat}
    {st' : AState} (h : genericStmt stm nxt st = .ok (a, st')) :
    st'.ctx = st.ctx := by
  obtain ⟨r, st₁, h1, h2⟩ := bindR_ok_elim h
  rw [newNode_ok_ctx h2, (ctxLookup_ok h1).1]

theorem finishLoop_ok_ctx {stm : Stmt} {br : List (Label × Nat)} {d : Nat}
    {st : AState} {a : Nat} {st' : AState}
    (h : finishLoop stm br d st = .ok (a, st')) : st'.ctx = st.ctx := by
  obtain ⟨loopN, st₁, h1, h2⟩ := bindR_ok_elim h
  have e1 := newNode_ok_ctx h1
  cases hx : st₁.graph.collapse_node d loopN with
  | mk g oe =>
      rw [hx] at h2
      cases oe with
      | none =>
          cases h2
          exact e1
      | some e => cases h2

theorem buildDummies_ok (items : Ctx) :
    ∀ (nxt finN : Nat) (pairs : List (Nat × Nat)) (tns : Ctx) (st : AState)
      (r : List (Nat × Nat) × Ctx) (st' : AState),
      buildDummies items nxt finN pairs tns st = .ok (r, st') →
      st'.ctx = st.ctx ∧
      r.2.map (·.1) = tns.map (·.1) ++ items.map (·.1) := by
  induction items with
  | nil =>
      intro nxt finN pairs tns st r st' h
      cases h
      exact ⟨rfl, by simp⟩
  | cons q rest ih =>
      intro nxt finN pairs tns st r st' h
      obtain ⟨label, node⟩ := q
      rw [show buildDummies ((label, node) :: rest) nxt finN pairs tns st =
        (if node = nxt then
          buildDummies rest nxt finN pairs (tns ++ [(label, finN)]) st
        else
          match lookupA pairs node with
          | some d => buildDummies rest nxt finN pairs (tns ++ [(label, d)]) st
          | none =>
              bindR (newNode .blank [] st) fun d st₁ =>
                buildDummies rest nxt finN (pairs ++ [(node, d)])
                  (tns ++ [(label, d)]) st₁) from rfl] at h
      by_cases hn : node = nxt
      · rw [if_pos hn] at h
        obtain ⟨e1, e2⟩ := ih _ _ _ _ _ _ _ h
        refine ⟨e1, ?_⟩
        rw [e2]
        simp
      · rw [if_neg hn] at h
        cases hl : lookupA pairs node with
        | some d =>
            rw [hl] at h
            obtain ⟨e1, e2⟩ := ih _ _ _ _ _ _ _ h
            refine ⟨e1, ?_⟩
            rw [e2]
            simp
        | none =>
            rw [hl] at h
            obtain ⟨d, st₁, h1, h2⟩ := bindR_ok_elim h
            obtain ⟨e1, e2⟩ := ih _ _ _ _ _ _ _ h2
            refine ⟨e1.trans (newNode_ok_ctx h1), ?_⟩
            rw [e2]
            simp

/-- The keys pushed by a loop's `_updated_context` block are distinct. -/
theorem nodupBC (a b : Nat) :
    ((([("break_", a), ("continue_", b)] : Ctx)).map (·.1)).Nodup := by
  simp

/-- The single key pushed by `_analyse_try_except` is trivially
duplicate-free. -/
theorem nodupR (r : Nat) :
    ((([("raise_", r)] : Ctx)).map (·.1)).Nodup := by
  simp

/-- Context invariance of the analyser: every analyser function that
returns normally leaves `self._context` exactly as it found it — each
`_updated_context` block restores the overridden roles on exit and
deletes the roles that were absent on entry. -/
theorem analyser_ctx : ∀ f : Nat,
    (∀ s nxt st n st', NodupKeys st.ctx →
      analyseStmt f s nxt st = .ok (n, st') → st'.ctx = st.ctx) ∧
    (∀ ss nxt st n st', NodupKeys st.ctx →
      analyseStmts f ss nxt st = .ok (n, st') → st'.ctx = st.ctx) ∧
    (∀ hs nxt rn st n st', NodupKeys st.ctx →
      analyseHandlers f hs nxt rn st = .ok (n, st') → st'.ctx = st.ctx) ∧
    (∀ stm b o nxt st n st', NodupKeys st.ctx →
      analyseLoop f stm b o nxt st = .ok (n, st') → st'.ctx = st.ctx) ∧
    (∀ stm b nxt st n st', NodupKeys st.ctx →
      analyseWith f stm b nxt st = .ok (n, st') → st'.ctx = st.ctx) ∧
    (∀ stm b hs o nxt st n st', NodupKeys st.ctx →
      analyseTryExcept f stm b hs o nxt st = .ok (n, st') → st'.ctx = st.ctx) ∧
    (∀ fb nxt ps st u st', NodupKeys st.ctx →
      processDummies f fb nxt ps st = .ok (u, st') → st'.ctx = st.ctx) := by
  intro f
  induction f with
  | zero =>
      refine ⟨fun s nxt st n st' _ hok => ?_, fun ss nxt st n st' _ hok => ?_,
        fun hs nxt rn st n st' _ hok => ?_,
        fun stm b o nxt st n st' _ hok => ?_,
        fun stm b nxt st n st' _ hok => ?_,
        fun stm b hs o nxt st n st' _ hok => ?_,
        fun fb nxt ps st u st' _ hok => ?_⟩ <;>
        simp [analyseStmt, analyseStmts, analyseHandlers, analyseLoop,
          analyseWith, analyseTryExcept, processDummies] at hok
  | succ f ih =>
      obtain ⟨ihS, ihSS, ihH, ihL, ihW, ihT, ihP⟩ := ih
      refine ⟨?_, ?_, ?_, ?_, ?_, ?_, ?_⟩
      · intro s nxt st n st' hnd hok
        cases s with
        | pass => exact newNode_ok_ctx hok
        | globalS => exact newNode_ok_ctx hok
        | nonlocalS => exact newNode_ok_ctx hok
        | assign => exact genericStmt_ok_ctx hok
        | augAssign => exact genericStmt_ok_ctx hok
        | annAssign => exact genericStmt_ok_ctx hok
        | delete => exact genericStmt_ok_ctx hok
        | exprStmt => exact genericStmt_ok_ctx hok
        | importS => exact genericStmt_ok_ctx hok
        | importFrom => exact genericStmt_ok_ctx hok
        | functionDef => exact genericStmt_ok_ctx hok
        | asyncFunctionDef => exact genericStmt_ok_ctx hok
        | classDef => exact genericStmt_ok_ctx hok
        | breakS =>
            obtain ⟨b, st₁, h1, h2⟩ := bindR_ok_elim hok
            rw [newNode_ok_ctx h2, (ctxLookup_ok h1).1]
        | continueS =>
            obtain ⟨c, st₁, h1, h2⟩ := bindR_ok_elim hok
            rw [newNode_ok_ctx h2, (ctxLookup_ok h1).1]
        | raiseS =>
            obtain ⟨r, st₁, h1, h2⟩ := bindR_ok_elim hok
            rw [newNode_ok_ctx h2, (ctxLookup_ok h1).1]
        | ret v =>
            cases v with
            | none =>
                obtain ⟨lv, st₁, h1, h2⟩ := bindR_ok_elim hok
                rw [newNode_ok_ctx h2, (ctxLookup_ok h1).1]
            | some e =>
                obtain ⟨rv, st₁, h1, h2⟩ := bindR_ok_elim hok
                cases hce : expression_as_constant e with
                | some c =>
                    simp only [hce] at h2
                    rw [newNode_ok_ctx h2, (ctxLookup_ok h1).1]
                | none =>
                    simp only [hce] at h2
                    obtain ⟨r, st₂, h3, h4⟩ := bindR_ok_elim h2
                    rw [newNode_ok_ctx h4, (ctxLookup_ok h3).1,
                      (ctxLookup_ok h1).1]
        | assertS test =>
            simp only [analyseStmt] at hok
            cases hce : expression_as_constant test with
            | some v =>
                simp only [hce] at hok
                cases hv : v.truthy
                · simp only [hv, Bool.false_eq_true, if_false] at hok
                  obtain ⟨r, st₁, h1, h2⟩ := bindR_ok_elim hok
                  rw [newNode_ok_ctx h2, (ctxLookup_ok h1).1]
                · simp only [hv, if_true] at hok
                  exact newNode_ok_ctx hok
            | none =>
                simp only [hce] at hok
                obtain ⟨r, st₁, h1, h2⟩ := bindR_ok_elim hok
                rw [newNode_ok_ctx h2, (ctxLookup_ok h1).1]
        | ifS test body orelse =>
            obtain ⟨ifB, st₁, h1, h2⟩ := bindR_ok_elim hok
            obtain ⟨elseB, st₂, h3, h4⟩ := bindR_ok_elim h2
            have e1 := ihSS body nxt st ifB st₁ hnd h1
            have hnd1 : NodupKeys st₁.ctx := by rw [e1]; exact hnd
            have e2 := ihSS orelse nxt st₁ elseB st₂ hnd1 h3
            have e21 : st₂.ctx = st.ctx := by rw [e2, e1]
            cases hce : expression_as_constant test with
            | some v =>
                simp only [hce] at h4
                cases hv : v.truthy
                · simp only [hv, Bool.false_eq_true, if_false] at h4
                  rw [newNode_ok_ctx h4, e21]
                · simp only [hv, if_true] at h4
                  rw [newNode_ok_ctx h4, e21]
            | none =>
                simp only [hce] at h4
                obtain ⟨r, st₃, h5, h6⟩ := bindR_ok_elim h4
                rw [newNode_ok_ctx h6, (ctxLookup_ok h5).1, e21]
        | whileS test body orelse =>
            obtain ⟨elseN, st₁, h1, h2⟩ := bindR_ok_elim hok
            obtain ⟨dummy, st₂, h3, h4⟩ := bindR_ok_elim h2
            have e1 := ihSS orelse nxt st elseN st₁ hnd h1
            have e2 := newNode_ok_ctx h3
            have e21 : st₂.ctx = st.ctx := by rw [e2, e1]
            obtain ⟨bodyN, st₄, h5, h6⟩ := bindR_ok_elim h4
            have hnd2 : NodupKeys
                (ctxApply [("break_", nxt), ("continue_", dummy)] st₂.ctx) :=
              ctxApply_keys_nodup _ _ (by rw [e21]; exact hnd)
            have e3 := ihSS body dummy { st₂ with ctx := ctxApply [("break_", nxt), ("continue_", dummy)] st₂.ctx } bodyN st₄ hnd2 h5
            have e3h : st₄.ctx =
                ctxApply [("break_", nxt), ("continue_", dummy)] st₂.ctx := e3
            have hres : ctxRestore
                (ctxSaved [("break_", nxt), ("continue_", dummy)] st₂.ctx)
                st₄.ctx = st.ctx := by
              rw [e3h, ctx_restore_apply _ _ (nodupBC nxt dummy), e21]
            cases hce : expression_as_constant test with
            | some v =>
                simp only [hce] at h6
                cases hv : v.truthy
                · simp only [hv, Bool.false_eq_true, if_false] at h6
                  rw [finishLoop_ok_ctx h6]
                  exact hres
                · simp only [hv, if_true] at h6
                  rw [finishLoop_ok_ctx h6]
                  exact hres
            | none =>
                simp only [hce] at h6
                obtain ⟨r, st₆, h7, h8⟩ := bindR_ok_elim h6
                rw [finishLoop_ok_ctx h8, (ctxLookup_ok h7).1]
                exact hres
        | forS body orelse =>
            exact ihL (.forS body orelse) body orelse nxt st n st' hnd hok
        | asyncFor body orelse =>
            exact ihL (.asyncFor body orelse) body orelse nxt st n st' hnd hok
        | withS body => exact ihW (.withS body) body nxt st n st' hnd hok
        | asyncWith body => exact ihW (.asyncWith body) body nxt st n st' hnd hok
        | tryS body handlers orelse finalbody =>
            obtain ⟨finN, st₁, h1, h2⟩ := bindR_ok_elim hok
            obtain ⟨pt, st₂, h3, h4⟩ := bindR_ok_elim h2
            have e1 := ihSS finalbody nxt st finN st₁ hnd h1
            obtain ⟨e2, ekeys⟩ := buildDummies_ok st₁.ctx nxt finN [] [] st₁
              pt st₂ h3
            have e21 : st₂.ctx = st.ctx := by rw [e2, e1]
            have hkeys : pt.2.map (·.1) = st₁.ctx.map (·.1) := by
              rw [ekeys]
              simp
            have hndt : (pt.2.map (·.1)).Nodup := by
              rw [hkeys, e1]
              exact hnd
            obtain ⟨entry, st₄, h5, h6⟩ := bindR_ok_elim h4
            have hnd3 : NodupKeys (ctxApply pt.2 st₂.ctx) :=
              ctxApply_keys_nodup _ _ (by rw [e21]; exact hnd)
            have e3 := ihT (.tryS body handlers orelse finalbody) body handlers
              orelse finN { st₂ with ctx := ctxApply pt.2 st₂.ctx } entry st₄
              hnd3 h5
            have e3h : st₄.ctx = ctxApply pt.2 st₂.ctx := e3
            have e4 : ctxRestore (ctxSaved pt.2 st₂.ctx) st₄.ctx = st₂.ctx := by
              rw [e3h]
              exact ctx_restore_apply _ _ hndt
            obtain ⟨u, st₆, h7, h8⟩ := bindR_ok_elim h6
            have hnd5 : NodupKeys (ctxRestore (ctxSaved pt.2 st₂.ctx)
                st₄.ctx) := by
              rw [e4, e21]
              exact hnd
            have e5 := ihP finalbody nxt pt.1 { st₄ with ctx := ctxRestore (ctxSaved pt.2 st₂.ctx) st₄.ctx } u st₆ hnd5 h7
            cases h8
            rw [e5]
            exact e4.trans e21
        | unsupported kind tag => cases hok
      · intro ss nxt st n st' hnd hok
        cases ss with
        | nil =>
            cases hok
            rfl
        | cons s rest =>
            obtain ⟨mid, st₁, h1, h2⟩ := bindR_ok_elim hok
            have e1 := ihSS rest nxt st mid st₁ hnd h1
            have e2 := ihS s mid st₁ n st' (by rw [e1]; exact hnd) h2
            rw [e2, e1]
      · intro hs nxt rn st n st' hnd hok
        cases hs with
        | nil =>
            cases hok
            rfl
        | cons h rest =>
            obtain ⟨rn₁, st₁, h1, h2⟩ := bindR_ok_elim hok
            have e1 := ihH rest nxt rn st rn₁ st₁ hnd h1
            obtain ⟨matchN, st₂, h3, h4⟩ := bindR_ok_elim h2
            have e2 := ihSS h.2 nxt st₁ matchN st₂ (by rw [e1]; exact hnd) h3
            have e21 : st₂.ctx = st.ctx := by rw [e2, e1]
            cases hte : h.1 with
            | none =>
                rw [hte] at h4
                cases h4
                exact e21
            | some te =>
                rw [hte] at h4
                obtain ⟨r, st₃, h5, h6⟩ := bindR_ok_elim h4
                rw [newNode_ok_ctx h6, (ctxLookup_ok h5).1, e21]
      · intro stm b o nxt st n st' hnd hok
        obtain ⟨dummy, st₁, h1, h2⟩ := bindR_ok_elim hok
        have e1 := newNode_ok_ctx h1
        obtain ⟨bodyN, st₃, h3, h4⟩ := bindR_ok_elim h2
        have hnd2 : NodupKeys
            (ctxApply [("break_", nxt), ("continue_", dummy)] st₁.ctx) :=
          ctxApply_keys_nodup _ _ (by rw [e1]; exact hnd)
        have e2 := ihSS b dummy { st₁ with ctx := ctxApply [("break_", nxt), ("continue_", dummy)] st₁.ctx } bodyN st₃ hnd2 h3
        have e2h : st₃.ctx =
            ctxApply [("break_", nxt), ("continue_", dummy)] st₁.ctx := e2
        have hres : ctxRestore
            (ctxSaved [("break_", nxt), ("continue_", dummy)] st₁.ctx)
            st₃.ctx = st.ctx := by
          rw [e2h, ctx_restore_apply _ _ (nodupBC nxt dummy), e1]
        obtain ⟨elseN, st₅, h5, h6⟩ := bindR_ok_elim h4
        have hnd4 : NodupKeys (ctxRestore
            (ctxSaved [("break_", nxt), ("continue_", dummy)] st₁.ctx)
            st₃.ctx) := by
          rw [hres]
          exact hnd
        have e4 := ihSS o nxt { st₃ with ctx := ctxRestore (ctxSaved [("break_", nxt), ("continue_", dummy)] st₁.ctx) st₃.ctx } elseN st₅ hnd4 h5
        obtain ⟨r, st₆, h7, h8⟩ := bindR_ok_elim h6
        rw [finishLoop_ok_ctx h8, (ctxLookup_ok h7).1, e4]
        exact hres
      · intro stm b nxt st n st' hnd hok
        obtain ⟨bodyN, st₁, h1, h2⟩ := bindR_ok_elim hok
        have e1 := ihSS b nxt st bodyN st₁ hnd h1
        obtain ⟨r, st₂, h3, h4⟩ := bindR_ok_elim h2
        rw [newNode_ok_ctx h4, (ctxLookup_ok h3).1, e1]
      · intro stm b hs o nxt st n st' hnd hok
        obtain ⟨rn0, st₀, h1, h2⟩ := bindR_ok_elim hok
        obtain ⟨e0, hlk⟩ := ctxLookup_ok h1
        obtain ⟨rn, st₁, h3, h4⟩ := bindR_ok_elim h2
        have e1 := ihH hs nxt rn0 st₀ rn st₁ (by rw [e0]; exact hnd) h3
        obtain ⟨elseN, st₂, h5, h6⟩ := bindR_ok_elim h4
        have e2 := ihSS o nxt st₁ elseN st₂ (by rw [e1, e0]; exact hnd) h5
        have e21 : st₂.ctx = st.ctx := by rw [e2, e1, e0]
        obtain ⟨bodyN, st₄, h7, h8⟩ := bindR_ok_elim h6
        have hnd3 : NodupKeys (ctxApply [("raise_", rn)] st₂.ctx) :=
          ctxApply_keys_nodup _ _ (by rw [e21]; exact hnd)
        have e3 := ihSS b elseN { st₂ with ctx := ctxApply [("raise_", rn)] st₂.ctx } bodyN st₄ hnd3 h7
        have e3h : st₄.ctx = ctxApply [("raise_", rn)] st₂.ctx := e3
        rw [newNode_ok_ctx h8]
        show ctxRestore (ctxSaved [("raise_", rn)] st₂.ctx) st₄.ctx = st.ctx
        rw [e3h, ctx_restore_apply _ _ (nodupR rn), e21]
      · intro fb nxt ps st u st' hnd hok
        cases ps with
        | nil =>
            cases hok
            rfl
        | cons p rest =>
            obtain ⟨endN, d⟩ := p
            simp only [processDummies] at hok
            by_cases hc : endN = nxt ∨ hasParents st.graph d
            · rw [if_pos hc] at hok
              obtain ⟨finEntry, st₁, h1, h2⟩ := bindR_ok_elim hok
              have e1 := ihSS fb endN st finEntry st₁ hnd h1
              cases hx : st₁.graph.collapse_node d finEntry with
              | mk g oe =>
                  rw [hx] at h2
                  cases oe with
                  | none =>
                      have e2 := ihP fb nxt rest { st₁ with graph := g } u st'
                        (by show NodupKeys st₁.ctx; rw [e1]; exact hnd) h2
                      rw [e2]
                      exact e1
                  | some e => cases h2
            · rw [if_neg hc] at hok
              cases hx : st.graph.remove_node d with
              | mk g oe =>
                  rw [hx] at hok
                  cases oe with
                  | none =>
                      exact ihP fb nxt rest { st with graph := g } u st' hnd hok
                  | some e => cases hok

/-!
### Claim C9 (per-statement context invariance)
-/

/--
C9: every per-statement analysis leaves the analyser's context
unchanged: for every supported or unsupported statement, any next node
and any starting state whose context has pairwise-distinct role labels,
if `_analyse_stmt_*` returns normally then the context mapping
afterwards equals the mapping before the call — `_updated_context`
restores each overridden role to its previous target on exit and
deletes the roles that were absent on entry.
-/
theorem claim_C9_context_invariance (f : Nat) (s : Stmt) (nxt : Nat)
    (st : AState) (n : Nat) (st' : AState) (hnd : NodupKeys st.ctx)
    (hok : analyseStmt f s nxt st = .ok (n, st')) : st'.ctx = st.ctx :=
  (analyser_ctx f).1 s nxt st n st' hnd hok

/-- Witness for C9: a concrete `while` statement (which pushes and pops
the break/continue roles) run in a concrete context. -/
theorem claim_C9_context_invariance_witness :
    (analyseStmt 6 (.whileS .other [.breakS] []) 0 demoFnState).toOption.map
      (fun p => p.2.ctx) = some demoFnState.ctx := by
  have hok : ∃ n st', analyseStmt 6 (.whileS .other [.breakS] []) 0
      demoFnState = .ok (n, st') := ⟨_, _, rfl⟩
  obtain ⟨n, st', h⟩ := hok
  have e := claim_C9_context_invariance 6 (.whileS .other [.breakS] []) 0
    demoFnState n st'
    (by show (demoFnState.ctx.map (·.1)).Nodup; decide) h
  rw [h]
  show some st'.ctx = some demoFnState.ctx
  rw [e]

/-! ### Frame lemmas: which in-edge collections each operation can touch -/

theorem CFGraph.addEdgesLoop_edges_to_other (es : List (Label × Nat)) :
    ∀ (g : CFGraph) (n x : Nat), x ∉ es.map (·.2) →
      (g.addEdgesLoop n es).1.edges_to x = g.edges_to x := by
  induction es with
  | nil => intro g n x _; rfl
  | cons q rest ih =>
      intro g n x hx
      simp only [List.map_cons, List.mem_cons, not_or] at hx
      show ((if ¬ g.mem q.2 ∨ q.2 = n then (g, some (.badTarget q.1 q.2))
        else (g.addEdgeRaw n q.1 q.2).addEdgesLoop n rest) :
          CFGraph × Option GraphErr).1.edges_to x = g.edges_to x
      by_cases hc : ¬ g.mem q.2 ∨ q.2 = n
      · rw [if_pos hc]
      · rw [if_neg hc, ih _ n x hx.2, CFGraph.edges_to_addEdgeRaw, if_neg hx.1]

theorem CFGraph.add_node_edges_to_other (g : CFGraph) (n : Nat)
    (es : List (Label × Nat)) (x : Nat) (hx1 : x ≠ n)
    (hx2 : x ∉ es.map (·.2)) :
    (g.add_node n es).1.edges_to x = g.edges_to x := by
  unfold CFGraph.add_node
  by_cases hmem : g.mem n
  · rw [if_pos hmem]
  · rw [if_neg hmem, CFGraph.addEdgesLoop_edges_to_other _ _ _ _ hx2,
      CFGraph.edges_to_addNodeRaw, if_neg hx1]

theorem CFGraph.add_node_nodes_ok (g : CFGraph) (n : Nat)
    (es : List (Label × Nat)) (h : ¬ g.mem n) :
    (g.add_node n es).1.nodes = n :: g.nodes := by
  unfold CFGraph.add_node
  rw [if_neg h, CFGraph.addEdgesLoop_nodes, CFGraph.nodes_addNodeRaw]

theorem CFGraph.rerouteLoop_edges_to_other (remaining : List (Nat × Label)) :
    ∀ (g : CFGraph) (dummy target : Nat), g.Wf →
      target ∈ g.nodes → dummy ≠ target →
      g.fwd dummy = [] → g.edges_to dummy = remaining →
      ∀ m, m ≠ dummy → m ≠ target →
        (g.rerouteLoop target remaining).edges_to m = g.edges_to m := by
  induction remaining with
  | nil => intro g dummy target _ _ _ _ _ m _ _; rfl
  | cons q rest ih =>
      intro g dummy target hg htm hne hf hb m hmd hmt
      obtain ⟨s, l⟩ := q
      have hmem : (s, l) ∈ g.edges_to dummy := by
        rw [hb]
        exact List.mem_cons_self _ _
      have hEdge : g.edge s l = some dummy := (hg.inv s l dummy).1 hmem
      have hsd : s ≠ dummy := by
        intro hh
        rw [hh] at hEdge
        unfold CFGraph.edge at hEdge
        rw [hf] at hEdge
        cases hEdge
      have hsrc : s ∈ g.nodes := hg.srcMem s l dummy hEdge
      have hg1wf : (g.removeEdgeRaw s l).Wf := hg.removeEdgeRaw s l
      have hg1edge := CFGraph.edge_removeEdgeRaw g hEdge (hg.fwdKeysNodup s)
      have hg1back := CFGraph.edges_to_removeEdgeRaw g hEdge
      have hg1nodes := CFGraph.nodes_removeEdgeRaw g s l
      have hg1fwdd : (g.removeEdgeRaw s l).fwd dummy = [] := by
        rw [CFGraph.fwd_removeEdgeRaw g hEdge dummy, if_neg (Ne.symm hsd)]
        exact hf
      have hg1backd : (g.removeEdgeRaw s l).edges_to dummy = rest := by
        rw [hg1back dummy, if_pos rfl, hb, List.erase_cons_head]
      have hg2wf : ((g.removeEdgeRaw s l).addEdgeRaw s l target).Wf := by
        refine hg1wf.addEdgeRaw ?_ ?_ ?_
        · rw [hg1edge s l, if_pos ⟨rfl, rfl⟩]
        · rw [hg1nodes]; exact hsrc
        · rw [hg1nodes]; exact htm
      have hg2nodes :
          ((g.removeEdgeRaw s l).addEdgeRaw s l target).nodes = g.nodes := by
        rw [CFGraph.nodes_addEdgeRaw, hg1nodes]
      have hg2fwdd :
          ((g.removeEdgeRaw s l).addEdgeRaw s l target).fwd dummy = [] := by
        rw [CFGraph.fwd_addEdgeRaw _ s l target dummy, if_neg (Ne.symm hsd)]
        exact hg1fwdd
      have hg2backd :
          ((g.removeEdgeRaw s l).addEdgeRaw s l target).edges_to dummy
            = rest := by
        rw [CFGraph.edges_to_addEdgeRaw _ s l target dummy, if_neg hne]
        exact hg1backd
      have hstep := ih ((g.removeEdgeRaw s l).addEdgeRaw s l target) dummy
        target hg2wf (by rw [hg2nodes]; exact htm) hne hg2fwdd hg2backd
        m hmd hmt
      rw [show (g.rerouteLoop target ((s, l) :: rest)) =
        (((g.removeEdgeRaw s l).addEdgeRaw s l target).rerouteLoop target rest)
        from rfl]
      rw [hstep, CFGraph.edges_to_addEdgeRaw _ s l target m, if_neg hmt,
        hg1back m, if_neg hmd]

theorem CFGraph.collapse_node_edges_to_other {g : CFGraph} (hg : g.Wf)
    (d t : Nat) (hok : (g.collapse_node d t).2 = none) (m : Nat)
    (hmd : m ≠ d) (hmt : m ≠ t) :
    (g.collapse_node d t).1.edges_to m = g.edges_to m := by
  obtain ⟨hdmem, htmem, hfwd, hdt⟩ := ((CFGraph.collapse_props hg d t).1).mp hok
  unfold CFGraph.collapse_node
  rw [if_neg (show ¬¬ g.mem d from not_not_intro hdmem),
      if_neg (show ¬¬ g.mem t from not_not_intro htmem),
      if_neg (show ¬(g.fwd d ≠ []) from by simp [hfwd]), if_neg hdt]
  rw [CFGraph.remove_node_edges_to]
  exact CFGraph.rerouteLoop_edges_to_other (g.edges_to d) g d t hg htmem hdt
    hfwd rfl m hmd hmt

theorem CFGraph.remove_node_not_mem {g : CFGraph} (n m : Nat)
    (hm : ¬ g.mem m) : ¬ (g.remove_node n).1.mem m := by
  unfold CFGraph.remove_node
  by_cases h1 : ¬ g.mem n
  · rw [if_pos h1]; exact hm
  · rw [if_neg h1]
    by_cases h2 : g.fwd n ≠ []
    · rw [if_pos h2]; exact hm
    · rw [if_neg h2]
      by_cases h3 : g.edges_to n ≠ []
      · rw [if_pos h3]; exact hm
      · rw [if_neg h3]
        intro hmem
        exact hm (List.mem_of_mem_erase hmem)

theorem CFGraph.remove_node_self_not_mem {g : CFGraph} (hg : g.Wf) (n : Nat)
    (hok : (g.remove_node n).2 = none) : ¬ (g.remove_node n).1.mem n := by
  unfold CFGraph.remove_node at hok ⊢
  by_cases h1 : ¬ g.mem n
  · rw [if_pos h1] at hok; cases hok
  · rw [if_neg h1] at hok ⊢
    by_cases h2 : g.fwd n ≠ []
    · rw [if_pos h2] at hok; cases hok
    · rw [if_neg h2] at hok ⊢
      by_cases h3 : g.edges_to n ≠ []
      · rw [if_pos h3] at hok; cases hok
      · rw [if_neg h3]
        show ¬ n ∈ g.nodes.erase n
        rw [List.Nodup.erase_eq_filter hg.nodesNodup]
        intro hmem
        have := (List.mem_filter.mp hmem).2
        simp at this

theorem CFGraph.add_node_not_mem (g : CFGraph) (n : Nat)
    (es : List (Label × Nat)) (m : Nat) (hmn : m ≠ n) (hm : ¬ g.mem m) :
    ¬ (g.add_node n es).1.mem m := by
  unfold CFGraph.add_node
  by_cases hmem : g.mem n
  · rw [if_pos hmem]; exact hm
  · rw [if_neg hmem]
    show ¬ m ∈ ((g.addNodeRaw n).addEdgesLoop n es).1.nodes
    rw [CFGraph.addEdgesLoop_nodes, CFGraph.nodes_addNodeRaw]
    intro hc
    rcases List.mem_cons.mp hc with h | h
    · exact hmn h
    · exact hm h

theorem CFGraph.collapse_node_not_mem {g : CFGraph} (hg : g.Wf) (d t m : Nat)
    (hm : ¬ g.mem m) : ¬ (g.collapse_node d t).1.mem m := by
  obtain ⟨hiff, hfail, hsucc⟩ := CFGraph.collapse_props hg d t
  by_cases hok : (g.collapse_node d t).2 = none
  · obtain ⟨_, hnodes, _⟩ := hsucc hok
    intro hc
    exact hm ((hnodes m).mp hc).1
  · rw [hfail hok]
    exact hm

theorem CFGraph.collapse_node_self_not_mem {g : CFGraph} (hg : g.Wf) (d t : Nat)
    (hok : (g.collapse_node d t).2 = none) :
    ¬ (g.collapse_node d t).1.mem d := by
  obtain ⟨hiff, hfail, hsucc⟩ := CFGraph.collapse_props hg d t
  obtain ⟨_, hnodes, _⟩ := hsucc hok
  intro hc
  exact ((hnodes d).mp hc).2 rfl

/-! ### Context targets -/

/-- The set of nodes currently referenced by the analyser context
(the values of `self._context`). -/
def ctxTargets (c : Ctx) : List Nat := c.map (·.2)

theorem mem_ctxTargets_of_lookupA {c : Ctx} {k : String} {v : Nat}
    (h : lookupA c k = some v) : v ∈ ctxTargets c := by
  induction c with
  | nil => cases h
  | cons p rest ih =>
      unfold lookupA at h
      by_cases hp : p.1 = k
      · rw [if_pos hp] at h
        cases h
        exact List.mem_cons_self _ _
      · rw [if_neg hp] at h
        exact List.mem_cons_of_mem _ (ih h)

theorem ctxTargets_setA (c : Ctx) (k : String) (v : Nat) :
    ∀ x ∈ ctxTargets (setA c k v), x ∈ ctxTargets c ∨ x = v := by
  induction c with
  | nil =>
      intro x hx
      simp [setA, ctxTargets] at hx
      exact Or.inr hx
  | cons p rest ih =>
      intro x hx
      unfold setA at hx
      by_cases hp : p.1 = k
      · rw [if_pos hp] at hx
        simp only [ctxTargets, List.map_cons, List.mem_cons] at hx ⊢
        rcases hx with h | h
        · exact Or.inr h
        · exact Or.inl (Or.inr h)
      · rw [if_neg hp] at hx
        simp only [ctxTargets, List.map_cons, List.mem_cons] at hx ⊢
        rcases hx with h | h
        · exact Or.inl (Or.inl h)
        · rcases ih x h with h2 | h2
          · exact Or.inl (Or.inr h2)
          · exact Or.inr h2

theorem ctxTargets_ctxApply (ups : Ctx) :
    ∀ (c : Ctx) (x : Nat), x ∈ ctxTargets (ctxApply ups c) →
      x ∈ ctxTargets c ∨ x ∈ ups.map (·.2) := by
  induction ups with
  | nil => intro c x hx; exact Or.inl hx
  | cons q rest ih =>
      intro c x hx
      have hstep : ctxApply (q :: rest) c = ctxApply rest (setA c q.1 q.2) :=
        rfl
      rw [hstep] at hx
      rcases ih (setA c q.1 q.2) x hx with h | h
      · rcases ctxTargets_setA c q.1 q.2 x h with h2 | h2
        · exact Or.inl h2
        · exact Or.inr (by simp [h2])
      · exact Or.inr (List.mem_cons_of_mem _ h)

/-! ### Frame lemmas for the analyser primitives -/

theorem lookupA_mem {κ ν : Type} [DecidableEq κ] {l : List (κ × ν)} {k : κ}
    {v : ν} (h : lookupA l k = some v) : (k, v) ∈ l := by
  induction l with
  | nil => cases h
  | cons p rest ih =>
      unfold lookupA at h
      by_cases hp : p.1 = k
      · rw [if_pos hp] at h
        cases h
        subst hp
        exact List.mem_cons_self _ _
      · rw [if_neg hp] at h
        exact List.mem_cons_of_mem _ (ih h)

theorem CFGraph.edges_to_nil_of_not_mem {g : CFGraph} (hg : g.Wf) (n : Nat)
    (h : ¬ g.mem n) : g.edges_to n = [] := by
  cases hx : g.edges_to n with
  | nil => rfl
  | cons q rest =>
      have hq : q ∈ g.edges_to n := by
        rw [hx]
        exact List.mem_cons_self _ _
      have := (hg.inv q.1 q.2 n).1 (by simpa using hq)
      exact absurd (hg.tgtMem q.1 q.2 n this) h

theorem CFGraph.add_node_ok_not_mem (g : CFGraph) (n : Nat)
    (es : List (Label × Nat)) (h : (g.add_node n es).2 = none) : ¬ g.mem n := by
  unfold CFGraph.add_node at h
  by_cases hmem : g.mem n
  · rw [if_pos hmem] at h
    cases h
  · exact hmem

/-- The labels of a single-edge list are duplicate-free. -/
theorem labelsNodupSingle (l : Label) (a : Nat) :
    ((([(l, a)] : List (Label × Nat))).map (·.1)).Nodup := by simp

theorem labelsNodupNil :
    ((([] : List (Label × Nat))).map (·.1)).Nodup := by simp

theorem labelsNodupNE (a b : Nat) :
    ((([(NEXT, a), (ERROR, b)] : List (Label × Nat))).map (·.1)).Nodup := by
  simp [NEXT, ERROR]

theorem labelsNodupEnterError (a b : Nat) :
    ((([(ENTER, a), (ERROR, b)] : List (Label × Nat))).map (·.1)).Nodup := by
  simp [ENTER, ERROR]

theorem labelsNodupEEE (a b c : Nat) :
    ((([(ENTER, a), (ELSE, b), (ERROR, c)] : List (Label × Nat))).map
      (·.1)).Nodup := by
  simp [ENTER, ELSE, ERROR]

/-- Effect summary of a successful `_ast_node` / dummy-node creation on
the graph: the new node is the current counter, the counter advances,
the context is untouched, no in-edge list of another node outside the
requested targets changes, and absent nodes stay absent. -/
theorem newNode_frame {p : Payload} {es : List (Label × Nat)} {st : AState}
    {a : Nat} {st' : AState} (h : newNode p es st = .ok (a, st'))
    (hl : (es.map (·.1)).Nodup) (hw : st.graph.Wf) :
    st'.graph.Wf ∧ a = st.counter ∧ st'.counter = st.counter + 1 ∧
    st'.ctx = st.ctx ∧ ¬ st.graph.mem st.counter ∧
    (∀ m, m ≠ st.counter → m ∉ es.map (·.2) →
      st'.graph.edges_to m = st.graph.edges_to m) ∧
    (∀ m, m ≠ st.counter → ¬ st.graph.mem m → ¬ st'.graph.mem m) := by
  unfold newNode at h
  cases hx : st.graph.add_node st.counter es with
  | mk g oe =>
      rw [hx] at h
      cases oe with
      | some e => cases h
      | none =>
          cases h
          have hok2 : (st.graph.add_node st.counter es).2 = none := by rw [hx]
          have hnm : ¬ st.graph.mem st.counter :=
            CFGraph.add_node_ok_not_mem _ _ _ hok2
          have hwf : g.Wf := by
            have := hw.add_node st.counter es hl
            rw [hx] at this
            exact this
          have hback : ∀ m, m ≠ st.counter → m ∉ es.map (·.2) →
              g.edges_to m = st.graph.edges_to m := by
            intro m h1 h2
            have := CFGraph.add_node_edges_to_other st.graph st.counter es m
              h1 h2
            rw [hx] at this
            exact this
          have hnotmem : ∀ m, m ≠ st.counter → ¬ st.graph.mem m →
              ¬ g.mem m := by
            intro m h1 h2
            have := CFGraph.add_node_not_mem st.graph st.counter es m h1 h2
            rw [hx] at this
            exact this
          exact ⟨hwf, rfl, rfl, rfl, hnm, hback, hnotmem⟩

/-- Frame summary of a generic statement node: a fresh node with `next`
and `error` edges, touching no other in-edge collection. -/
theorem genericStmt_frame {stm : Stmt} {nxt : Nat} {st : AState} {a : Nat}
    {st' : AState} (h : genericStmt stm nxt st = .ok (a, st'))
    (hw : st.graph.Wf) :
    st'.graph.Wf ∧ st.counter ≤ st'.counter ∧ (a = nxt ∨ st.counter ≤ a) ∧
    st'.ctx = st.ctx ∧
    (∀ m, m < st.counter → m ∉ ctxTargets st.ctx → m ≠ nxt →
      st'.graph.edges_to m = st.graph.edges_to m) ∧
    (∀ m, m < st.counter → ¬ st.graph.mem m → ¬ st'.graph.mem m) := by
  obtain ⟨r, st₁, h1, h2⟩ := bindR_ok_elim h
  obtain ⟨hst, hlk⟩ := ctxLookup_ok h1
  rw [hst] at h2
  have hr : r ∈ ctxTargets st.ctx := mem_ctxTargets_of_lookupA hlk
  obtain ⟨hwf, ha, hcnt, hctx, _, hback, hnm⟩ :=
    newNode_frame h2 (labelsNodupNE nxt r) hw
  refine ⟨hwf, by omega, Or.inr (by omega), hctx, ?_, ?_⟩
  · intro m hm1 hm2 hm3
    have hmr : m ≠ r := fun hc => hm2 (hc ▸ hr)
    exact hback m (by omega) (by simp [hm3, hmr])
  · intro m hm1 hm2
    exact hnm m (by omega) hm2

/-- Frame summary of the loop-closing step: the loop node is fresh, the
dummy is collapsed onto it, and no other in-edge collection changes. -/
theorem finishLoop_frame {stm : Stmt} {br : List (Label × Nat)} {d : Nat}
    {st : AState} {a : Nat} {st' : AState}
    (h : finishLoop stm br d st = .ok (a, st'))
    (hl : (br.map (·.1)).Nodup) (hw : st.graph.Wf) :
    st'.graph.Wf ∧ st.counter ≤ st'.counter ∧ a = st.counter ∧
    st'.ctx = st.ctx ∧
    (∀ m, m ≠ st.counter → m ∉ br.map (·.2) → m ≠ d →
      st'.graph.edges_to m = st.graph.edges_to m) ∧
    (∀ m, m ≠ st.counter → ¬ st.graph.mem m → ¬ st'.graph.mem m) := by
  obtain ⟨loopN, st₁, h1, h2⟩ := bindR_ok_elim h
  obtain ⟨hwf1, ha, hcnt, hctx, _, hback1, hnm1⟩ := newNode_frame h1 hl hw
  cases hx : st₁.graph.collapse_node d loopN with
  | mk g oe =>
      rw [hx] at h2
      cases oe with
      | some e => cases h2
      | none =>
          cases h2
          have hok2 : (st₁.graph.collapse_node d a).2 = none := by rw [hx]
          have hwf2 : g.Wf := by
            have := hwf1.collapse_node d a
            rw [hx] at this
            exact this
          refine ⟨hwf2, by show st.counter ≤ st₁.counter; omega, ha, hctx,
            ?_, ?_⟩
          · intro m hm1 hm2 hm3
            have hml : m ≠ a := by rw [ha]; exact hm1
            have hstep : g.edges_to m = st₁.graph.edges_to m := by
              have := CFGraph.collapse_node_edges_to_other hwf1 d a hok2
                m hm3 hml
              rw [hx] at this
              exact this
            show g.edges_to m = st.graph.edges_to m
            rw [hstep, hback1 m hm1 hm2]
          · intro m hm1 hm2
            show ¬ g.mem m
            have := CFGraph.collapse_node_not_mem hwf1 d a m
              (hnm1 m hm1 hm2)
            rw [hx] at this
            exact this

/-- Frame and shape summary of the dummy-construction loop of
`_analyse_stmt_Try`: dummies are fresh blank nodes, one per distinct
non-`next` target, keyed without duplicates; no in-edge collection of a
pre-existing node changes; every `target_nodes` value is an old `tns`
value, the finally entry, or a node at or above the lower bound. -/
theorem buildDummies_frame (items : Ctx) :
    ∀ (nxt finN : Nat) (pairs : List (Nat × Nat)) (tns : Ctx) (st : AState)
      (r : List (Nat × Nat) × Ctx) (st' : AState) (c₀ : Nat),
      buildDummies items nxt finN pairs tns st = .ok (r, st') →
      st.graph.Wf → c₀ ≤ st.counter →
      (∀ q ∈ pairs, c₀ ≤ q.2 ∧ q.2 < st.counter) →
      (pairs.map (·.1)).Nodup → (pairs.map (·.2)).Nodup →
      st'.graph.Wf ∧ st.counter ≤ st'.counter ∧
      (∀ m, m < st.counter → st'.graph.edges_to m = st.graph.edges_to m) ∧
      (∀ m, m < st.counter → ¬ st.graph.mem m → ¬ st'.graph.mem m) ∧
      (r.1.map (·.1)).Nodup ∧ (r.1.map (·.2)).Nodup ∧
      (∀ q ∈ r.1, (q ∈ pairs ∨ (q.1 ∈ ctxTargets items ∧ q.1 ≠ nxt)) ∧
        c₀ ≤ q.2 ∧ q.2 < st'.counter) ∧
      (∀ v ∈ r.2.map (·.2), v ∈ tns.map (·.2) ∨ v = finN ∨ c₀ ≤ v) := by
  induction items with
  | nil =>
      intro nxt finN pairs tns st r st' c₀ hok hw hc0 hplo hk hv
      cases hok
      refine ⟨hw, le_refl _, fun m _ => rfl, fun m _ h => h, hk, hv, ?_, ?_⟩
      · intro q hq
        exact ⟨Or.inl hq, (hplo q hq).1, (hplo q hq).2⟩
      · intro v hv2
        exact Or.inl hv2
  | cons item rest ih =>
      intro nxt finN pairs tns st r st' c₀ hok hw hc0 hplo hk hv
      obtain ⟨label, node⟩ := item
      simp only [buildDummies] at hok
      by_cases hnn : node = nxt
      · rw [if_pos hnn] at hok
        obtain ⟨hwf, hcnt, hback, hnm, hk2, hv2, hpair, htv⟩ :=
          ih nxt finN pairs (tns ++ [(label, finN)]) st r st' c₀ hok hw hc0
            hplo hk hv
        refine ⟨hwf, hcnt, hback, hnm, hk2, hv2, ?_, ?_⟩
        · intro q hq
          obtain ⟨hmem, hb1, hb2⟩ := hpair q hq
          refine ⟨?_, hb1, hb2⟩
          rcases hmem with hmem | hmem
          · exact Or.inl hmem
          · exact Or.inr ⟨List.mem_cons_of_mem _ hmem.1, hmem.2⟩
        · intro v hv3
          rcases htv v hv3 with h | h | h
          · rw [List.map_append] at h
            rcases List.mem_append.mp h with h2 | h2
            · exact Or.inl h2
            · simp at h2
              exact Or.inr (Or.inl h2)
          · exact Or.inr (Or.inl h)
          · exact Or.inr (Or.inr h)
      · rw [if_neg hnn] at hok
        cases hlk : lookupA pairs node with
        | some d =>
            rw [hlk] at hok
            obtain ⟨hwf, hcnt, hback, hnm, hk2, hv2, hpair, htv⟩ :=
              ih nxt finN pairs (tns ++ [(label, d)]) st r st' c₀ hok hw hc0
                hplo hk hv
            have hd : c₀ ≤ d := (hplo (node, d) (lookupA_mem hlk)).1
            refine ⟨hwf, hcnt, hback, hnm, hk2, hv2, ?_, ?_⟩
            · intro q hq
              obtain ⟨hmem, hb1, hb2⟩ := hpair q hq
              refine ⟨?_, hb1, hb2⟩
              rcases hmem with hmem | hmem
              · exact Or.inl hmem
              · exact Or.inr ⟨List.mem_cons_of_mem _ hmem.1, hmem.2⟩
            · intro v hv3
              rcases htv v hv3 with h | h | h
              · rw [List.map_append] at h
                rcases List.mem_append.mp h with h2 | h2
                · exact Or.inl h2
                · simp at h2
                  subst h2
                  exact Or.inr (Or.inr hd)
              · exact Or.inr (Or.inl h)
              · exact Or.inr (Or.inr h)
        | none =>
            rw [hlk] at hok
            obtain ⟨d, st₁, h1, h2⟩ := bindR_ok_elim hok
            obtain ⟨hwf1, hd, hcnt1, hctx1, _, hback1, hnm1⟩ :=
              newNode_frame h1 labelsNodupNil hw
            subst hd
            have hknew : ((pairs ++ [(node, st.counter)]).map (·.1)).Nodup := by
              rw [List.map_append]
              rw [List.nodup_append]
              refine ⟨hk, by simp, ?_⟩
              intro x hx
              simp only [List.map_cons, List.map_nil, List.mem_singleton]
              intro hxe
              subst hxe
              exact (not_mem_keys_of_lookupA_none hlk) hx
            have hvnew : ((pairs ++ [(node, st.counter)]).map (·.2)).Nodup := by
              rw [List.map_append]
              rw [List.nodup_append]
              refine ⟨hv, by simp, ?_⟩
              intro x hx
              simp only [List.map_cons, List.map_nil, List.mem_singleton]
              intro hxe
              subst hxe
              rw [List.mem_map] at hx
              obtain ⟨q, hq, hqe⟩ := hx
              have := (hplo q hq).2
              omega
            have hplonew : ∀ q ∈ pairs ++ [(node, st.counter)],
                c₀ ≤ q.2 ∧ q.2 < st₁.counter := by
              intro q hq
              rcases List.mem_append.mp hq with hq2 | hq2
              · have := hplo q hq2
                omega
              · simp at hq2
                subst hq2
                simp
                omega
            obtain ⟨hwf, hcnt, hback, hnm, hk2, hv2, hpair, htv⟩ :=
              ih nxt finN (pairs ++ [(node, st.counter)])
                (tns ++ [(label, st.counter)]) st₁ r st' c₀ h2 hwf1
                (by omega) hplonew hknew hvnew
            refine ⟨hwf, by omega, ?_, ?_, hk2, hv2, ?_, ?_⟩
            · intro m hm
              rw [hback m (by omega), hback1 m (by omega) (by simp)]
            · intro m hm hm2
              exact hnm m (by omega) (hnm1 m (by omega) hm2)
            · intro q hq
              obtain ⟨hmem, hb1, hb2⟩ := hpair q hq
              refine ⟨?_, hb1, hb2⟩
              rcases hmem with hmem | hmem
              · rcases List.mem_append.mp hmem with hq2 | hq2
                · exact Or.inl hq2
                · simp at hq2
                  subst hq2
                  refine Or.inr ⟨?_, hnn⟩
                  show node ∈ ((label, node) :: rest).map (·.2)
                  exact List.mem_cons_self _ _
              · exact Or.inr ⟨List.mem_cons_of_mem _ hmem.1, hmem.2⟩
            · intro v hv3
              rcases htv v hv3 with h | h | h
              · rw [List.map_append] at h
                rcases List.mem_append.mp h with h2 | h2
                · exact Or.inl h2
                · simp at h2
                  subst h2
                  exact Or.inr (Or.inr hc0)
              · exact Or.inr (Or.inl h)
              · exact Or.inr (Or.inr h)

/-! ### Locality of the analyser: graph effects stay inside the frame -/

/-- Frame property of an analyser step returning an entry node: the
graph stays well-formed, the counter is monotone, the returned node is
the supplied next or a fresh node, and the in-edge collections of old
nodes outside the context targets and the supplied next are untouched,
absent old nodes staying absent. -/
def FrameS (nxt : Nat) (st : AState) (n : Nat) (st' : AState) : Prop :=
  st'.graph.Wf ∧ st.counter ≤ st'.counter ∧ (n = nxt ∨ st.counter ≤ n) ∧
  (∀ m, m < st.counter → m ∉ ctxTargets st.ctx → m ≠ nxt →
    st'.graph.edges_to m = st.graph.edges_to m) ∧
  (∀ m, m < st.counter → ¬ st.graph.mem m → ¬ st'.graph.mem m)

/-- Frame property of the handler loop, which may also return the
supplied no-match node `rn`. -/
def FrameH (nxt rn : Nat) (st : AState) (n : Nat) (st' : AState) : Prop :=
  st'.graph.Wf ∧ st.counter ≤ st'.counter ∧
  (n = rn ∨ n = nxt ∨ st.counter ≤ n) ∧
  (∀ m, m < st.counter → m ∉ ctxTargets st.ctx → m ≠ nxt → m ≠ rn →
    st'.graph.edges_to m = st.graph.edges_to m) ∧
  (∀ m, m < st.counter → ¬ st.graph.mem m → ¬ st'.graph.mem m)

/-- Frame property of the dummy-processing loop: in-edge collections of
old nodes away from the context targets, the supplied next and the
pairs' end and dummy nodes are untouched. -/
def FrameP (nxt : Nat) (ps : List (Nat × Nat)) (st : AState)
    (st' : AState) : Prop :=
  st'.graph.Wf ∧ st.counter ≤ st'.counter ∧
  (∀ m, m < st.counter → m ∉ ctxTargets st.ctx → m ≠ nxt →
    m ∉ ps.map (·.1) → m ∉ ps.map (·.2) →
    st'.graph.edges_to m = st.graph.edges_to m) ∧
  (∀ m, m < st.counter → ¬ st.graph.mem m → ¬ st'.graph.mem m)

/-- `newNode` seen through the frame of an enclosing call: all targets
are the next node, the distinguished node `rn`, context targets, or
fresh nodes above the floor `lo`. -/
theorem newNodeA {p : Payload} {es : List (Label × Nat)} {st : AState}
    {a : Nat} {st' : AState} (nxt rn lo : Nat)
    (h : newNode p es st = .ok (a, st'))
    (hl : (es.map (·.1)).Nodup) (hw : st.graph.Wf) (hlo : lo ≤ st.counter)
    (hts : ∀ t ∈ es.map (·.2),
      t = nxt ∨ t = rn ∨ t ∈ ctxTargets st.ctx ∨ lo ≤ t) :
    st'.graph.Wf ∧ st.counter ≤ st'.counter ∧ st.counter ≤ a ∧
    st'.ctx = st.ctx ∧
    (∀ m, m < lo → m ∉ ctxTargets st.ctx → m ≠ nxt → m ≠ rn →
      st'.graph.edges_to m = st.graph.edges_to m) ∧
    (∀ m, m < lo → ¬ st.graph.mem m → ¬ st'.graph.mem m) := by
  obtain ⟨hwf, ha, hcnt, hctx, _, hback, hnm⟩ := newNode_frame h hl hw
  refine ⟨hwf, by omega, by omega, hctx, ?_,
    fun m hm1 => hnm m (by omega)⟩
  intro m hm1 hm2 hm3 hm4
  refine hback m (by omega) ?_
  intro hmem
  rcases hts m hmem with h2 | h2 | h2 | h2
  · exact hm3 h2
  · exact hm4 h2
  · exact hm2 h2
  · omega

/-- `finishLoop` seen through the frame of an enclosing call. -/
theorem finishLoopA {stm : Stmt} {br : List (Label × Nat)} {d : Nat}
    {st : AState} {a : Nat} {st' : AState} (nxt rn lo : Nat)
    (h : finishLoop stm br d st = .ok (a, st'))
    (hl : (br.map (·.1)).Nodup) (hw : st.graph.Wf) (hlo : lo ≤ st.counter)
    (hd : lo ≤ d)
    (hts : ∀ t ∈ br.map (·.2),
      t = nxt ∨ t = rn ∨ t ∈ ctxTargets st.ctx ∨ lo ≤ t) :
    st'.graph.Wf ∧ st.counter ≤ st'.counter ∧ st.counter ≤ a ∧
    st'.ctx = st.ctx ∧
    (∀ m, m < lo → m ∉ ctxTargets st.ctx → m ≠ nxt → m ≠ rn →
      st'.graph.edges_to m = st.graph.edges_to m) ∧
    (∀ m, m < lo → ¬ st.graph.mem m → ¬ st'.graph.mem m) := by
  obtain ⟨hwf, hcnt, ha, hctx, hback, hnm⟩ := finishLoop_frame h hl hw
  refine ⟨hwf, by omega, by omega, hctx, ?_,
    fun m hm1 => hnm m (by omega)⟩
  intro m hm1 hm2 hm3 hm4
  refine hback m (by omega) ?_ (by omega)
  intro hmem
  rcases hts m hmem with h2 | h2 | h2 | h2
  · exact hm3 h2
  · exact hm4 h2
  · exact hm2 h2
  · omega

/-- A generic statement node satisfies the statement frame. -/
theorem FrameS_generic {stm : Stmt} {nxt : Nat} {st : AState} {a : Nat}
    {st' : AState} (h : genericStmt stm nxt st = .ok (a, st'))
    (hw : st.graph.Wf) : FrameS nxt st a st' := by
  obtain ⟨hA, hB, hC, _, hD, hE⟩ := genericStmt_frame h hw
  exact ⟨hA, hB, hC, hD, hE⟩

/-- A single fresh node whose targets are the next node or context
targets satisfies the statement frame. -/
theorem FrameS_leaf {p : Payload} {es : List (Label × Nat)} {st : AState}
    {a : Nat} {st' : AState} (nxt : Nat)
    (h : newNode p es st = .ok (a, st'))
    (hl : (es.map (·.1)).Nodup) (hw : st.graph.Wf)
    (hts : ∀ t ∈ es.map (·.2), t = nxt ∨ t ∈ ctxTargets st.ctx) :
    FrameS nxt st a st' := by
  obtain ⟨hwf, hc1, hc2, hctx, hback, hnm⟩ :=
    newNodeA nxt nxt st.counter h hl hw (le_refl _) (fun t ht => by
      rcases hts t ht with h2 | h2
      · exact Or.inl h2
      · exact Or.inr (Or.inr (Or.inl h2)))
  exact ⟨hwf, hc1, Or.inr hc2, fun m h1 h2 h3 => hback m h1 h2 h3 h3, hnm⟩

/-- The locality induction over all analyser functions. -/
theorem analyser_frame : ∀ f : Nat,
    (∀ s nxt st n st', NodupKeys st.ctx → st.graph.Wf →
      analyseStmt f s nxt st = .ok (n, st') → FrameS nxt st n st') ∧
    (∀ ss nxt st n st', NodupKeys st.ctx → st.graph.Wf →
      analyseStmts f ss nxt st = .ok (n, st') → FrameS nxt st n st') ∧
    (∀ hs nxt rn st n st', NodupKeys st.ctx → st.graph.Wf →
      analyseHandlers f hs nxt rn st = .ok (n, st') → FrameH nxt rn st n st') ∧
    (∀ stm b o nxt st n st', NodupKeys st.ctx → st.graph.Wf →
      analyseLoop f stm b o nxt st = .ok (n, st') → FrameS nxt st n st') ∧
    (∀ stm b nxt st n st', NodupKeys st.ctx → st.graph.Wf →
      analyseWith f stm b nxt st = .ok (n, st') → FrameS nxt st n st') ∧
    (∀ stm b hs o nxt st n st', NodupKeys st.ctx → st.graph.Wf →
      analyseTryExcept f stm b hs o nxt st = .ok (n, st') →
      FrameS nxt st n st') ∧
    (∀ fb nxt ps st u st', NodupKeys st.ctx → st.graph.Wf →
      processDummies f fb nxt ps st = .ok (u, st') → FrameP nxt ps st st') := by
  intro f
  induction f with
  | zero =>
      refine ⟨fun s nxt st n st' _ _ hok => ?_,
        fun ss nxt st n st' _ _ hok => ?_,
        fun hs nxt rn st n st' _ _ hok => ?_,
        fun stm b o nxt st n st' _ _ hok => ?_,
        fun stm b nxt st n st' _ _ hok => ?_,
        fun stm b hs o nxt st n st' _ _ hok => ?_,
        fun fb nxt ps st u st' _ _ hok => ?_⟩ <;>
        simp [analyseStmt, analyseStmts, analyseHandlers, analyseLoop,
          analyseWith, analyseTryExcept, processDummies] at hok
  | succ f ih =>
      obtain ⟨ihS, ihSS, ihH, ihL, ihW, ihT, ihP⟩ := ih
      refine ⟨?_, ?_, ?_, ?_, ?_, ?_, ?_⟩
      · intro s nxt st n st' hnd hw hok
        cases s with
        | pass =>
            exact FrameS_leaf nxt hok (labelsNodupSingle _ _) hw
              (by intro t ht; simp at ht; exact Or.inl ht)
        | globalS =>
            exact FrameS_leaf nxt hok (labelsNodupSingle _ _) hw
              (by intro t ht; simp at ht; exact Or.inl ht)
        | nonlocalS =>
            exact FrameS_leaf nxt hok (labelsNodupSingle _ _) hw
              (by intro t ht; simp at ht; exact Or.inl ht)
        | assign => exact FrameS_generic hok hw
        | augAssign => exact FrameS_generic hok hw
        | annAssign => exact FrameS_generic hok hw
        | delete => exact FrameS_generic hok hw
        | exprStmt => exact FrameS_generic hok hw
        | importS => exact FrameS_generic hok hw
        | importFrom => exact FrameS_generic hok hw
        | functionDef => exact FrameS_generic hok hw
        | asyncFunctionDef => exact FrameS_generic hok hw
        | classDef => exact FrameS_generic hok hw
        | breakS =>
            obtain ⟨b, st₁, h1, h2⟩ := bindR_ok_elim hok
            obtain ⟨hst, hlk⟩ := ctxLookup_ok h1
            rw [hst] at h2
            exact FrameS_leaf nxt h2 (labelsNodupSingle _ _) hw
              (by intro t ht; simp at ht; subst ht
                  exact Or.inr (mem_ctxTargets_of_lookupA hlk))
        | continueS =>
            obtain ⟨c, st₁, h1, h2⟩ := bindR_ok_elim hok
            obtain ⟨hst, hlk⟩ := ctxLookup_ok h1
            rw [hst] at h2
            exact FrameS_leaf nxt h2 (labelsNodupSingle _ _) hw
              (by intro t ht; simp at ht; subst ht
                  exact Or.inr (mem_ctxTargets_of_lookupA hlk))
        | raiseS =>
            obtain ⟨r, st₁, h1, h2⟩ := bindR_ok_elim hok
            obtain ⟨hst, hlk⟩ := ctxLookup_ok h1
            rw [hst] at h2
            exact FrameS_leaf nxt h2 (labelsNodupSingle _ _) hw
              (by intro t ht; simp at ht; subst ht
                  exact Or.inr (mem_ctxTargets_of_lookupA hlk))
        | ret v =>
            cases v with
            | none =>
                obtain ⟨lv, st₁, h1, h2⟩ := bindR_ok_elim hok
                obtain ⟨hst, hlk⟩ := ctxLookup_ok h1
                rw [hst] at h2
                exact FrameS_leaf nxt h2 (labelsNodupSingle _ _) hw
                  (by intro t ht; simp at ht; subst ht
                      exact Or.inr (mem_ctxTargets_of_lookupA hlk))
            | some e =>
                obtain ⟨rv, st₁, h1, h2⟩ := bindR_ok_elim hok
                obtain ⟨hst, hlk⟩ := ctxLookup_ok h1
                rw [hst] at h2
                cases hce : expression_as_constant e with
                | some c =>
                    simp only [hce] at h2
                    exact FrameS_leaf nxt h2 (labelsNodupSingle _ _) hw
                      (by intro t ht; simp at ht; subst ht
                          exact Or.inr (mem_ctxTargets_of_lookupA hlk))
                | none =>
                    simp only [hce] at h2
                    obtain ⟨r, st₂, h3, h4⟩ := bindR_ok_elim h2
                    obtain ⟨hst2, hlk2⟩ := ctxLookup_ok h3
                    rw [hst2] at h4
                    refine FrameS_leaf nxt h4 (labelsNodupNE _ _) hw ?_
                    intro t ht
                    simp at ht
                    rcases ht with ht | ht
                    · subst ht
                      exact Or.inr (mem_ctxTargets_of_lookupA hlk)
                    · subst ht
                      exact Or.inr (mem_ctxTargets_of_lookupA hlk2)
        | assertS test =>
            simp only [analyseStmt] at hok
            cases hce : expression_as_constant test with
            | some v =>
                simp only [hce] at hok
                cases hv : v.truthy
                · simp only [hv, Bool.false_eq_true, if_false] at hok
                  obtain ⟨r, st₁, h1, h2⟩ := bindR_ok_elim hok
                  obtain ⟨hst, hlk⟩ := ctxLookup_ok h1
                  rw [hst] at h2
                  exact FrameS_leaf nxt h2 (labelsNodupSingle _ _) hw
                    (by intro t ht; simp at ht; subst ht
                        exact Or.inr (mem_ctxTargets_of_lookupA hlk))
                · simp only [hv, if_true] at hok
                  exact FrameS_leaf nxt hok (labelsNodupSingle _ _) hw
                    (by intro t ht; simp at ht; exact Or.inl ht)
            | none =>
                simp only [hce] at hok
                obtain ⟨r, st₁, h1, h2⟩ := bindR_ok_elim hok
                obtain ⟨hst, hlk⟩ := ctxLookup_ok h1
                rw [hst] at h2
                refine FrameS_leaf nxt h2 (labelsNodupNE _ _) hw ?_
                intro t ht
                simp at ht
                rcases ht with ht | ht
                · exact Or.inl ht
                · subst ht
                  exact Or.inr (mem_ctxTargets_of_lookupA hlk)
        | ifS test body orelse =>
            obtain ⟨ifB, st₁, h1, h2⟩ := bindR_ok_elim hok
            obtain ⟨elseB, st₂, h3, h4⟩ := bindR_ok_elim h2
            have e1 := (analyser_ctx f).2.1 body nxt st ifB st₁ hnd h1
            obtain ⟨hw1, hc1, hn1, hb1, hm1⟩ := ihSS body nxt st ifB st₁ hnd hw h1
            have hnd1 : NodupKeys st₁.ctx := by rw [e1]; exact hnd
            have e2 := (analyser_ctx f).2.1 orelse nxt st₁ elseB st₂ hnd1 h3
            obtain ⟨hw2, hc2, hn2, hb2, hm2⟩ :=
              ihSS orelse nxt st₁ elseB st₂ hnd1 hw1 h3
            have e21 : st₂.ctx = st.ctx := by rw [e2, e1]
            have hfin : ∀ (es : List (Label × Nat)), (es.map (·.1)).Nodup →
                (∀ t ∈ es.map (·.2),
                  t = nxt ∨ t ∈ ctxTargets st₂.ctx ∨ st.counter ≤ t) →
                ∀ (pp : Payload) (nf : Nat) (stf : AState),
                  newNode pp es st₂ = .ok (nf, stf) →
                  FrameS nxt st nf stf := by
              intro es hl hts pp nf stf hnn
              obtain ⟨hwf, hcW, haW, hctxW, hbW, hmW⟩ :=
                newNodeA nxt nxt st.counter hnn hl hw2 (by omega)
                  (fun t ht => by
                    rcases hts t ht with h | h | h
                    · exact Or.inl h
                    · exact Or.inr (Or.inr (Or.inl h))
                    · exact Or.inr (Or.inr (Or.inr h)))
              refine ⟨hwf, by omega, Or.inr (by omega), ?_, ?_⟩
              · intro m hq1 hq2 hq3
                rw [hbW m hq1 (by rw [e21]; exact hq2) hq3 hq3,
                    hb2 m (by omega) (by rw [e1]; exact hq2) hq3,
                    hb1 m hq1 hq2 hq3]
              · intro m hq1 hq2
                exact hmW m hq1 (hm2 m (by omega) (hm1 m hq1 hq2))
            cases hce : expression_as_constant test with
            | some v =>
                simp only [hce] at h4
                cases hv : v.truthy
                · simp only [hv, Bool.false_eq_true, if_false] at h4
                  refine hfin _ (labelsNodupSingle _ _) ?_ _ _ _ h4
                  intro t ht
                  simp at ht
                  subst ht
                  rcases hn2 with h | h
                  · exact Or.inl h
                  · exact Or.inr (Or.inr (by omega))
                · simp only [hv, if_true] at h4
                  refine hfin _ (labelsNodupSingle _ _) ?_ _ _ _ h4
                  intro t ht
                  simp at ht
                  subst ht
                  rcases hn1 with h | h
                  · exact Or.inl h
                  · exact Or.inr (Or.inr (by omega))
            | none =>
                simp only [hce] at h4
                obtain ⟨r, st₃, h5, h6⟩ := bindR_ok_elim h4
                obtain ⟨hst3, hlk3⟩ := ctxLookup_ok h5
                rw [hst3] at h6
                refine hfin _ (labelsNodupEEE _ _ _) ?_ _ _ _ h6
                intro t ht
                simp at ht
                rcases ht with ht | ht | ht
                · subst ht
                  rcases hn1 with h | h
                  · exact Or.inl h
                  · exact Or.inr (Or.inr (by omega))
                · subst ht
                  rcases hn2 with h | h
                  · exact Or.inl h
                  · exact Or.inr (Or.inr (by omega))
                · subst ht
                  exact Or.inr (Or.inl (mem_ctxTargets_of_lookupA hlk3))
        | whileS test body orelse =>
            obtain ⟨elseN, st₁, h1, h2⟩ := bindR_ok_elim hok
            obtain ⟨dummy, st₂, h3, h4⟩ := bindR_ok_elim h2
            have e1 := (analyser_ctx f).2.1 orelse nxt st elseN st₁ hnd h1
            obtain ⟨hw1, hc1, hnE, hb1, hm1⟩ :=
              ihSS orelse nxt st elseN st₁ hnd hw h1
            obtain ⟨hw2, hdum, hc2, hctx2, _, hb2, hm2⟩ :=
              newNode_frame h3 labelsNodupNil hw1
            have e21 : st₂.ctx = st.ctx := by rw [hctx2, e1]
            obtain ⟨bodyN, st₄, h5, h6⟩ := bindR_ok_elim h4
            have hnd2 : NodupKeys
                (ctxApply [("break_", nxt), ("continue_", dummy)] st₂.ctx) :=
              ctxApply_keys_nodup _ _ (by rw [e21]; exact hnd)
            have e3 := (analyser_ctx f).2.1 body dummy
              { st₂ with ctx := ctxApply [("break_", nxt), ("continue_", dummy)] st₂.ctx }
              bodyN st₄ hnd2 h5
            have e3h : st₄.ctx =
                ctxApply [("break_", nxt), ("continue_", dummy)] st₂.ctx := e3
            obtain ⟨hw4, hc4x, hn4x, hb4x, hm4x⟩ := ihSS body dummy
              { st₂ with ctx := ctxApply [("break_", nxt), ("continue_", dummy)] st₂.ctx }
              bodyN st₄ hnd2 hw2 h5
            have hc4 : st₂.counter ≤ st₄.counter := hc4x
            have hn4 : bodyN = dummy ∨ st₂.counter ≤ bodyN := hn4x
            have hb3 : ∀ m, m < st₂.counter →
                m ∉ ctxTargets
                  (ctxApply [("break_", nxt), ("continue_", dummy)] st₂.ctx) →
                m ≠ dummy →
                st₄.graph.edges_to m = st₂.graph.edges_to m := hb4x
            have hm3 : ∀ m, m < st₂.counter → ¬ st₂.graph.mem m →
                ¬ st₄.graph.mem m := hm4x
            have hres : ctxRestore
                (ctxSaved [("break_", nxt), ("continue_", dummy)] st₂.ctx)
                st₄.ctx = st.ctx := by
              rw [e3h, ctx_restore_apply _ _ (nodupBC nxt dummy), e21]
            have hnot3 : ∀ m, m < st.counter → m ∉ ctxTargets st.ctx →
                m ≠ nxt → m ∉ ctxTargets
                  (ctxApply [("break_", nxt), ("continue_", dummy)]
                    st₂.ctx) := by
              intro m hq1 hq2 hq3 hcmem
              rcases ctxTargets_ctxApply _ _ _ hcmem with h | h
              · rw [e21] at h
                exact hq2 h
              · simp at h
                rcases h with h | h
                · exact hq3 h
                · omega
            have hfin : ∀ (br : List (Label × Nat)), (br.map (·.1)).Nodup →
                (∀ t ∈ br.map (·.2),
                  t = nxt ∨ t ∈ ctxTargets st.ctx ∨ st.counter ≤ t) →
                ∀ (a : Nat) (stf : AState),
                  finishLoop (.whileS test body orelse) br dummy
                    { st₄ with ctx := ctxRestore (ctxSaved [("break_", nxt), ("continue_", dummy)] st₂.ctx) st₄.ctx } = .ok (a, stf) →
                  FrameS nxt st a stf := by
              intro br hl hts a stf hfl
              obtain ⟨hwf, hcW, haW, hctxW, hbW, hmW⟩ :=
                finishLoopA nxt nxt st.counter hfl hl
                  (show st₄.graph.Wf from hw4)
                  (show st.counter ≤ st₄.counter by omega) (by omega)
                  (fun t ht => by
                    rcases hts t ht with h | h | h
                    · exact Or.inl h
                    · refine Or.inr (Or.inr (Or.inl ?_))
                      show t ∈ ctxTargets (ctxRestore
                        (ctxSaved [("break_", nxt), ("continue_", dummy)]
                          st₂.ctx) st₄.ctx)
                      rw [hres]
                      exact h
                    · exact Or.inr (Or.inr (Or.inr h)))
              have hcW2 : st₄.counter ≤ stf.counter := hcW
              have haW2 : st₄.counter ≤ a := haW
              refine ⟨hwf, by omega, Or.inr (by omega), ?_, ?_⟩
              · intro m hq1 hq2 hq3
                have hbW2 := hbW m hq1 (by
                  show m ∉ ctxTargets (ctxRestore
                    (ctxSaved [("break_", nxt), ("continue_", dummy)]
                      st₂.ctx) st₄.ctx)
                  rw [hres]
                  exact hq2) hq3 hq3
                rw [hbW2]
                show st₄.graph.edges_to m = st.graph.edges_to m
                rw [hb3 m (by omega) (hnot3 m hq1 hq2 hq3) (by omega),
                    hb2 m (by omega) (by simp),
                    hb1 m hq1 hq2 hq3]
              · intro m hq1 hq2
                refine hmW m hq1 ?_
                show ¬ st₄.graph.mem m
                exact hm3 m (by omega) (hm2 m (by omega) (hm1 m hq1 hq2))
            cases hce : expression_as_constant test with
            | some v =>
                simp only [hce] at h6
                cases hv : v.truthy
                · simp only [hv, Bool.false_eq_true, if_false] at h6
                  refine hfin _ (labelsNodupSingle _ _) ?_ _ _ h6
                  intro t ht
                  simp at ht
                  subst ht
                  rcases hnE with h | h
                  · exact Or.inl h
                  · exact Or.inr (Or.inr (by omega))
                · simp only [hv, if_true] at h6
                  refine hfin _ (labelsNodupSingle _ _) ?_ _ _ h6
                  intro t ht
                  simp at ht
                  subst ht
                  rcases hn4 with h | h
                  · exact Or.inr (Or.inr (by omega))
                  · exact Or.inr (Or.inr (by omega))
            | none =>
                simp only [hce] at h6
                obtain ⟨r, st₆, h7, h8⟩ := bindR_ok_elim h6
                obtain ⟨hst6, hlk6⟩ := ctxLookup_ok h7
                rw [hst6] at h8
                refine hfin _ (labelsNodupEEE _ _ _) ?_ _ _ h8
                intro t ht
                simp at ht
                rcases ht with ht | ht | ht
                · subst ht
                  rcases hn4 with h | h
                  · exact Or.inr (Or.inr (by omega))
                  · exact Or.inr (Or.inr (by omega))
                · subst ht
                  rcases hnE with h | h
                  · exact Or.inl h
                  · exact Or.inr (Or.inr (by omega))
                · subst ht
                  have := mem_ctxTargets_of_lookupA hlk6
                  rw [hres] at this
                  exact Or.inr (Or.inl this)
        | forS body orelse =>
            exact ihL (.forS body orelse) body orelse nxt st n st' hnd hw hok
        | asyncFor body orelse =>
            exact ihL (.asyncFor body orelse) body orelse nxt st n st' hnd hw
              hok
        | withS body => exact ihW (.withS body) body nxt st n st' hnd hw hok
        | asyncWith body =>
            exact ihW (.asyncWith body) body nxt st n st' hnd hw hok
        | tryS body handlers orelse finalbody =>
            obtain ⟨finN, st₁, h1, h2⟩ := bindR_ok_elim hok
            obtain ⟨pt, st₂, h3, h4⟩ := bindR_ok_elim h2
            have e1 := (analyser_ctx f).2.1 finalbody nxt st finN st₁ hnd h1
            obtain ⟨hw1, hc1, hnF, hb1, hm1⟩ :=
              ihSS finalbody nxt st finN st₁ hnd hw h1
            obtain ⟨e2, ekeys⟩ := buildDummies_ok st₁.ctx nxt finN [] [] st₁
              pt st₂ h3
            have e21 : st₂.ctx = st.ctx := by rw [e2, e1]
            obtain ⟨hw2, hc2, hb2, hm2, hkN, hvN, hpair, htv⟩ :=
              buildDummies_frame st₁.ctx nxt finN [] [] st₁ pt st₂
                st.counter h3 hw1 (by omega) (by intro q hq; cases hq)
                (by simp) (by simp)
            have hkeys : pt.2.map (·.1) = st₁.ctx.map (·.1) := by
              rw [ekeys]
              simp
            have hndt : (pt.2.map (·.1)).Nodup := by
              rw [hkeys, e1]
              exact hnd
            obtain ⟨entry, st₄, h5, h6⟩ := bindR_ok_elim h4
            have hnd3 : NodupKeys (ctxApply pt.2 st₂.ctx) :=
              ctxApply_keys_nodup _ _ (by rw [e21]; exact hnd)
            have e3 := (analyser_ctx f).2.2.2.2.2.1
              (.tryS body handlers orelse finalbody) body handlers orelse finN
              { st₂ with ctx := ctxApply pt.2 st₂.ctx } entry st₄ hnd3 h5
            have e3h : st₄.ctx = ctxApply pt.2 st₂.ctx := e3
            obtain ⟨hw4x, hc4x, hn4x, hb4x, hm4x⟩ := ihT
              (.tryS body handlers orelse finalbody) body handlers orelse finN
              { st₂ with ctx := ctxApply pt.2 st₂.ctx } entry st₄ hnd3 hw2 h5
            have hw4 : st₄.graph.Wf := hw4x
            have hc4 : st₂.counter ≤ st₄.counter := hc4x
            have hn4 : entry = finN ∨ st₂.counter ≤ entry := hn4x
            have hb4 : ∀ m, m < st₂.counter →
                m ∉ ctxTargets (ctxApply pt.2 st₂.ctx) → m ≠ finN →
                st₄.graph.edges_to m = st₂.graph.edges_to m := hb4x
            have hm4 : ∀ m, m < st₂.counter → ¬ st₂.graph.mem m →
                ¬ st₄.graph.mem m := hm4x
            have hres : ctxRestore (ctxSaved pt.2 st₂.ctx) st₄.ctx
                = st.ctx := by
              rw [e3h, ctx_restore_apply _ _ hndt, e21]
            obtain ⟨u, st₆, h7, h8⟩ := bindR_ok_elim h6
            have hnd5 : NodupKeys
                (ctxRestore (ctxSaved pt.2 st₂.ctx) st₄.ctx) := by
              rw [hres]
              exact hnd
            obtain ⟨hwPx, hcPx, hbPx, hmPx⟩ := ihP finalbody nxt pt.1
              { st₄ with ctx := ctxRestore (ctxSaved pt.2 st₂.ctx) st₄.ctx }
              u st₆ hnd5 hw4 h7
            have hwP : st₆.graph.Wf := hwPx
            have hcP : st₄.counter ≤ st₆.counter := hcPx
            have hbP : ∀ m, m < st₄.counter →
                m ∉ ctxTargets
                  (ctxRestore (ctxSaved pt.2 st₂.ctx) st₄.ctx) → m ≠ nxt →
                m ∉ pt.1.map (·.1) → m ∉ pt.1.map (·.2) →
                st₆.graph.edges_to m = st₄.graph.edges_to m := hbPx
            have hmP : ∀ m, m < st₄.counter → ¬ st₄.graph.mem m →
                ¬ st₆.graph.mem m := hmPx
            cases h8
            refine ⟨hwP, by omega, ?_, ?_, ?_⟩
            · rcases hn4 with h | h
              · rcases hnF with h2 | h2
                · exact Or.inl (h.trans h2)
                · exact Or.inr (by omega)
              · exact Or.inr (by omega)
            · intro m hq1 hq2 hq3
              have hmp1 : m ∉ pt.1.map (·.1) := by
                intro hc
                rw [List.mem_map] at hc
                obtain ⟨q, hq, hqe⟩ := hc
                rcases (hpair q hq).1 with h | h
                · cases h
                · rw [show ctxTargets st₁.ctx = st₁.ctx.map (·.2) from rfl,
                    ← show ctxTargets st₁.ctx = st₁.ctx.map (·.2) from rfl]
                    at h
                  have h2 := h.1
                  rw [e1] at h2
                  rw [hqe] at h2
                  exact hq2 h2
              have hmp2 : m ∉ pt.1.map (·.2) := by
                intro hc
                rw [List.mem_map] at hc
                obtain ⟨q, hq, hqe⟩ := hc
                have := (hpair q hq).2.1
                omega
              rw [hbP m (by omega) (by rw [hres]; exact hq2) hq3 hmp1 hmp2]
              have hnotA : m ∉ ctxTargets (ctxApply pt.2 st₂.ctx) := by
                intro hcmem
                rcases ctxTargets_ctxApply _ _ _ hcmem with h | h
                · rw [e21] at h
                  exact hq2 h
                · rcases htv m h with h2 | h2 | h2
                  · simp at h2
                  · rcases hnF with h3 | h3
                    · exact hq3 (h2.trans h3)
                    · omega
                  · omega
              have hmF : m ≠ finN := by
                rcases hnF with h3 | h3
                · rw [h3]; exact hq3
                · omega
              rw [hb4 m (by omega) hnotA hmF,
                  hb2 m (by omega),
                  hb1 m hq1 hq2 hq3]
            · intro m hq1 hq2
              exact hmP m (by omega)
                (hm4 m (by omega) (hm2 m (by omega) (hm1 m hq1 hq2)))
        | unsupported kind tag => cases hok
      · intro ss nxt st n st' hnd hw hok
        cases ss with
        | nil =>
            cases hok
            exact ⟨hw, le_refl _, Or.inl rfl, fun m _ _ _ => rfl,
              fun m _ h => h⟩
        | cons s rest =>
            obtain ⟨mid, st₁, h1, h2⟩ := bindR_ok_elim hok
            have e1 := (analyser_ctx f).2.1 rest nxt st mid st₁ hnd h1
            obtain ⟨hw1, hc1, hn1, hb1, hm1⟩ := ihSS rest nxt st mid st₁ hnd
              hw h1
            have hnd1 : NodupKeys st₁.ctx := by rw [e1]; exact hnd
            obtain ⟨hw2, hc2, hn2, hb2, hm2⟩ := ihS s mid st₁ n st' hnd1 hw1 h2
            refine ⟨hw2, by omega, ?_, ?_, ?_⟩
            · rcases hn2 with h | h
              · rcases hn1 with h2 | h2
                · exact Or.inl (h.trans h2)
                · exact Or.inr (by omega)
              · exact Or.inr (by omega)
            · intro m hq1 hq2 hq3
              have hmm : m ≠ mid := by
                rcases hn1 with h | h
                · rw [h]; exact hq3
                · omega
              rw [hb2 m (by omega) (by rw [e1]; exact hq2) hmm,
                  hb1 m hq1 hq2 hq3]
            · intro m hq1 hq2
              exact hm2 m (by omega) (hm1 m hq1 hq2)
      · intro hs nxt rn st n st' hnd hw hok
        cases hs with
        | nil =>
            cases hok
            exact ⟨hw, le_refl _, Or.inl rfl, fun m _ _ _ _ => rfl,
              fun m _ h => h⟩
        | cons h rest =>
            obtain ⟨rn₁, st₁, h1, h2⟩ := bindR_ok_elim hok
            have e1 := (analyser_ctx f).2.2.1 rest nxt rn st rn₁ st₁ hnd h1
            obtain ⟨hw1, hc1, hn1, hb1, hm1⟩ := ihH rest nxt rn st rn₁ st₁ hnd
              hw h1
            have hnd1 : NodupKeys st₁.ctx := by rw [e1]; exact hnd
            obtain ⟨matchN, st₂, h3, h4⟩ := bindR_ok_elim h2
            have e2 := (analyser_ctx f).2.1 h.2 nxt st₁ matchN st₂ hnd1 h3
            obtain ⟨hw2, hc2, hn2, hb2, hm2⟩ := ihSS h.2 nxt st₁ matchN st₂
              hnd1 hw1 h3
            have e21 : st₂.ctx = st.ctx := by rw [e2, e1]
            cases hte : h.1 with
            | none =>
                rw [hte] at h4
                cases h4
                refine ⟨hw2, by omega, ?_, ?_, ?_⟩
                · rcases hn2 with h5 | h5
                  · exact Or.inr (Or.inl h5)
                  · exact Or.inr (Or.inr (by omega))
                · intro m hq1 hq2 hq3 hq4
                  rw [hb2 m (by omega) (by rw [e1]; exact hq2) hq3,
                      hb1 m hq1 hq2 hq3 hq4]
                · intro m hq1 hq2
                  exact hm2 m (by omega) (hm1 m hq1 hq2)
            | some te =>
                rw [hte] at h4
                obtain ⟨r, st₃, h5, h6⟩ := bindR_ok_elim h4
                obtain ⟨hst3, hlk3⟩ := ctxLookup_ok h5
                rw [hst3] at h6
                obtain ⟨hwf, hcW, haW, hctxW, hbW, hmW⟩ :=
                  newNodeA nxt rn st.counter h6 (labelsNodupEEE _ _ _) hw2
                    (by omega) (fun t ht => by
                      simp at ht
                      rcases ht with ht | ht | ht
                      · subst ht
                        rcases hn2 with h7 | h7
                        · exact Or.inl h7
                        · exact Or.inr (Or.inr (Or.inr (by omega)))
                      · subst ht
                        rcases hn1 with h7 | h7 | h7
                        · exact Or.inr (Or.inl h7)
                        · exact Or.inl h7
                        · exact Or.inr (Or.inr (Or.inr (by omega)))
                      · subst ht
                        exact Or.inr (Or.inr (Or.inl
                          (mem_ctxTargets_of_lookupA hlk3))))
                refine ⟨hwf, by omega, Or.inr (Or.inr (by omega)), ?_, ?_⟩
                · intro m hq1 hq2 hq3 hq4
                  rw [hbW m hq1 (by rw [e21]; exact hq2) hq3 hq4,
                      hb2 m (by omega) (by rw [e1]; exact hq2) hq3,
                      hb1 m hq1 hq2 hq3 hq4]
                · intro m hq1 hq2
                  exact hmW m hq1 (hm2 m (by omega) (hm1 m hq1 hq2))
      · intro stm b o nxt st n st' hnd hw hok
        obtain ⟨dummy, st₁, h1, h2⟩ := bindR_ok_elim hok
        obtain ⟨hw1, hdum, hc1, hctx1, _, hb1, hm1⟩ :=
          newNode_frame h1 labelsNodupNil hw
        obtain ⟨bodyN, st₃, h3, h4⟩ := bindR_ok_elim h2
        have hnd2 : NodupKeys
            (ctxApply [("break_", nxt), ("continue_", dummy)] st₁.ctx) :=
          ctxApply_keys_nodup _ _ (by rw [hctx1]; exact hnd)
        have e2 := (analyser_ctx f).2.1 b dummy
          { st₁ with ctx := ctxApply [("break_", nxt), ("continue_", dummy)] st₁.ctx }
          bodyN st₃ hnd2 h3
        have e2h : st₃.ctx =
            ctxApply [("break_", nxt), ("continue_", dummy)] st₁.ctx := e2
        obtain ⟨hw3x, hc3x, hn3x, hb3x, hm3x⟩ := ihSS b dummy
          { st₁ with ctx := ctxApply [("break_", nxt), ("continue_", dummy)] st₁.ctx }
          bodyN st₃ hnd2 hw1 h3
        have hw3 : st₃.graph.Wf := hw3x
        have hc3 : st₁.counter ≤ st₃.counter := hc3x
        have hn3 : bodyN = dummy ∨ st₁.counter ≤ bodyN := hn3x
        have hb3 : ∀ m, m < st₁.counter →
            m ∉ ctxTargets
              (ctxApply [("break_", nxt), ("continue_", dummy)] st₁.ctx) →
            m ≠ dummy → st₃.graph.edges_to m = st₁.graph.edges_to m := hb3x
        have hm3 : ∀ m, m < st₁.counter → ¬ st₁.graph.mem m →
            ¬ st₃.graph.mem m := hm3x
        have hres : ctxRestore
            (ctxSaved [("break_", nxt), ("continue_", dummy)] st₁.ctx)
            st₃.ctx = st.ctx := by
          rw [e2h, ctx_restore_apply _ _ (nodupBC nxt dummy), hctx1]
        obtain ⟨elseN, st₅, h5, h6⟩ := bindR_ok_elim h4
        have hnd4 : NodupKeys (ctxRestore
            (ctxSaved [("break_", nxt), ("continue_", dummy)] st₁.ctx)
            st₃.ctx) := by
          rw [hres]
          exact hnd
        have e4 := (analyser_ctx f).2.1 o nxt
          { st₃ with ctx := ctxRestore (ctxSaved [("break_", nxt), ("continue_", dummy)] st₁.ctx) st₃.ctx } elseN st₅ hnd4 h5
        have e4h : st₅.ctx = ctxRestore
            (ctxSaved [("break_", nxt), ("continue_", dummy)] st₁.ctx)
            st₃.ctx := e4
        obtain ⟨hw5x, hc5x, hn5x, hb5x, hm5x⟩ := ihSS o nxt
          { st₃ with ctx := ctxRestore (ctxSaved [("break_", nxt), ("continue_", dummy)] st₁.ctx) st₃.ctx } elseN st₅ hnd4 hw3 h5
        have hw5 : st₅.graph.Wf := hw5x
        have hc5 : st₃.counter ≤ st₅.counter := hc5x
        have hn5 : elseN = nxt ∨ st₃.counter ≤ elseN := hn5x
        have hb5 : ∀ m, m < st₃.counter →
            m ∉ ctxTargets (ctxRestore
              (ctxSaved [("break_", nxt), ("continue_", dummy)] st₁.ctx)
              st₃.ctx) → m ≠ nxt →
            st₅.graph.edges_to m = st₃.graph.edges_to m := hb5x
        have hm5 : ∀ m, m < st₃.counter → ¬ st₃.graph.mem m →
            ¬ st₅.graph.mem m := hm5x
        obtain ⟨r, st₆, h7, h8⟩ := bindR_ok_elim h6
        obtain ⟨hst6, hlk6⟩ := ctxLookup_ok h7
        rw [hst6] at h8
        have e5ctx : st₅.ctx = st.ctx := by rw [e4h, hres]
        obtain ⟨hwf, hcW, haW, hctxW, hbW, hmW⟩ :=
          finishLoopA nxt nxt st.counter h8 (labelsNodupEEE _ _ _) hw5
            (by omega) (by omega) (fun t ht => by
              simp at ht
              rcases ht with ht | ht | ht
              · subst ht
                rcases hn3 with h9 | h9
                · exact Or.inr (Or.inr (Or.inr (by omega)))
                · exact Or.inr (Or.inr (Or.inr (by omega)))
              · subst ht
                rcases hn5 with h9 | h9
                · exact Or.inl h9
                · exact Or.inr (Or.inr (Or.inr (by omega)))
              · subst ht
                have := mem_ctxTargets_of_lookupA hlk6
                rw [e5ctx] at this
                refine Or.inr (Or.inr (Or.inl ?_))
                rw [e5ctx]
                exact this)
        refine ⟨hwf, by omega, Or.inr (by omega), ?_, ?_⟩
        · intro m hq1 hq2 hq3
          rw [hbW m hq1 (by rw [e5ctx]; exact hq2) hq3 hq3,
              hb5 m (by omega) (by rw [hres]; exact hq2) hq3,
              hb3 m (by omega) (by
                intro hcmem
                rcases ctxTargets_ctxApply _ _ _ hcmem with h9 | h9
                · rw [hctx1] at h9
                  exact hq2 h9
                · simp at h9
                  rcases h9 with h9 | h9
                  · exact hq3 h9
                  · omega) (by omega),
              hb1 m (by omega) (by simp)]
        · intro m hq1 hq2
          exact hmW m hq1 (hm5 m (by omega) (hm3 m (by omega)
            (hm1 m (by omega) hq2)))
      · intro stm b nxt st n st' hnd hw hok
        obtain ⟨bodyN, st₁, h1, h2⟩ := bindR_ok_elim hok
        have e1 := (analyser_ctx f).2.1 b nxt st bodyN st₁ hnd h1
        obtain ⟨hw1, hc1, hn1, hb1, hm1⟩ := ihSS b nxt st bodyN st₁ hnd hw h1
        obtain ⟨r, st₂, h3, h4⟩ := bindR_ok_elim h2
        obtain ⟨hst2, hlk2⟩ := ctxLookup_ok h3
        rw [hst2] at h4
        obtain ⟨hwf, hcW, haW, hctxW, hbW, hmW⟩ :=
          newNodeA nxt nxt st.counter h4 (labelsNodupEnterError _ _) hw1
            (by omega) (fun t ht => by
              simp at ht
              rcases ht with ht | ht
              · subst ht
                rcases hn1 with h5 | h5
                · exact Or.inl h5
                · exact Or.inr (Or.inr (Or.inr (by omega)))
              · subst ht
                exact Or.inr (Or.inr (Or.inl
                  (mem_ctxTargets_of_lookupA hlk2))))
        refine ⟨hwf, by omega, Or.inr (by omega), ?_, ?_⟩
        · intro m hq1 hq2 hq3
          rw [hbW m hq1 (by rw [e1]; exact hq2) hq3 hq3,
              hb1 m hq1 hq2 hq3]
        · intro m hq1 hq2
          exact hmW m hq1 (hm1 m hq1 hq2)
      · intro stm b hs o nxt st n st' hnd hw hok
        obtain ⟨rn0, st₀, h1, h2⟩ := bindR_ok_elim hok
        obtain ⟨hst0, hlk0⟩ := ctxLookup_ok h1
        rw [hst0] at h2
        have hrn0 : rn0 ∈ ctxTargets st.ctx := mem_ctxTargets_of_lookupA hlk0
        obtain ⟨rn, st₁, h3, h4⟩ := bindR_ok_elim h2
        have e1 := (analyser_ctx f).2.2.1 hs nxt rn0 st rn st₁ hnd h3
        obtain ⟨hw1, hc1, hn1, hb1, hm1⟩ := ihH hs nxt rn0 st rn st₁ hnd hw h3
        have hnd1 : NodupKeys st₁.ctx := by rw [e1]; exact hnd
        obtain ⟨elseN, st₂, h5, h6⟩ := bindR_ok_elim h4
        have e2 := (analyser_ctx f).2.1 o nxt st₁ elseN st₂ hnd1 h5
        obtain ⟨hw2, hc2, hn2, hb2, hm2⟩ := ihSS o nxt st₁ elseN st₂ hnd1
          hw1 h5
        have e21 : st₂.ctx = st.ctx := by rw [e2, e1]
        obtain ⟨bodyN, st₄, h7, h8⟩ := bindR_ok_elim h6
        have hnd3 : NodupKeys (ctxApply [("raise_", rn)] st₂.ctx) :=
          ctxApply_keys_nodup _ _ (by rw [e21]; exact hnd)
        have e3 := (analyser_ctx f).2.1 b elseN
          { st₂ with ctx := ctxApply [("raise_", rn)] st₂.ctx } bodyN st₄
          hnd3 h7
        have e3h : st₄.ctx = ctxApply [("raise_", rn)] st₂.ctx := e3
        obtain ⟨hw4x, hc4x, hn4x, hb4x, hm4x⟩ := ihSS b elseN
          { st₂ with ctx := ctxApply [("raise_", rn)] st₂.ctx } bodyN st₄
          hnd3 hw2 h7
        have hw4 : st₄.graph.Wf := hw4x
        have hc4 : st₂.counter ≤ st₄.counter := hc4x
        have hn4 : bodyN = elseN ∨ st₂.counter ≤ bodyN := hn4x
        have hb4 : ∀ m, m < st₂.counter →
            m ∉ ctxTargets (ctxApply [("raise_", rn)] st₂.ctx) → m ≠ elseN →
            st₄.graph.edges_to m = st₂.graph.edges_to m := hb4x
        have hm4 : ∀ m, m < st₂.counter → ¬ st₂.graph.mem m →
            ¬ st₄.graph.mem m := hm4x
        have hres : ctxRestore (ctxSaved [("raise_", rn)] st₂.ctx) st₄.ctx
            = st.ctx := by
          rw [e3h, ctx_restore_apply _ _ (nodupR rn), e21]
        obtain ⟨hwf, hcW, haW, hctxW, hbW, hmW⟩ :=
          newNodeA nxt nxt st.counter h8 (labelsNodupSingle _ _)
            (show ({ st₄ with ctx := ctxRestore (ctxSaved [("raise_", rn)] st₂.ctx) st₄.ctx } :
                AState).graph.Wf from hw4)
            (show st.counter ≤ st₄.counter by omega) (fun t ht => by
              simp at ht
              subst ht
              rcases hn4 with h9 | h9
              · rcases hn2 with h10 | h10
                · exact Or.inl (h9.trans h10)
                · exact Or.inr (Or.inr (Or.inr (by omega)))
              · exact Or.inr (Or.inr (Or.inr (by omega))))
        have hcW2 : st₄.counter ≤ st'.counter := hcW
        have haW2 : st₄.counter ≤ n := haW
        refine ⟨hwf, by omega, Or.inr (by omega), ?_, ?_⟩
        · intro m hq1 hq2 hq3
          have hbW2 := hbW m hq1 (by
            show m ∉ ctxTargets
              (ctxRestore (ctxSaved [("raise_", rn)] st₂.ctx) st₄.ctx)
            rw [hres]
            exact hq2) hq3 hq3
          rw [hbW2]
          show st₄.graph.edges_to m = st.graph.edges_to m
          have hmE : m ≠ elseN := by
            rcases hn2 with h9 | h9
            · rw [h9]; exact hq3
            · omega
          rw [hb4 m (by omega) (by
              intro hcmem
              rcases ctxTargets_ctxApply _ _ _ hcmem with h9 | h9
              · rw [e21] at h9
                exact hq2 h9
              · simp at h9
                subst h9
                rcases hn1 with h10 | h10 | h10
                · exact hq2 (h10 ▸ hrn0)
                · exact hq3 h10
                · omega) hmE,
            hb2 m (by omega) (by rw [e1]; exact hq2) hq3,
            hb1 m hq1 hq2 hq3 (fun hc => hq2 (hc ▸ hrn0))]
        · intro m hq1 hq2
          exact hmW m hq1 (hm4 m (by omega) (hm2 m (by omega)
            (hm1 m hq1 hq2)))
      · intro fb nxt ps st u st' hnd hw hok
        cases ps with
        | nil =>
            cases hok
            exact ⟨hw, le_refl _, fun m _ _ _ _ _ => rfl, fun m _ h => h⟩
        | cons p rest =>
            obtain ⟨endN, d⟩ := p
            simp only [processDummies] at hok
            by_cases hc : endN = nxt ∨ hasParents st.graph d
            · rw [if_pos hc] at hok
              obtain ⟨finEntry, st₁, h1, h2⟩ := bindR_ok_elim hok
              have e1 := (analyser_ctx f).2.1 fb endN st finEntry st₁ hnd h1
              obtain ⟨hw1, hc1, hn1, hb1, hm1⟩ := ihSS fb endN st finEntry st₁
                hnd hw h1
              cases hx : st₁.graph.collapse_node d finEntry with
              | mk g oe =>
                  rw [hx] at h2
                  cases oe with
                  | none =>
                      have hok2 : (st₁.graph.collapse_node d finEntry).2
                          = none := by rw [hx]
                      have hwg : g.Wf := by
                        have := hw1.collapse_node d finEntry
                        rw [hx] at this
                        exact this
                      obtain ⟨hwPx, hcPx, hbPx, hmPx⟩ := ihP fb nxt rest
                        { st₁ with graph := g } u st'
                        (show NodupKeys st₁.ctx by rw [e1]; exact hnd) hwg h2
                      have hwP : st'.graph.Wf := hwPx
                      have hcP : st₁.counter ≤ st'.counter := hcPx
                      have hbP : ∀ m, m < st₁.counter →
                          m ∉ ctxTargets st₁.ctx → m ≠ nxt →
                          m ∉ rest.map (·.1) → m ∉ rest.map (·.2) →
                          st'.graph.edges_to m = g.edges_to m := hbPx
                      have hmP : ∀ m, m < st₁.counter → ¬ g.mem m →
                          ¬ st'.graph.mem m := hmPx
                      refine ⟨hwP, by omega, ?_, ?_⟩
                      · intro m hq1 hq2 hq3 hq4 hq5
                        simp only [List.map_cons, List.mem_cons, not_or]
                          at hq4 hq5
                        rw [hbP m (by omega) (by rw [e1]; exact hq2) hq3
                            hq4.2 hq5.2]
                        have hmF : m ≠ finEntry := by
                          rcases hn1 with h9 | h9
                          · rw [h9]; exact hq4.1
                          · omega
                        have hstep : g.edges_to m
                            = st₁.graph.edges_to m := by
                          have := CFGraph.collapse_node_edges_to_other hw1 d
                            finEntry hok2 m hq5.1 hmF
                          rw [hx] at this
                          exact this
                        rw [hstep, hb1 m hq1 hq2 hq4.1]
                      · intro m hq1 hq2
                        refine hmP m (by omega) ?_
                        have := CFGraph.collapse_node_not_mem hw1 d finEntry m
                          (hm1 m hq1 hq2)
                        rw [hx] at this
                        exact this
                  | some e => cases h2
            · rw [if_neg hc] at hok
              cases hx : st.graph.remove_node d with
              | mk g oe =>
                  rw [hx] at hok
                  cases oe with
                  | none =>
                      have hwg : g.Wf := by
                        have := hw.remove_node d
                        rw [hx] at this
                        exact this
                      obtain ⟨hwPx, hcPx, hbPx, hmPx⟩ := ihP fb nxt rest
                        { st with graph := g } u st' hnd hwg hok
                      have hwP : st'.graph.Wf := hwPx
                      have hcP : st.counter ≤ st'.counter := hcPx
                      have hbP : ∀ m, m < st.counter →
                          m ∉ ctxTargets st.ctx → m ≠ nxt →
                          m ∉ rest.map (·.1) → m ∉ rest.map (·.2) →
                          st'.graph.edges_to m = g.edges_to m := hbPx
                      have hmP : ∀ m, m < st.counter → ¬ g.mem m →
                          ¬ st'.graph.mem m := hmPx
                      refine ⟨hwP, by omega, ?_, ?_⟩
                      · intro m hq1 hq2 hq3 hq4 hq5
                        simp only [List.map_cons, List.mem_cons, not_or]
                          at hq4 hq5
                        rw [hbP m hq1 hq2 hq3 hq4.2 hq5.2]
                        have hstep : g.edges_to m
                            = st.graph.edges_to m := by
                          have := CFGraph.remove_node_edges_to st.graph d m
                          rw [hx] at this
                          exact this
                        rw [hstep]
                      · intro m hq1 hq2
                        refine hmP m hq1 ?_
                        have := CFGraph.remove_node_not_mem d m hq2
                        rw [hx] at this
                        exact this
                  | some e => cases hok

/-! ### The dummy-processing loop against the post-try-except graph -/

theorem CFGraph.remove_node_ok_conds (g : CFGraph) (n : Nat)
    (h : (g.remove_node n).2 = none) :
    g.mem n ∧ g.fwd n = [] ∧ g.edges_to n = [] := by
  unfold CFGraph.remove_node at h
  by_cases h1 : ¬ g.mem n
  · rw [if_pos h1] at h
    cases h
  · rw [if_neg h1] at h
    by_cases h2 : g.fwd n ≠ []
    · rw [if_pos h2] at h
      cases h
    · rw [if_neg h2] at h
      by_cases h3 : g.edges_to n ≠ []
      · rw [if_pos h3] at h
        cases h
      · exact ⟨not_not.mp h1, not_not.mp h2, not_not.mp h3⟩

/-- Characterisation of the per-pair behaviour of the final loop of
`_analyse_stmt_Try`, with each pair's condition evaluated against the
graph as it stood when the loop started (i.e. right after the
try-except-else part was analysed): reached dummies (or the pair whose
end target is the supplied next) get a fresh copy of the finally body
analysed with `next` set to the pair's original end target and are
collapsed onto its entry; unreached dummies are removed with no
incoming edges, and no dummy survives in the final graph.  The
hypotheses say that the dummies are fresh pairwise-distinct nodes
outside the context targets, the supplied next and the end targets —
exactly the situation `_analyse_stmt_Try` creates. -/
theorem processDummies_spec : ∀ (f : Nat) (fb : List Stmt) (nxt : Nat)
    (ps : List (Nat × Nat)) (st : AState) (u : Unit) (st' : AState),
    NodupKeys st.ctx → st.graph.Wf →
    ((ps.map (·.2)).Nodup) →
    (∀ q ∈ ps, q.2 < st.counter ∧ q.2 ∉ ctxTargets st.ctx ∧ q.2 ≠ nxt ∧
      ∀ q' ∈ ps, q.2 ≠ q'.1) →
    processDummies f fb nxt ps st = .ok (u, st') →
    ∀ q ∈ ps,
      ¬ st'.graph.mem q.2 ∧
      ((q.1 = nxt ∨ hasParents st.graph q.2) →
        ∃ (fq : Nat) (stq : AState) (finE : Nat) (stOut : AState),
          stq.ctx = st.ctx ∧
          analyseStmts fq fb q.1 stq = .ok (finE, stOut) ∧
          (stOut.graph.collapse_node q.2 finE).2 = none) ∧
      (¬ (q.1 = nxt ∨ hasParents st.graph q.2) →
        ∃ stq : AState, stq.ctx = st.ctx ∧
          stq.graph.edges_to q.2 = [] ∧
          (stq.graph.remove_node q.2).2 = none) := by
  intro f
  induction f with
  | zero =>
      intro fb nxt ps st u st' _ _ _ _ hok
      simp [processDummies] at hok
  | succ f ih =>
      intro fb nxt ps st u st' hnd hw hvnd hqs hok
      cases ps with
      | nil => intro q hq; cases hq
      | cons p rest =>
          obtain ⟨endN, d⟩ := p
          simp only [processDummies] at hok
          have hvtail : (rest.map (·.2)).Nodup := by
            simp only [List.map_cons, List.nodup_cons] at hvnd
            exact hvnd.2
          have hdtail : d ∉ rest.map (·.2) := by
            simp only [List.map_cons, List.nodup_cons] at hvnd
            exact hvnd.1
          by_cases hc : endN = nxt ∨ hasParents st.graph d
          · rw [if_pos hc] at hok
            obtain ⟨finEntry, st₁, h1, h2⟩ := bindR_ok_elim hok
            have e1 := (analyser_ctx f).2.1 fb endN st finEntry st₁ hnd h1
            obtain ⟨hw1, hc1, hn1, hb1, hm1⟩ :=
              (analyser_frame f).2.1 fb endN st finEntry st₁ hnd hw h1
            cases hx : st₁.graph.collapse_node d finEntry with
            | mk g oe =>
                rw [hx] at h2
                cases oe with
                | some e => cases h2
                | none =>
                    have hok2 : (st₁.graph.collapse_node d finEntry).2
                        = none := by rw [hx]
                    have hwg : g.Wf := by
                      have := hw1.collapse_node d finEntry
                      rw [hx] at this
                      exact this
                    have hndR : NodupKeys st₁.ctx := by rw [e1]; exact hnd
                    have hqsR : ∀ q ∈ rest, q.2 < st₁.counter ∧
                        q.2 ∉ ctxTargets st₁.ctx ∧ q.2 ≠ nxt ∧
                        ∀ q' ∈ rest, q.2 ≠ q'.1 := by
                      intro q hq
                      obtain ⟨hq1, hq2, hq3, hq4⟩ :=
                        hqs q (List.mem_cons_of_mem _ hq)
                      refine ⟨by omega, by rw [e1]; exact hq2, hq3, ?_⟩
                      intro q' hq'
                      exact hq4 q' (List.mem_cons_of_mem _ hq')
                    have hrest := ih fb nxt rest { st₁ with graph := g } u st'
                      hndR hwg hvtail hqsR h2
                    obtain ⟨hwP, hcP, hbP, hmP⟩ :=
                      (analyser_frame f).2.2.2.2.2.2 fb nxt rest
                        { st₁ with graph := g } u st' hndR hwg h2
                    intro q hq
                    rcases List.mem_cons.mp hq with hq | hq
                    · subst hq
                      refine ⟨?_, ?_, ?_⟩
                      · have hnm1 : ¬ g.mem d := by
                          have := CFGraph.collapse_node_self_not_mem hw1 d
                            finEntry hok2
                          rw [hx] at this
                          exact this
                        have hqd := hqs (endN, d) (List.mem_cons_self _ _)
                        exact hmP d (by
                          show (d : Nat) < st₁.counter
                          omega) hnm1
                      · intro _
                        exact ⟨f, st, finEntry, st₁, rfl, h1, hok2⟩
                      · intro hneg
                        exact absurd hc hneg
                    · obtain ⟨hq1, hq2, hq3, hq4⟩ :=
                        hqs q (List.mem_cons_of_mem _ hq)
                      have hqd : q.2 ≠ d := by
                        intro hcc
                        exact hdtail (hcc ▸ (List.mem_map.mpr ⟨q, hq, rfl⟩))
                      have hqe : q.2 ≠ endN :=
                        hq4 (endN, d) (List.mem_cons_self _ _)
                      have hqf : q.2 ≠ finEntry := by
                        rcases hn1 with h9 | h9
                        · rw [h9]; exact hqe
                        · omega
                      have hstab : g.edges_to q.2
                          = st.graph.edges_to q.2 := by
                        have hco : g.edges_to q.2
                            = st₁.graph.edges_to q.2 := by
                          have := CFGraph.collapse_node_edges_to_other hw1 d
                            finEntry hok2 q.2 hqd hqf
                          rw [hx] at this
                          exact this
                        rw [hco, hb1 q.2 hq1 hq2 hqe]
                      have hhp : hasParents g q.2
                          = hasParents st.graph q.2 := by
                        unfold hasParents
                        rw [hstab]
                      obtain ⟨hA, hB, hC⟩ := hrest q hq
                      refine ⟨hA, ?_, ?_⟩
                      · intro hcond
                        have hcond2 : q.1 = nxt ∨
                            hasParents ({ st₁ with graph := g } :
                              AState).graph q.2 := by
                          rcases hcond with h9 | h9
                          · exact Or.inl h9
                          · refine Or.inr ?_
                            show hasParents g q.2 = true
                            rw [hhp]
                            exact h9
                        obtain ⟨fq, stq, finE, stOut, hT1, hT2, hT3⟩ :=
                          hB hcond2
                        refine ⟨fq, stq, finE, stOut, ?_, hT2, hT3⟩
                        rw [hT1]
                        show st₁.ctx = st.ctx
                        exact e1
                      · intro hcond
                        have hcond2 : ¬ (q.1 = nxt ∨
                            hasParents ({ st₁ with graph := g } :
                              AState).graph q.2) := by
                          intro h9
                          refine hcond ?_
                          rcases h9 with h9 | h9
                          · exact Or.inl h9
                          · refine Or.inr ?_
                            have h10 : hasParents g q.2 = true := h9
                            rw [hhp] at h10
                            exact h10
                        obtain ⟨stq, hT1, hT2, hT3⟩ := hC hcond2
                        refine ⟨stq, ?_, hT2, hT3⟩
                        rw [hT1]
                        show st₁.ctx = st.ctx
                        exact e1
          · rw [if_neg hc] at hok
            cases hx : st.graph.remove_node d with
            | mk g oe =>
                rw [hx] at hok
                cases oe with
                | some e => cases hok
                | none =>
                    have hok2 : (st.graph.remove_node d).2 = none := by
                      rw [hx]
                    have hwg : g.Wf := by
                      have := hw.remove_node d
                      rw [hx] at this
                      exact this
                    have hqsR : ∀ q ∈ rest, q.2 < st.counter ∧
                        q.2 ∉ ctxTargets st.ctx ∧ q.2 ≠ nxt ∧
                        ∀ q' ∈ rest, q.2 ≠ q'.1 := by
                      intro q hq
                      obtain ⟨hq1, hq2, hq3, hq4⟩ :=
                        hqs q (List.mem_cons_of_mem _ hq)
                      refine ⟨hq1, hq2, hq3, ?_⟩
                      intro q' hq'
                      exact hq4 q' (List.mem_cons_of_mem _ hq')
                    have hrest := ih fb nxt rest { st with graph := g } u st'
                      hnd hwg hvtail hqsR hok
                    obtain ⟨hwP, hcP, hbP, hmP⟩ :=
                      (analyser_frame f).2.2.2.2.2.2 fb nxt rest
                        { st with graph := g } u st' hnd hwg hok
                    intro q hq
                    rcases List.mem_cons.mp hq with hq | hq
                    · subst hq
                      refine ⟨?_, ?_, ?_⟩
                      · have hnm1 : ¬ g.mem d := by
                          have := CFGraph.remove_node_self_not_mem hw d hok2
                          rw [hx] at this
                          exact this
                        have hqd := hqs (endN, d) (List.mem_cons_self _ _)
                        exact hmP d (by
                          show (d : Nat) < st.counter
                          exact hqd.1) hnm1
                      · intro hcond
                        exact absurd hcond hc
                      · intro _
                        exact ⟨st, rfl,
                          (CFGraph.remove_node_ok_conds _ _ hok2).2.2, hok2⟩
                    · obtain ⟨hq1, hq2, hq3, hq4⟩ :=
                        hqs q (List.mem_cons_of_mem _ hq)
                      have hstab : g.edges_to q.2
                          = st.graph.edges_to q.2 := by
                        have := CFGraph.remove_node_edges_to st.graph d q.2
                        rw [hx] at this
                        exact this
                      have hhp : hasParents g q.2
                          = hasParents st.graph q.2 := by
                        unfold hasParents
                        rw [hstab]
                      obtain ⟨hA, hB, hC⟩ := hrest q hq
                      refine ⟨hA, ?_, ?_⟩
                      · intro hcond
                        have hcond2 : q.1 = nxt ∨
                            hasParents ({ st with graph := g } :
                              AState).graph q.2 := by
                          rcases hcond with h9 | h9
                          · exact Or.inl h9
                          · refine Or.inr ?_
                            show hasParents g q.2 = true
                            rw [hhp]
                            exact h9
                        obtain ⟨fq, stq, finE, stOut, hT1, hT2, hT3⟩ :=
                          hB hcond2
                        exact ⟨fq, stq, finE, stOut, hT1, hT2, hT3⟩
                      · intro hcond
                        have hcond2 : ¬ (q.1 = nxt ∨
                            hasParents ({ st with graph := g } :
                              AState).graph q.2) := by
                          intro h9
                          refine hcond ?_
                          rcases h9 with h9 | h9
                          · exact Or.inl h9
                          · refine Or.inr ?_
                            have h10 : hasParents g q.2 = true := h9
                            rw [hhp] at h10
                            exact h10
                        obtain ⟨stq, hT1, hT2, hT3⟩ := hC hcond2
                        exact ⟨stq, hT1, hT2, hT3⟩

/-!
### Claim C4 (try/finally: one finally copy per distinct target)
-/

/-- The decomposition of a successful `_analyse_stmt_Try` run: the
fall-through finally copy is analysed unconditionally with the supplied
next as destination; the dummy-construction loop yields at most one
dummy per distinct downstream target among the context roles other than
the supplied next; the try-except-else part is analysed against the
dummy-laden context; and each dummy is either given a fresh finally copy
wired to its original end target and collapsed onto the copy's entry
(exactly when its end target is the supplied next or it has an incoming
edge in the post-try-except graph), or removed while still edgeless —
and no dummy survives in the final graph. -/
def TryFinallySpec (f : Nat) (body : List Stmt)
    (handlers : List (Option Expr × List Stmt)) (orelse finalbody : List Stmt)
    (nxt : Nat) (st : AState) (n : Nat) (st' : AState) : Prop :=
  ∃ (finN : Nat) (st₁ : AState) (pairs : List (Nat × Nat)) (tns : Ctx)
    (st₂ st₄ : AState),
    analyseStmts f finalbody nxt st = .ok (finN, st₁) ∧
    buildDummies st₁.ctx nxt finN [] [] st₁ = .ok ((pairs, tns), st₂) ∧
    (pairs.map (·.1)).Nodup ∧
    (∀ q ∈ pairs, q.1 ∈ ctxTargets st₁.ctx ∧ q.1 ≠ nxt) ∧
    analyseTryExcept f (.tryS body handlers orelse finalbody) body handlers
      orelse finN { st₂ with ctx := ctxApply tns st₂.ctx } = .ok (n, st₄) ∧
    ∀ q ∈ pairs,
      ¬ st'.graph.mem q.2 ∧
      ((q.1 = nxt ∨ hasParents st₄.graph q.2) →
        ∃ (fq : Nat) (stq : AState) (finE : Nat) (stOut : AState),
          stq.ctx = st.ctx ∧
          analyseStmts fq finalbody q.1 stq = .ok (finE, stOut) ∧
          (stOut.graph.collapse_node q.2 finE).2 = none) ∧
      (¬ (q.1 = nxt ∨ hasParents st₄.graph q.2) →
        ∃ stq : AState, stq.ctx = st.ctx ∧
          stq.graph.edges_to q.2 = [] ∧
          (stq.graph.remove_node q.2).2 = none)

/--
C4: for every try statement with a finally block, a successful analysis
decomposes as follows.  The fall-through copy of the finally body (the
one whose onward destination is the supplied next node) is always
analysed, even when that path is unreachable.  One dummy is allocated
for at most one copy per distinct downstream target node among the
current context roles other than the supplied next (pairwise-distinct
end targets).  Every such copy is analysed — with `next` set to the
pair's original end target, the dummy being collapsed onto the copy's
entry — exactly when the pair's end target is the supplied next or its
dummy node has at least one incoming edge after analysing the
try-except-else part; an unreached dummy is instead removed while it
has no incoming edges at all, and no dummy survives in the final graph.
(Hypotheses: context role labels are pairwise distinct, the graph is
well-formed, and the context targets and the next node predate the
node counter — invariants of every real analyser state.)
-/
theorem claim_C4_try_finally (f : Nat) (body : List Stmt)
    (handlers : List (Option Expr × List Stmt)) (orelse finalbody : List Stmt)
    (nxt : Nat) (st : AState) (n : Nat) (st' : AState)
    (hnd : NodupKeys st.ctx) (hw : st.graph.Wf)
    (htg : ∀ t ∈ ctxTargets st.ctx, t < st.counter)
    (hnx : nxt < st.counter)
    (hok : analyseStmt (f + 1) (.tryS body handlers orelse finalbody) nxt st
      = .ok (n, st')) :
    TryFinallySpec f body handlers orelse finalbody nxt st n st' := by
  obtain ⟨finN, st₁, h1, h2⟩ := bindR_ok_elim hok
  obtain ⟨pt, st₂, h3, h4⟩ := bindR_ok_elim h2
  have e1 := (analyser_ctx f).2.1 finalbody nxt st finN st₁ hnd h1
  obtain ⟨hw1, hc1, hnF, hb1, hm1⟩ :=
    (analyser_frame f).2.1 finalbody nxt st finN st₁ hnd hw h1
  obtain ⟨e2, ekeys⟩ := buildDummies_ok st₁.ctx nxt finN [] [] st₁ pt st₂ h3
  have e21 : st₂.ctx = st.ctx := by rw [e2, e1]
  obtain ⟨hw2, hc2, hb2, hm2, hkN, hvN, hpair, htv⟩ :=
    buildDummies_frame st₁.ctx nxt finN [] [] st₁ pt st₂ st.counter h3 hw1
      (by omega) (by intro q hq; cases hq) (by simp) (by simp)
  have hkeys : pt.2.map (·.1) = st₁.ctx.map (·.1) := by
    rw [ekeys]
    simp
  have hndt : (pt.2.map (·.1)).Nodup := by
    rw [hkeys, e1]
    exact hnd
  obtain ⟨entry, st₄, h5, h6⟩ := bindR_ok_elim h4
  have hnd3 : NodupKeys (ctxApply pt.2 st₂.ctx) :=
    ctxApply_keys_nodup _ _ (by rw [e21]; exact hnd)
  have e3 := (analyser_ctx f).2.2.2.2.2.1
    (.tryS body handlers orelse finalbody) body handlers orelse finN
    { st₂ with ctx := ctxApply pt.2 st₂.ctx } entry st₄ hnd3 h5
  have e3h : st₄.ctx = ctxApply pt.2 st₂.ctx := e3
  obtain ⟨hw4x, hc4x, hn4x, hb4x, hm4x⟩ := (analyser_frame f).2.2.2.2.2.1
    (.tryS body handlers orelse finalbody) body handlers orelse finN
    { st₂ with ctx := ctxApply pt.2 st₂.ctx } entry st₄ hnd3 hw2 h5
  have hw4 : st₄.graph.Wf := hw4x
  have hc4 : st₂.counter ≤ st₄.counter := hc4x
  have hres : ctxRestore (ctxSaved pt.2 st₂.ctx) st₄.ctx = st.ctx := by
    rw [e3h, ctx_restore_apply _ _ hndt, e21]
  obtain ⟨u, st₆, h7, h8⟩ := bindR_ok_elim h6
  have hnd5 : NodupKeys (ctxRestore (ctxSaved pt.2 st₂.ctx) st₄.ctx) := by
    rw [hres]
    exact hnd
  have hspec := processDummies_spec f finalbody nxt pt.1
    { st₄ with ctx := ctxRestore (ctxSaved pt.2 st₂.ctx) st₄.ctx } u st₆
    hnd5 hw4 hvN (by
      intro q hq
      obtain ⟨hmem, hlo, hhi⟩ := hpair q hq
      refine ⟨by show q.2 < st₄.counter; omega, ?_, by omega, ?_⟩
      · show q.2 ∉ ctxTargets (ctxRestore (ctxSaved pt.2 st₂.ctx) st₄.ctx)
        rw [hres]
        intro hcc
        have := htg q.2 hcc
        omega
      · intro q' hq'
        obtain ⟨hmem', _, _⟩ := hpair q' hq'
        have hq'1 : q'.1 ∈ ctxTargets st₁.ctx := by
          rcases hmem' with h9 | h9
          · cases h9
          · exact h9.1
        rw [e1] at hq'1
        have := htg q'.1 hq'1
        omega) h7
  cases h8
  refine ⟨finN, st₁, pt.1, pt.2, st₂, st₄, h1, h3, hkN, ?_, h5, ?_⟩
  · intro q hq
    obtain ⟨hmem, _, _⟩ := hpair q hq
    rcases hmem with h9 | h9
    · cases h9
    · exact h9
  · intro q hq
    obtain ⟨hA, hB, hC⟩ := hspec q hq
    refine ⟨hA, ?_, ?_⟩
    · intro hcond
      obtain ⟨fq, stq, finE, stOut, hT1, hT2, hT3⟩ := hB hcond
      refine ⟨fq, stq, finE, stOut, ?_, hT2, hT3⟩
      rw [hT1]
      show ctxRestore (ctxSaved pt.2 st₂.ctx) st₄.ctx = st.ctx
      exact hres
    · intro hcond
      obtain ⟨stq, hT1, hT2, hT3⟩ := hC hcond
      refine ⟨stq, ?_, hT2, hT3⟩
      rw [hT1]
      show ctxRestore (ctxSaved pt.2 st₂.ctx) st₄.ctx = st.ctx
      exact hres

theorem demoFnState_wf : demoFnState.graph.Wf := by
  have h1 := CFGraph.wf_empty.add_node 0 ([] : List (Label × Nat))
    labelsNodupNil
  have h2 := h1.add_node 1 ([] : List (Label × Nat)) labelsNodupNil
  have h3 := h2.add_node 2 ([] : List (Label × Nat)) labelsNodupNil
  exact h3

/-- Witness for C4: `try: return\nfinally: pass` in a concrete function
context; the fall-through finally copy is analysed and the two dummies
(for the untouched raise and return roles) are unreached and removed. -/
theorem claim_C4_try_finally_witness :
    ∃ (n : Nat) (st' : AState),
      analyseStmt 9 (.tryS [.ret none] [] [] [.pass]) 0 demoFnState
        = .ok (n, st') ∧
      TryFinallySpec 8 [.ret none] [] [] [.pass] 0 demoFnState n st' := by
  obtain ⟨n, st', h⟩ : ∃ (n : Nat) (st' : AState),
      analyseStmt 9 (.tryS [.ret none] [] [] [.pass]) 0 demoFnState
        = .ok (n, st') := ⟨_, _, rfl⟩
  exact ⟨n, st', h, claim_C4_try_finally 8 [.ret none] [] [] [.pass] 0
    demoFnState n st'
    (by show (demoFnState.ctx.map (·.1)).Nodup; decide) demoFnState_wf
    (by decide) (by decide) h⟩

/-! ### Claim C8 (unsupported statement kinds) -/

/--
C8 counterexample: the error signalled for an unsupported statement kind
does not carry the offending AST node.  Two distinct unsupported
statements of the same kind produce identical analyser results — an
`AttributeError` holding only the derived method name — so no consumer
of the error can recover the offending node from it.
-/
theorem claim_C8_counterexample :
    analyse_module 50 [.unsupported "Match" 0] =
      .error (.attrErr "_analyse_stmt_Match") ∧
    analyse_module 50 [.unsupported "Match" 1] =
      .error (.attrErr "_analyse_stmt_Match") ∧
    Stmt.unsupported "Match" 0 ≠ Stmt.unsupported "Match" 1 := by
  refine ⟨rfl, rfl, ?_⟩
  intro h
  simp at h

/--
C8 (amended): for every statement whose AST kind is outside the
supported statement set, the analyser signals a single fault category —
an `AttributeError` surfaced to the caller that carries the name of the
missing method `_analyse_stmt_<kind>` (the statement's kind, not the
AST node itself) — and for statements of supported kinds (all nested
statements included) no such error is ever signalled.
-/
theorem claim_C8_unsupported_dispatch :
    (∀ (kind : String) (tag fuel nxt : Nat) (st : AState),
      analyseStmt (fuel + 1) (.unsupported kind tag) nxt st =
        .error (.attrErr ("_analyse_stmt_" ++ kind))) ∧
    (∀ (f : Nat) (s : Stmt) (nxt : Nat) (st : AState) (m : String),
      supportedStmt s = true →
      analyseStmt f s nxt st ≠ .error (.attrErr m)) := by
  constructor
  · intro kind tag fuel nxt st
    rfl
  · intro f s nxt st m hsup
    exact (analyser_noAttr f).1 s nxt st hsup m

/-- Witness for C8 (amended) at a concrete unsupported statement and a
concrete supported one. -/
theorem claim_C8_unsupported_dispatch_witness :
    analyseStmt 5 (.unsupported "Match" 7) 0 initState =
      .error (.attrErr "_analyse_stmt_Match") ∧
    analyseStmt 5 .pass 0 initState ≠
      .error (.attrErr "_analyse_stmt_Match") :=
  ⟨claim_C8_unsupported_dispatch.1 "Match" 7 4 0 initState,
    claim_C8_unsupported_dispatch.2 5 .pass 0 initState "_analyse_stmt_Match"
      rfl⟩

/-! ### Claims C5 and C7 (concrete runs of `analyse_function`) -/

/--
C5: analysing the function body `while True: pass` yields a While node
(the entry) whose only out-edge is `enter → P`, where `P` is the Pass
node whose only out-edge is `next` back to the While node itself, and
the analysis result has no `leave_node`, no `raise_node` and no
`return_node`.
-/
theorem claim_C5_while_true_pass :
    ∃ res P,
      analyse_function 100 [.whileS (.const (.bool true)) [.pass] []] =
        .ok res ∧
      lookupA res.payload res.entry =
        some (.stmt (.whileS (.const (.bool true)) [.pass] [])) ∧
      res.graph.edge_labels res.entry = [ENTER] ∧
      res.graph.edge res.entry ENTER = some P ∧
      lookupA res.payload P = some (.stmt .pass) ∧
      res.graph.edge_labels P = [NEXT] ∧
      res.graph.edge P NEXT = some res.entry ∧
      res.leaveNode = none ∧ res.raiseNode = none ∧ res.returnNode = none := by
  refine ⟨_, 4, rfl, ?_, ?_, ?_, ?_, ?_, ?_, ?_, ?_, ?_⟩ <;> rfl

/--
C7 counterexample: analysing `def f(): return 3` does *not* give the
Return node an `error` edge — its only out-edge label is `next` — and
the raise node is pruned, so the analysis has no `raise_node` at all.
The value `3` is a recognised compile-time constant, so
`_analyse_stmt_Return` omits the error edge.
-/
theorem claim_C7_counterexample :
    ∃ res,
      analyse_function 100 [.ret (some (.const (.int 3)))] = .ok res ∧
      lookupA res.payload res.entry =
        some (.stmt (.ret (some (.const (.int 3))))) ∧
      res.graph.edge_labels res.entry = [NEXT] ∧
      res.graph.edge res.entry ERROR = none ∧
      res.raiseNode = none := by
  refine ⟨_, rfl, ?_, ?_, ?_, ?_⟩ <;> rfl

/--
C7 (amended): analysing `def f(): return 3` produces exactly one
non-synthetic node, a Return node (the entry), whose edge set is
`{next → return_node}` — the `error` edge is omitted because `3` is a
recognised compile-time constant — and the resulting analysis has no
`leave_node` and no `raise_node`.
-/
theorem claim_C7_return_constant :
    ∃ res,
      analyse_function 100 [.ret (some (.const (.int 3)))] = .ok res ∧
      res.astNodes = [res.entry] ∧
      lookupA res.payload res.entry =
        some (.stmt (.ret (some (.const (.int 3))))) ∧
      res.graph.edge_labels res.entry = [NEXT] ∧
      (∃ rn, res.returnNode = some rn ∧
        res.graph.edge res.entry NEXT = some rn) ∧
      res.leaveNode = none ∧ res.raiseNode = none := by
  refine ⟨_, rfl, ?_, ?_, ?_, ⟨2, rfl, rfl⟩, ?_, ?_⟩ <;> rfl

end PyCFA
